import Mathlib

/-!
# Verification of the primitiv computation-graph engine

Shallow embedding of `primitiv/shape.h` and `primitiv/graph.cc`.

* C++ vectors are lists. The `unsigned` and `int` indices of graph.cc are natural
  numbers: the embedding covers graphs of fewer than `2 ^ 31` steps, for which no index
  conversion in graph.cc wraps. Where 32-bit arithmetic is observable, in `Shape::size`,
  it is reduced modulo `2 ^ 32`.
* Every mutating member function of `Graph` is a function from the graph before the
  call to an `Outcome`: what the call returned or how it failed, the graph after the
  call (also after a failure), and the list of operation contracts it invoked.
* The abstract class `Function` (function.h), `Tensor` (tensor.h) and `Device`
  (device.h) are not part of the sources; they are taken as parameters, following
  the contract the specification gives for them.
* A thrown `primitiv::Error`, a call of `std::abort()` and undefined behaviour (a null
  pointer dereferenced) are the values of `Failure`.
-/

namespace primitiv

/-! ## Definitions -/

/-- Class `Shape` of shape.h: the stored axis sizes `dim_` and the batch size `k_`. -/
structure Shape where
  dim_ : List Nat
  k_ : Nat
deriving DecidableEq, Repr

/-- Member `Shape::dim_size`: `i < dim_.size() ? dim_[i] : 1`. -/
def Shape.dim_size (s : Shape) (i : Nat) : Nat :=
  if i < s.dim_.length then s.dim_.getD i 1 else 1

/-- Member `Shape::batch_size`. -/
def Shape.batch_size (s : Shape) : Nat := s.k_

/-- Member `Shape::size`: `s = k_; for d in dim_: s *= d`, in `unsigned` arithmetic. -/
def Shape.size (s : Shape) : Nat :=
  s.dim_.foldl (fun acc d => (acc * d) % 2 ^ 32) (s.k_ % 2 ^ 32)

/-- Modelled from the spec: the device abstraction of device.h, which is not among the
sources. The graph only stores references to devices and asks them for filled tensors;
a device is identified by a number. -/
structure Device where
  id : Nat
deriving DecidableEq, Repr

/-- Modelled from the spec: the tensor container of tensor.h, which is not among the
sources. A term of this type is a tensor for which `valid()` holds; it exposes its shape.
The default-constructed `Tensor()`, for which `valid()` is false, is `none` in
`Option (Tensor α)`, and so is a null `const Tensor *`. The scalar type `α` stands for
`float`. -/
structure Tensor (α : Type) where
  shape : Shape
  device : Device
  data : List α
deriving DecidableEq, Repr

/-- Modelled from the spec: `Device::new_tensor(shape, k)` (the spec's `allocate_filled`),
a tensor of the given shape on this device, every element equal to `k`. -/
def Device.new_tensor {α : Type} (d : Device) (s : Shape) (k : α) : Tensor α :=
  ⟨s, d, List.replicate s.size k⟩

/-- Struct `Address`, with the fields graph.cc uses: function ID and value ID. -/
structure Address where
  fid : Nat
  vid : Nat
deriving DecidableEq, Repr

/-- Class `Node`, with the members graph.cc uses: the owning graph (its address `g_`),
the function ID and the value ID. -/
structure Node where
  g_ : Nat
  fid_ : Nat
  vid_ : Nat
deriving DecidableEq, Repr

/-- The gradient tensors a backward contract can reach through the `Tensor *` pointers
it is handed: a pointer is the address of the slot whose gradient it points to. -/
abbrev GradHeap (α : Type) := Address → Option (Tensor α)

/-- What a backward contract leaves behind: the gradient tensors after the call, and
whether the call raised an error instead of returning. -/
structure BackwardResult (α : Type) where
  heap : GradHeap α
  raised : Bool

/-- Modelled from the spec: the abstract class `Function` of function.h (the spec's
Operation capability), which is not among the sources.
* `forward_shape` is the shape inference; `none` is the raised shape error.
* `get_device` is the declared device, `none` for a null pointer.
* `get_inner_value` is the inner value, `none` for a null pointer.
* `forward` maps the argument values to the value; `none` is a raised error.
* `backward cur_value cur_grad arg_values arg_grads heap` receives the argument values
  (null pointers are `none`) and the pointers `arg_grads` to the gradient tensors of the
  arguments, reads and writes the tensors behind these pointers, and returns the heap
  it leaves together with whether it raised an error. Two equal pointers name the
  same tensor. -/
structure Function (α : Type) where
  name : String
  forward_shape : List Shape → Option Shape
  get_device : Option Device
  get_inner_value : Option (Tensor α)
  forward : List (Tensor α) → Option (Tensor α)
  backward : Tensor α → Tensor α → List (Option (Tensor α)) → List Address →
    GradHeap α → BackwardResult α

/-- Struct `NodeInfo`, with the fields in the order `add_function` initialises them.
The tensors `value` and `grad` are `none` while they are not valid. -/
structure NodeInfo (α : Type) where
  shape : Shape
  device : Device
  value : Option (Tensor α)
  grad : Option (Tensor α)
  sinks : List Nat

/-- Struct `FunctionInfo`, with the fields in the order `add_function` initialises them. -/
structure FunctionInfo (α : Type) where
  func : Function α
  args : List Address
  rets : List (NodeInfo α)

/-- Class `Graph`: the address of the object (what `this` is compared with) and the
member `funcs_`. -/
structure Graph (α : Type) where
  addr : Nat
  funcs_ : List (FunctionInfo α)

/-- The ways a call can fail. -/
inductive Failure where
  /-- The error "Graph mismatched." thrown by `CHECK_NODE`; it can be caught. -/
  | graphMismatch
  /-- The call of `std::abort()` in `CHECK_NODE` ("Invalid node detected."). -/
  | invalidNode
  /-- The error raised by `Function::forward_shape`. -/
  | shapeError
  /-- The error "Bad device forwarding of function ..." thrown by `add_function`. -/
  | badDevice
  /-- An error raised by `Function::forward` or `Function::backward`. -/
  | functionError
  /-- A null pointer is dereferenced or a vector is indexed out of range. -/
  | undefinedBehaviour
  /-- The recursion of `forward_recursive` did not return within the fuel. -/
  | outOfFuel
  /-- The error "Default graph is null." thrown by `get_default`; it can be caught. -/
  | defaultNull
deriving DecidableEq, Repr

/-- The contracts of operations that a call invokes, in the order of invocation. -/
inductive Event (α : Type) where
  /-- The call of `Function::forward` of step `fid`. -/
  | forward (fid : Nat)
  /-- The call of `Function::backward` of step `fid`, with the gradient `cur_grad`
  it is handed. -/
  | backward (fid : Nat) (cur_grad : Tensor α)
deriving DecidableEq, Repr

/-- What a member function of `Graph` leaves behind: the returned value or the failure,
the graph after the call, and the contracts invoked. -/
structure Outcome (α ρ : Type) where
  ret : Except Failure ρ
  g : Graph α
  log : List (Event α)

/-- The steps whose forward contract a log records, in order. -/
def forward_calls {α : Type} : List (Event α) → List Nat
  | [] => []
  | Event.forward fid :: l => fid :: forward_calls l
  | Event.backward _ _ :: l => forward_calls l

/-- The steps whose backward contract a log records, in order. -/
def backward_calls {α : Type} : List (Event α) → List Nat
  | [] => []
  | Event.forward _ :: l => backward_calls l
  | Event.backward fid _ :: l => fid :: backward_calls l

/-- Replace element `i` of a vector by its image under `f`. -/
def modify_at {β : Type} (l : List β) (i : Nat) (f : β → β) : List β :=
  match l[i]? with
  | some x => l.set i (f x)
  | none => l

/-- The element `funcs[fid].rets[vid]`, when both indices are in range. -/
def node_at {α : Type} (funcs : List (FunctionInfo α)) (fid vid : Nat) :
    Option (NodeInfo α) :=
  match funcs[fid]? with
  | none => none
  | some f => f.rets[vid]?

/-- Assignment to the element `funcs[fid].rets[vid]`: it becomes its image under `upd`. -/
def update_node {α : Type} (funcs : List (FunctionInfo α)) (fid vid : Nat)
    (upd : NodeInfo α → NodeInfo α) : List (FunctionInfo α) :=
  modify_at funcs fid fun f => { f with rets := modify_at f.rets vid upd }

/-- Member `Graph::clear`: `funcs_.clear()`. -/
def Graph.clear {α : Type} (g : Graph α) : Graph α :=
  { g with funcs_ := [] }

/-- Macro `CHECK_NODE`: `none` when the node passes, otherwise the failure. -/
def Graph.CHECK_NODE {α : Type} (g : Graph α) (n : Node) : Option Failure :=
  if n.g_ ≠ g.addr then some Failure.graphMismatch
  else
    match g.funcs_[n.fid_]? with
    | none => some Failure.invalidNode
    | some f => if n.vid_ < f.rets.length then none else some Failure.invalidNode

/-- Macro `ACCESS`: `funcs_[n.fid_].rets[n.vid_]`. -/
def Graph.ACCESS {α : Type} (g : Graph α) (n : Node) : Option (NodeInfo α) :=
  node_at g.funcs_ n.fid_ n.vid_

/-- The first loop of `Graph::add_function`: checks every argument in order and
gathers its address and its shape. -/
def Graph.gather_args {α : Type} (g : Graph α) :
    List Node → Except Failure (List Address × List Shape)
  | [] => Except.ok ([], [])
  | arg :: rest =>
    match g.CHECK_NODE arg with
    | some e => Except.error e
    | none =>
      match g.ACCESS arg with
      | none => Except.error Failure.undefinedBehaviour
      | some n =>
        match g.gather_args rest with
        | Except.error e => Except.error e
        | Except.ok (addrs, shapes) =>
          Except.ok (⟨arg.fid_, arg.vid_⟩ :: addrs, n.shape :: shapes)

/-- One round of the loop that updates the graph in `Graph::add_function`:
`funcs_[arg_addr.fid].rets[arg_addr.vid].sinks.emplace_back(ret_fid)`. -/
def register_sink {α : Type} (ret_fid : Nat) (funcs : List (FunctionInfo α))
    (arg_addr : Address) : List (FunctionInfo α) :=
  update_node funcs arg_addr.fid arg_addr.vid fun n =>
    { n with sinks := n.sinks ++ [ret_fid] }

/-- Device forwarding in `Graph::add_function`: the device of the function, or else
the device of `args[0]`, or else a null pointer. -/
def Graph.ret_device {α : Type} (g : Graph α) (func : Function α) (args : List Node) :
    Option Device :=
  match func.get_device with
  | some d => some d
  | none =>
    match args with
    | [] => none
    | arg0 :: _ => (g.ACCESS arg0).map NodeInfo.device

/-- Member `Graph::add_function`. -/
def Graph.add_function {α : Type} (g : Graph α) (func : Function α) (args : List Node) :
    Outcome α Node :=
  match g.gather_args args with
  | Except.error e => ⟨Except.error e, g, []⟩
  | Except.ok (arg_addrs, arg_shapes) =>
    match func.forward_shape arg_shapes with
    | none => ⟨Except.error Failure.shapeError, g, []⟩
    | some ret_shape =>
      match g.ret_device func args with
      | none => ⟨Except.error Failure.badDevice, g, []⟩
      | some ret_device =>
        let rets : List (NodeInfo α) := [⟨ret_shape, ret_device, none, none, []⟩]
        let ret_fid := g.funcs_.length
        let funcs := arg_addrs.foldl (register_sink ret_fid) g.funcs_
        ⟨Except.ok ⟨g.addr, ret_fid, 0⟩,
          { g with funcs_ := funcs ++ [⟨func, arg_addrs, rets⟩] }, []⟩

/-- Member `Graph::get_shape`. -/
def Graph.get_shape {α : Type} (g : Graph α) (node : Node) : Except Failure Shape :=
  match g.CHECK_NODE node with
  | some e => Except.error e
  | none =>
    match g.ACCESS node with
    | none => Except.error Failure.undefinedBehaviour
    | some n => Except.ok n.shape

/-- Member `Graph::get_device`. -/
def Graph.get_device {α : Type} (g : Graph α) (node : Node) : Except Failure Device :=
  match g.CHECK_NODE node with
  | some e => Except.error e
  | none =>
    match g.ACCESS node with
    | none => Except.error Failure.undefinedBehaviour
    | some n => Except.ok n.device

/-- The memoized value of slot 0 of step `fid`, `none` when it is not valid. -/
def Graph.value_at {α : Type} (g : Graph α) (fid : Nat) : Option (Tensor α) :=
  (node_at g.funcs_ fid 0).bind NodeInfo.value

/-- The gradient tensor behind a pointer to `funcs_[a.fid].rets[a.vid].grad`. -/
def Graph.grad_heap {α : Type} (g : Graph α) : GradHeap α := fun a =>
  (node_at g.funcs_ a.fid a.vid).bind NodeInfo.grad

/-- The gradient of slot 0 of step `fid`, `none` when it is not valid. -/
def Graph.grad_at {α : Type} (g : Graph α) (fid : Nat) : Option (Tensor α) :=
  g.grad_heap ⟨fid, 0⟩

/-- Assignment `funcs_[fid].rets[0].value = v`. -/
def Graph.set_value {α : Type} (g : Graph α) (fid : Nat) (v : Option (Tensor α)) :
    Graph α :=
  { g with funcs_ := update_node g.funcs_ fid 0 fun n => { n with value := v } }

/-- Assignment `funcs_[a.fid].rets[a.vid].grad = t`. -/
def Graph.set_grad {α : Type} (g : Graph α) (a : Address) (t : Option (Tensor α)) :
    Graph α :=
  { g with funcs_ := update_node g.funcs_ a.fid a.vid fun n => { n with grad := t } }

/-- The loop `for (const Address &arg : cur_f.args)` of `forward_recursive`, with the
recursive call `rec`: the values of the arguments, in order. -/
def gather_values {α : Type} (rec : Nat → Graph α → Outcome α (Tensor α)) :
    List Address → Graph α → Outcome α (List (Tensor α))
  | [], g => ⟨Except.ok [], g, []⟩
  | arg :: rest, g =>
    let r := rec arg.fid g
    match r.ret with
    | Except.error e => ⟨Except.error e, r.g, r.log⟩
    | Except.ok v =>
      let rs := gather_values rec rest r.g
      match rs.ret with
      | Except.error e => ⟨Except.error e, rs.g, r.log ++ rs.log⟩
      | Except.ok vs => ⟨Except.ok (v :: vs), rs.g, r.log ++ rs.log⟩

/-- The closure `forward_recursive` of `Graph::forward`. The first argument bounds the
depth of the recursion. -/
def forward_recursive {α : Type} : Nat → Nat → Graph α → Outcome α (Tensor α)
  | 0, _, g => ⟨Except.error Failure.outOfFuel, g, []⟩
  | fuel + 1, fid, g =>
    match g.funcs_[fid]? with
    | none => ⟨Except.error Failure.undefinedBehaviour, g, []⟩
    | some cur_f =>
      match cur_f.rets[0]? with
      | none => ⟨Except.error Failure.undefinedBehaviour, g, []⟩
      | some cur_n =>
        match cur_f.func.get_inner_value with
        | some inner_v => ⟨Except.ok inner_v, g, []⟩
        | none =>
          match cur_n.value with
          | some v => ⟨Except.ok v, g, []⟩
          | none =>
            let r := gather_values (forward_recursive fuel) cur_f.args g
            match r.ret with
            | Except.error e => ⟨Except.error e, r.g, r.log⟩
            | Except.ok arg_values =>
              match cur_f.func.forward arg_values with
              | none =>
                ⟨Except.error Failure.functionError, r.g, r.log ++ [Event.forward fid]⟩
              | some v =>
                ⟨Except.ok v, r.g.set_value fid (some v), r.log ++ [Event.forward fid]⟩

/-- Member `Graph::forward`. The recursion is given as many levels as the graph has
steps. -/
def Graph.forward {α : Type} (g : Graph α) (node : Node) : Outcome α (Tensor α) :=
  match g.CHECK_NODE node with
  | some e => ⟨Except.error e, g, []⟩
  | none => forward_recursive g.funcs_.length node.fid_ g

/-- The expression `n.value.valid() ? &n.value : f.func->get_inner_value()`. -/
def value_or_inner {α : Type} (f : FunctionInfo α) (n : NodeInfo α) : Option (Tensor α) :=
  match n.value with
  | some v => some v
  | none => f.func.get_inner_value

/-- The loop of `Graph::backward` that gathers the argument values and makes the
gradient of every argument valid (zero of the shape of its value). -/
def gather_grads {α : Type} [Zero α] :
    List Address → Graph α → Except Failure (List (Option (Tensor α))) × Graph α
  | [], g => (Except.ok [], g)
  | arg :: rest, g =>
    match g.funcs_[arg.fid]? with
    | none => (Except.error Failure.undefinedBehaviour, g)
    | some arg_f =>
      match arg_f.rets[arg.vid]? with
      | none => (Except.error Failure.undefinedBehaviour, g)
      | some arg_n =>
        let arg_v := value_or_inner arg_f arg_n
        match arg_n.grad, arg_v with
        | none, none => (Except.error Failure.undefinedBehaviour, g)
        | none, some v =>
          match gather_grads rest (g.set_grad arg (some (arg_n.device.new_tensor v.shape 0))) with
          | (Except.error e, g1) => (Except.error e, g1)
          | (Except.ok vs, g1) => (Except.ok (arg_v :: vs), g1)
        | some _, _ =>
          match gather_grads rest g with
          | (Except.error e, g1) => (Except.error e, g1)
          | (Except.ok vs, g1) => (Except.ok (arg_v :: vs), g1)

/-- The tensors behind the pointers `ptrs` as a backward contract left them. -/
def Graph.store_grads {α : Type} (g : Graph α) (ptrs : List Address) (heap : GradHeap α) :
    Graph α :=
  ptrs.foldl (fun g1 a => g1.set_grad a (heap a)) g

/-- One round of the loop `for (int fid = node.fid_; fid >= 0; --fid)` of
`Graph::backward`. -/
def backward_step {α : Type} [Zero α] (fid : Nat) (g : Graph α) : Outcome α Unit :=
  match g.funcs_[fid]? with
  | none => ⟨Except.error Failure.undefinedBehaviour, g, []⟩
  | some cur_f =>
    match cur_f.rets[0]? with
    | none => ⟨Except.error Failure.undefinedBehaviour, g, []⟩
    | some cur_n =>
      let cur_v := value_or_inner cur_f cur_n
      match cur_n.grad with
      | none => ⟨Except.ok (), g, []⟩
      | some cur_grad =>
        match gather_grads cur_f.args g with
        | (Except.error e, g1) => ⟨Except.error e, g1, []⟩
        | (Except.ok arg_values, g1) =>
          match cur_v with
          | none => ⟨Except.error Failure.undefinedBehaviour, g1, []⟩
          | some v =>
            let b := cur_f.func.backward v cur_grad arg_values cur_f.args g1.grad_heap
            let g2 := g1.store_grads cur_f.args b.heap
            if b.raised then
              ⟨Except.error Failure.functionError, g2, [Event.backward fid cur_grad]⟩
            else
              ⟨Except.ok (), g2.set_grad ⟨fid, 0⟩ none, [Event.backward fid cur_grad]⟩

/-- The loop `for (int fid = node.fid_; fid >= 0; --fid)` of `Graph::backward`:
`backward_loop n` runs the rounds `fid = n - 1, ..., 0`. -/
def backward_loop {α : Type} [Zero α] : Nat → Graph α → Outcome α Unit
  | 0, g => ⟨Except.ok (), g, []⟩
  | n + 1, g =>
    let r := backward_step n g
    match r.ret with
    | Except.error e => ⟨Except.error e, r.g, r.log⟩
    | Except.ok _ =>
      let rs := backward_loop n r.g
      ⟨rs.ret, rs.g, r.log ++ rs.log⟩

/-- The part of `Graph::backward` after the value of the last node is known: the
identity gradient at the last node, then the backpropagation loop. -/
def seed_and_sweep {α : Type} [Zero α] [One α] (g : Graph α) (node : Node)
    (device : Device) (shape : Shape) : Outcome α Unit :=
  backward_loop (node.fid_ + 1)
    (g.set_grad ⟨node.fid_, node.vid_⟩ (some (device.new_tensor shape 1)))

/-- Member `Graph::backward`. After `forward(node)` the pointer `last_v` is the address
of the member `last_n.value`, which is never null, so the error "The node ... is not
yet forwarded." cannot be thrown; asking a tensor that is not valid for its shape is
taken as undefined. -/
def Graph.backward {α : Type} [Zero α] [One α] (g : Graph α) (node : Node) :
    Outcome α Unit :=
  match g.CHECK_NODE node with
  | some e => ⟨Except.error e, g, []⟩
  | none =>
    match g.funcs_[node.fid_]? with
    | none => ⟨Except.error Failure.undefinedBehaviour, g, []⟩
    | some last_f =>
      match last_f.rets[node.vid_]? with
      | none => ⟨Except.error Failure.undefinedBehaviour, g, []⟩
      | some last_n =>
        match value_or_inner last_f last_n with
        | some last_v => seed_and_sweep g node last_n.device last_v.shape
        | none =>
          let r := g.forward node
          match r.ret with
          | Except.error e => ⟨Except.error e, r.g, r.log⟩
          | Except.ok _ =>
            match r.g.ACCESS node with
            | none => ⟨Except.error Failure.undefinedBehaviour, r.g, r.log⟩
            | some n1 =>
              match n1.value with
              | none => ⟨Except.error Failure.undefinedBehaviour, r.g, r.log⟩
              | some last_v =>
                let rs := seed_and_sweep r.g node n1.device last_v.shape
                ⟨rs.ret, rs.g, r.log ++ rs.log⟩

/-- The values of the arguments under the reference evaluation `rec`, in argument
order; the first failure is the result. -/
def eval_values {α : Type} (rec : Nat → Except Failure (Tensor α)) :
    List Address → Except Failure (List (Tensor α))
  | [] => Except.ok []
  | a :: rest =>
    match rec a.fid with
    | Except.error e => Except.error e
    | Except.ok v =>
      match eval_values rec rest with
      | Except.error e => Except.error e
      | Except.ok vs => Except.ok (v :: vs)

/-- The reference evaluation as the specification words it, with a bound on the depth:
the inner value when the operation exposes one, otherwise the forward contract applied
to the reference values of the arguments. -/
def eval_fuel {α : Type} (g : Graph α) : Nat → Nat → Except Failure (Tensor α)
  | 0, _ => Except.error Failure.outOfFuel
  | fuel + 1, i =>
    match g.funcs_[i]? with
    | none => Except.error Failure.undefinedBehaviour
    | some f =>
      match f.func.get_inner_value with
      | some v => Except.ok v
      | none =>
        match eval_values (eval_fuel g fuel) f.args with
        | Except.error e => Except.error e
        | Except.ok vs =>
          match f.func.forward vs with
          | none => Except.error Failure.functionError
          | some v => Except.ok v

/-- The reference evaluation `eval(i)` of step `i`. -/
def Graph.eval {α : Type} (g : Graph α) (i : Nat) : Except Failure (Tensor α) :=
  eval_fuel g (i + 1) i

/-- The equation that defines the reference evaluation at step `i` with record `f`. -/
def eval_equation {α : Type} (g : Graph α) (i : Nat) (f : FunctionInfo α) : Prop :=
  g.eval i =
    match f.func.get_inner_value with
    | some v => Except.ok v
    | none =>
      match eval_values g.eval f.args with
      | Except.error e => Except.error e
      | Except.ok vs =>
        match f.func.forward vs with
        | none => Except.error Failure.functionError
        | some v => Except.ok v

/-- The node passes `CHECK_NODE`. -/
def Graph.valid {α : Type} (g : Graph α) (n : Node) : Prop :=
  g.CHECK_NODE n = none

/-- The graph states that calls of the member functions reach from an empty graph;
a call counts whether it returns or fails. -/
inductive Reachable {α : Type} [Zero α] [One α] : Graph α → Prop where
  | empty (addr : Nat) : Reachable ⟨addr, []⟩
  | add_function {g : Graph α} (func : Function α) (args : List Node) :
      Reachable g → Reachable (g.add_function func args).g
  | clear {g : Graph α} : Reachable g → Reachable g.clear
  | forward {g : Graph α} (node : Node) : Reachable g → Reachable (g.forward node).g
  | backward {g : Graph α} (node : Node) : Reachable g → Reachable (g.backward node).g

/-- The graph states that calls of `add_function` and `clear` reach from an empty graph. -/
inductive Constructed {α : Type} : Graph α → Prop where
  | empty (addr : Nat) : Constructed ⟨addr, []⟩
  | add_function {g : Graph α} (func : Function α) (args : List Node) :
      Constructed g → Constructed (g.add_function func args).g
  | clear {g : Graph α} : Constructed g → Constructed g.clear

/-- The topological invariant: every step has one output slot, and every argument
address of step `i` names slot 0 of a step before `i`. -/
def Graph.Topological {α : Type} (g : Graph α) : Prop :=
  ∀ (i : Nat) (f : FunctionInfo α), g.funcs_[i]? = some f →
    f.rets.length = 1 ∧ ∀ a ∈ f.args, a.fid < i ∧ a.vid = 0

/-- The graph with every output slot replaced by its image under `h`; with `h` erasing
a field, two graphs have the same image when they differ in that field only. -/
def Graph.map_nodes {α : Type} (h : NodeInfo α → NodeInfo α) (g : Graph α) : Graph α :=
  { g with funcs_ := g.funcs_.map fun f => { f with rets := f.rets.map h } }

/-- The graph without its memoized values. -/
def Graph.erase_values {α : Type} (g : Graph α) : Graph α :=
  g.map_nodes fun n => { n with value := none }

/-- The graph without its gradients. -/
def Graph.erase_grads {α : Type} (g : Graph α) : Graph α :=
  g.map_nodes fun n => { n with grad := none }

/-- The graph without its sink lists. -/
def Graph.erase_sinks {α : Type} (g : Graph α) : Graph α :=
  g.map_nodes fun n => { n with sinks := [] }

/-- The address `(fid_, vid_)` of a node. -/
def Node.address (n : Node) : Address := ⟨n.fid_, n.vid_⟩

/-- Every memoized value is the reference value of its step. -/
def Graph.MemoOK {α : Type} (g : Graph α) : Prop :=
  ∀ (i : Nat) (v : Tensor α), g.value_at i = some v → g.eval i = Except.ok v

/-- What a run of the forward recursion that leads from `g` to `g1` with log `log`
keeps: only value slots change, memoized values stay and are reference values, and the
log names steps below `bound` whose value was not memoized in `g`, none of them twice. -/
structure ForwardRun {α : Type} (g g1 : Graph α) (log : List (Event α)) (bound : Nat) :
    Prop where
  frame : g1.erase_values = g.erase_values
  mono : ∀ (i : Nat) (v : Tensor α), g.value_at i = some v → g1.value_at i = some v
  memo : g1.MemoOK
  log_forward : backward_calls log = []
  log_lt : ∀ j ∈ forward_calls log, j < bound
  log_fresh : ∀ j ∈ forward_calls log, g.value_at j = none
  log_nodup : (forward_calls log).Nodup
  unlogged : ∀ j, j ∉ forward_calls log → g1.value_at j = g.value_at j

/-- Every step a log names has a memoized value in `g`. -/
def Memoized {α : Type} (g : Graph α) (log : List (Event α)) : Prop :=
  ∀ j ∈ forward_calls log, ∃ v, g.value_at j = some v

/-- The value `v` of step `fid` is at hand in `g`: it is the inner value of the
operation, or there is none and it is memoized. -/
def Settled {α : Type} (g : Graph α) (fid : Nat) (v : Tensor α) : Prop :=
  ∃ (f : FunctionInfo α) (n : NodeInfo α), g.funcs_[fid]? = some f ∧ f.rets[0]? = some n ∧
    (f.func.get_inner_value = some v ∨ (f.func.get_inner_value = none ∧ n.value = some v))

/-! ### Operations used in the scenarios -/

namespace Scenario

/-- The device of the scenarios. -/
def D0 : Device := ⟨0⟩

/-- The vector `[x]` on `D0`. -/
def vec (data : List Int) : Tensor Int := ⟨⟨[data.length], 1⟩, D0, data⟩

/-- A leaf operation: no arguments, a declared device, the value given by its forward
contract, nothing to propagate. -/
def input (t : Tensor Int) : Function Int where
  name := "Input"
  forward_shape := fun shapes => if shapes = [] then some t.shape else none
  get_device := some t.device
  get_inner_value := none
  forward := fun _ => some t
  backward := fun _ _ _ _ heap => ⟨heap, false⟩

/-- A leaf operation that exposes its value as inner value, as a parameter does. -/
def parameter (t : Tensor Int) : Function Int where
  name := "ParameterInput"
  forward_shape := fun shapes => if shapes = [] then some t.shape else none
  get_device := some t.device
  get_inner_value := some t
  forward := fun _ => some t
  backward := fun _ _ _ _ heap => ⟨heap, false⟩

/-- Elementwise sum of two tensors. -/
def tensor_add (x y : Tensor Int) : Tensor Int :=
  ⟨x.shape, x.device, List.zipWith (fun a b => a + b) x.data y.data⟩

/-- The statement `*p += t` on the gradient tensors. -/
def accumulate (heap : GradHeap Int) (p : Address) (t : Tensor Int) : GradHeap Int :=
  fun a => if a = p then (heap p).map (fun x => tensor_add x t) else heap a

/-- Addition of two arguments of equal shape; its backward contract accumulates the
output gradient into the gradient of each argument, in argument order. -/
def add : Function Int where
  name := "Add"
  forward_shape := fun shapes =>
    match shapes with
    | [a, b] => if a = b then some a else none
    | _ => none
  get_device := none
  get_inner_value := none
  forward := fun values =>
    match values with
    | [x, y] => some (tensor_add x y)
    | _ => none
  backward := fun _ cur_grad _ arg_grads heap =>
    ⟨arg_grads.foldl (fun h p => accumulate h p cur_grad) heap, false⟩

/-- Doubling of one argument; its backward contract accumulates twice the output
gradient into the gradient of the argument. -/
def double : Function Int where
  name := "Double"
  forward_shape := fun shapes =>
    match shapes with
    | [a] => some a
    | _ => none
  get_device := none
  get_inner_value := none
  forward := fun values =>
    match values with
    | [x] => some (tensor_add x x)
    | _ => none
  backward := fun _ cur_grad _ arg_grads heap =>
    ⟨arg_grads.foldl (fun h p => accumulate h p (tensor_add cur_grad cur_grad)) heap, false⟩

/-- The empty graph at address 1. -/
def g0 : Graph Int := ⟨1, []⟩

/-- The graph after `A = input([1])`. -/
def gA : Graph Int := (g0.add_function (input (vec [1])) []).g

/-- The node `A`. -/
def nA : Node := ⟨1, 0, 0⟩

/-- The graph after `A = input([1])`, `C = add(A, A)`. -/
def gAC : Graph Int := (gA.add_function add [nA, nA]).g

/-- The node `C`. -/
def nC : Node := ⟨1, 1, 0⟩

/-- The graph after `A = input([1, 2])`, `B = input([1, 2, 3])`. -/
def gAB : Graph Int :=
  ((g0.add_function (input (vec [1, 2])) []).g.add_function (input (vec [1, 2, 3])) []).g

/-- The node `B` of `gAB`, and the node of the second step of every graph at address 1. -/
def nB : Node := ⟨1, 1, 0⟩

/-- The graph after `A = input([1, 2, 3])` on device `D0`. -/
def gX : Graph Int := (g0.add_function (input (vec [1, 2, 3])) []).g

/-- The graph after `A = input([1])`, `clear()`, `A2 = input([7, 8])`. -/
def gRebuilt : Graph Int := (gA.clear.add_function (input (vec [7, 8])) []).g

/-- The graph after `A = input([1])`, `N1 = double(A)`, `N2 = double(A)`. -/
def gFork : Graph Int := ((gA.add_function double [nA]).g.add_function double [nA]).g

/-- The node `N2` of `gFork`. -/
def nN2 : Node := ⟨1, 2, 0⟩

end Scenario

/-! ### The default graph -/

/-- Static member `Graph::get_default`, on the value of the static pointer
`Graph::default_obj_` (`none` is the null pointer): the graph it points to. -/
def Graph.get_default (default_obj_ : Option Nat) : Except Failure Nat :=
  match default_obj_ with
  | none => Except.error Failure.defaultNull
  | some g => Except.ok g

/-- Static member `Graph::set_default`: `default_obj_ = &g`; the result is the new value
of the pointer. -/
def Graph.set_default (g : Nat) (_default_obj_ : Option Nat) : Option Nat :=
  some g

/-- Destructor `Graph::~Graph` of the graph at address `this_`:
`if (default_obj_ == this) default_obj_ = nullptr`. -/
def Graph.destructor (this_ : Nat) (default_obj_ : Option Nat) : Option Nat :=
  if default_obj_ = some this_ then none else default_obj_

/-- A call that touches the default graph: `set_default` of the graph at an address, or
the destruction of the graph at an address. -/
inductive RegistryCall where
  | set_default (g : Nat)
  | destroy (g : Nat)
deriving DecidableEq, Repr

/-- The effect of one call on `default_obj_`. -/
def RegistryCall.apply (default_obj_ : Option Nat) : RegistryCall → Option Nat
  | RegistryCall.set_default g => Graph.set_default g default_obj_
  | RegistryCall.destroy g => Graph.destructor g default_obj_

/-- The pointer `default_obj_` after a sequence of calls, from its initial value
`nullptr`. -/
def registry_after (calls : List RegistryCall) : Option Nat :=
  calls.foldl RegistryCall.apply none

/-- The registration as the specification words it, read from the most recent call
backwards: the graph most recently passed to `set_default`, unless it is among the graphs
`destroyed` since that call; `none` when `set_default` was never called. -/
def registered_since : List RegistryCall → List Nat → Option Nat
  | [], _ => none
  | RegistryCall.set_default g :: _, destroyed => if g ∈ destroyed then none else some g
  | RegistryCall.destroy g :: earlier, destroyed => registered_since earlier (g :: destroyed)

/-- The graph most recently passed to `set_default` and not destroyed since, after the
calls `calls` (oldest first). -/
def most_recent_default (calls : List RegistryCall) : Option Nat :=
  registered_since calls.reverse []

/-! ### Construction and comparison of shapes -/

/-- The vector without its trailing elements equal to 1. -/
def drop_trailing_ones : List Nat → List Nat
  | [] => []
  | d :: rest =>
    match drop_trailing_ones rest with
    | [] => if d = 1 then [] else [d]
    | r :: rs => d :: r :: rs

/-- Modelled from the spec: the constructor `Shape(dim, k)` of shape.cc, which is not
among the sources. The specification takes missing trailing axes as 1 and the class
documentation equates `Shape({n})` with `Shape({n, 1, 1, ...}, 1)`; with the member
`operator==` of shape.h this asks the constructor to store the axes without the trailing
ones of size 1. -/
def Shape.make (dim : List Nat) (k : Nat) : Shape :=
  ⟨drop_trailing_ones dim, k⟩

/-- Member `Shape::operator==`: `dim_ == rhs.dim_ && k_ == rhs.k_`. -/
def Shape.op_eq (s rhs : Shape) : Bool :=
  s.dim_ == rhs.dim_ && s.k_ == rhs.k_

/-- Member `Shape::operator!=`: `!operator==(rhs)`. -/
def Shape.op_ne (s rhs : Shape) : Bool :=
  !s.op_eq rhs

namespace Scenario

/-- A node of the graph at address 1 whose step id is out of range in `gA`. -/
def nStale : Node := ⟨1, 5, 0⟩

/-- A node of a graph at another address. -/
def nForeign : Node := ⟨2, 0, 0⟩

end Scenario

/-! ### Dependencies between steps -/

/-- The steps that consume the slot `a`, read off the argument lists `argss` of the
steps `j, j + 1, ...` in this order: each step as often as `a` is among its arguments. -/
def sinks_of_args (a : Address) : List (List Address) → Nat → List Nat
  | [], _ => []
  | args :: rest, j => List.replicate (args.count a) j ++ sinks_of_args a rest (j + 1)

/-- The sink list that the argument lists of the graph ask for slot 0 of step `i`. -/
def Graph.expected_sinks {α : Type} (g : Graph α) (i : Nat) : List Nat :=
  sinks_of_args ⟨i, 0⟩ (g.funcs_.map FunctionInfo.args) 0

/-- The steps that are in `seed` or are reached from a step in `seed` by following
argument addresses. -/
inductive Active {α : Type} (g : Graph α) (seed : Nat → Prop) : Nat → Prop where
  | seed {i : Nat} : seed i → Active g seed i
  | arg {j : Nat} (f : FunctionInfo α) (a : Address) :
      Active g seed j → g.funcs_[j]? = some f → a ∈ f.args → Active g seed a.fid

/-- Step `j` is step `i` or is reached from step `i` by following argument addresses. -/
def DependsOn {α : Type} (g : Graph α) (i j : Nat) : Prop :=
  Active g (fun k => k = i) j

/-- The backward contract of every operation of the graph leaves valid the gradient
tensors it is handed: it accumulates into them and does not reset them. -/
def Graph.Accumulating {α : Type} (g : Graph α) : Prop :=
  ∀ (i : Nat) (f : FunctionInfo α), g.funcs_[i]? = some f →
    ∀ (cur_value cur_grad : Tensor α) (arg_values : List (Option (Tensor α)))
      (arg_grads : List Address) (heap : GradHeap α) (a : Address),
      a ∈ arg_grads → heap a ≠ none →
        (f.func.backward cur_value cur_grad arg_values arg_grads heap).heap a ≠ none

namespace Scenario

/-- An operation that takes one argument and exposes an inner value: its forward value is
at hand without a computation from the argument. -/
def cached (t : Tensor Int) : Function Int where
  name := "Cached"
  forward_shape := fun shapes =>
    match shapes with
    | [a] => some a
    | _ => none
  get_device := none
  get_inner_value := some t
  forward := fun _ => some t
  backward := fun _ cur_grad _ arg_grads heap =>
    ⟨arg_grads.foldl (fun h p => accumulate h p cur_grad) heap, false⟩

/-- The graph after `A = input([1])`, `B = cached(A)`, where `cached` exposes the inner
value `[5]`. -/
def gCached : Graph Int := (gA.add_function (cached (vec [5])) [nA]).g

/-- An operation of one argument whose backward contract raises an error. -/
def failing : Function Int where
  name := "Failing"
  forward_shape := fun shapes =>
    match shapes with
    | [a] => some a
    | _ => none
  get_device := none
  get_inner_value := none
  forward := fun values =>
    match values with
    | [x] => some x
    | _ => none
  backward := fun _ _ _ _ heap => ⟨heap, true⟩

end Scenario

/-- The steps below `n` whose gradient is valid: those that the rounds
`n - 1, ..., 0` of the sweep find ready when no round before them adds to them. -/
def Graph.pending {α : Type} (g : Graph α) (n : Nat) : Nat → Prop :=
  fun i => i < n ∧ g.grad_at i ≠ none

namespace Scenario

/-- The graph after `A = input([1])`, `B = failing(A)`. -/
def gFail : Graph Int := (gA.add_function failing [nA]).g

end Scenario

namespace Scenario

/-- An operation of one argument whose backward contract, against the contract the
specification gives, resets the gradient tensor of its argument to an invalid tensor
(`*arg_grads[0] = Tensor()`) instead of accumulating into it. -/
def resetting : Function Int where
  name := "Resetting"
  forward_shape := fun shapes =>
    match shapes with
    | [a] => some a
    | _ => none
  get_device := none
  get_inner_value := none
  forward := fun values =>
    match values with
    | [x] => some x
    | _ => none
  backward := fun _ _ _ arg_grads heap =>
    ⟨fun a => if a ∈ arg_grads then none else heap a, false⟩

/-- The graph after `A = input([1])`, `B = double(A)`, `C = resetting(B)`,
`E = add(C, A)`. -/
def gReset : Graph Int :=
  ((((g0.add_function (input (vec [1])) []).g.add_function double [nA]).g.add_function
    resetting [nB]).g.add_function add [nN2, nA]).g

/-- The node `E` of `gReset`. -/
def nE : Node := ⟨1, 3, 0⟩

end Scenario

/-! ### Calls between two calls of forward -/

/-- A call of a member function that can change the graph, other than `clear`. The
lookups `get_shape` and `get_device` are `const` and change nothing. -/
inductive GraphCall (α : Type) where
  | add_function (func : Function α) (args : List Node)
  | forward (node : Node)
  | backward (node : Node)

/-- The graph after the call, whether the call returned or failed. -/
def GraphCall.apply {α : Type} [Zero α] [One α] (g : Graph α) : GraphCall α → Graph α
  | GraphCall.add_function func args => (g.add_function func args).g
  | GraphCall.forward node => (g.forward node).g
  | GraphCall.backward node => (g.backward node).g

/-- The graph after a sequence of calls, none of them `clear`. -/
def Graph.after_calls {α : Type} [Zero α] [One α] (g : Graph α) (calls : List (GraphCall α)) :
    Graph α :=
  calls.foldl GraphCall.apply g

/-- The graph `g1` has the steps of `g` at the same step ids, with the same operations,
argument lists and numbers of slots, and every value memoized in `g` is memoized in `g1`:
what a graph keeps while it is not cleared. -/
def Graph.Extends {α : Type} (g g1 : Graph α) : Prop :=
  g1.addr = g.addr ∧
    (∀ (i : Nat) (f : FunctionInfo α), g.funcs_[i]? = some f →
      ∃ f1, g1.funcs_[i]? = some f1 ∧ f1.func = f.func ∧ f1.args = f.args ∧
        f1.rets.length = f.rets.length) ∧
    (∀ (i : Nat) (v : Tensor α), g.value_at i = some v → g1.value_at i = some v)

namespace Scenario

/-- An operation of one argument whose forward contract raises an error. -/
def broken : Function Int where
  name := "Broken"
  forward_shape := fun shapes =>
    match shapes with
    | [a] => some a
    | _ => none
  get_device := none
  get_inner_value := none
  forward := fun _ => none
  backward := fun _ _ _ _ heap => ⟨heap, false⟩

/-- The graph after `A = input([1])`, `B = broken(A)`. -/
def gBroken : Graph Int := (gA.add_function broken [nA]).g

end Scenario

/-! ### Forward values at hand -/

/-- A forward value of step `i` is at hand: the pointer
`n.value.valid() ? &n.value : f.func->get_inner_value()` that `Graph::backward` computes
for slot 0 of step `i` is not null. -/
def Graph.available {α : Type} (g : Graph α) (i : Nat) : Prop :=
  ∃ (f : FunctionInfo α) (n : NodeInfo α), g.funcs_[i]? = some f ∧ f.rets[0]? = some n ∧
    value_or_inner f n ≠ none

/-- Every operation of the graph that exposes an inner value takes no arguments: the
contract the specification gives for the inner value, which is non-empty only for source
and constant operations. -/
def Graph.SourceInner {α : Type} (g : Graph α) : Prop :=
  ∀ (i : Nat) (f : FunctionInfo α), g.funcs_[i]? = some f →
    f.func.get_inner_value ≠ none → f.args = []

/-- Every argument of a step with a memoized value has a forward value at hand. -/
def Graph.MemoArgs {α : Type} (g : Graph α) : Prop :=
  ∀ (i : Nat) (f : FunctionInfo α), g.funcs_[i]? = some f → g.value_at i ≠ none →
    ∀ a ∈ f.args, g.available a.fid

/-- Every step with a valid gradient has a forward value at hand. -/
def Graph.GradAvail {α : Type} (g : Graph α) : Prop :=
  ∀ (a : Address), g.grad_heap a ≠ none → g.available a.fid

namespace Scenario

/-- The graph after `P = parameter([3])`, `B = double(P)`; the operation of `P` exposes
its value as inner value and takes no arguments. -/
def gParam : Graph Int :=
  ((g0.add_function (parameter (vec [3])) []).g.add_function double [nA]).g

end Scenario

/-- The graph in which the loop `for (int fid = node.fid_; fid >= 0; --fid)` of
`Graph::backward`, started in `g` with the round of step `n - 1`, reaches the round of
step `k`: the rounds of the steps `n - 1, ..., k + 1` are done. -/
def sweep_state {α : Type} [Zero α] : Nat → Nat → Graph α → Graph α
  | 0, _, g => g
  | n + 1, k, g => if n ≤ k then g else sweep_state n k (backward_step n g).g

/-! ## Lemmas on vectors and slots -/

theorem length_modify_at {β : Type} (l : List β) (i : Nat) (f : β → β) :
    (modify_at l i f).length = l.length := by
  unfold modify_at
  split <;> simp

theorem getElem?_modify_at {β : Type} (l : List β) (i j : Nat) (f : β → β) :
    (modify_at l i f)[j]? = if j = i then (l[j]?).map f else l[j]? := by
  unfold modify_at
  split
  · rename_i x hx
    by_cases h : j = i
    · subst h
      simp [hx, List.getElem?_set]
      exact (List.getElem?_eq_some.mp hx).1
    · have h2 : i ≠ j := fun e => h e.symm
      simp [h, List.getElem?_set, h2]
  · rename_i hx
    by_cases h : j = i
    · subst h; simp [hx]
    · simp [h]

theorem map_modify_at {β γ : Type} (l : List β) (i : Nat) (f : β → β) (p : β → γ)
    (hp : ∀ x, p (f x) = p x) : (modify_at l i f).map p = l.map p := by
  apply List.ext_getElem?
  intro j
  simp only [List.getElem?_map, getElem?_modify_at]
  split
  · cases l[j]? <;> simp [hp]
  · rfl

theorem length_update_node {α : Type} (fs : List (FunctionInfo α)) (i j : Nat)
    (u : NodeInfo α → NodeInfo α) : (update_node fs i j u).length = fs.length := by
  unfold update_node
  exact length_modify_at _ _ _

theorem getElem?_update_node {α : Type} (fs : List (FunctionInfo α)) (i j k : Nat)
    (u : NodeInfo α → NodeInfo α) :
    (update_node fs i j u)[k]? =
      if k = i then (fs[k]?).map (fun f => { f with rets := modify_at f.rets j u })
      else fs[k]? := by
  unfold update_node
  exact getElem?_modify_at _ _ _ _

theorem node_at_update_node {α : Type} (fs : List (FunctionInfo α)) (i j k l : Nat)
    (u : NodeInfo α → NodeInfo α) :
    node_at (update_node fs i j u) k l =
      if k = i ∧ l = j then (node_at fs k l).map u else node_at fs k l := by
  unfold node_at
  rw [getElem?_update_node]
  by_cases hk : k = i
  · subst hk
    cases hf : fs[k]? with
    | none => simp
    | some f =>
      simp only [if_true, Option.map_some', true_and, getElem?_modify_at]
  · simp [hk]

theorem map_rets_update_node {α : Type} (fs : List (FunctionInfo α)) (i j : Nat)
    (u h : NodeInfo α → NodeInfo α) (hu : ∀ n, h (u n) = h n) :
    (update_node fs i j u).map (fun f => { f with rets := f.rets.map h }) =
      fs.map (fun f => { f with rets := f.rets.map h }) := by
  unfold update_node
  apply map_modify_at
  intro f
  simp [map_modify_at _ _ _ _ hu]

theorem map_nodes_set_value {α : Type} (g : Graph α) (i : Nat) (v : Option (Tensor α)) :
    (g.set_value i v).erase_values = g.erase_values := by
  unfold Graph.erase_values Graph.map_nodes Graph.set_value
  simp only [Graph.mk.injEq, true_and]
  exact map_rets_update_node _ _ _ _ _ (fun n => rfl)

theorem map_nodes_set_grad {α : Type} (g : Graph α) (a : Address) (t : Option (Tensor α)) :
    (g.set_grad a t).erase_grads = g.erase_grads := by
  unfold Graph.erase_grads Graph.map_nodes Graph.set_grad
  simp only [Graph.mk.injEq, true_and]
  exact map_rets_update_node _ _ _ _ _ (fun n => rfl)

theorem value_at_set_value {α : Type} (g : Graph α) (i j : Nat) (v : Option (Tensor α)) :
    (g.set_value i v).value_at j =
      if j = i then (node_at g.funcs_ i 0).bind (fun _ => v) else g.value_at j := by
  unfold Graph.value_at Graph.set_value
  simp only [node_at_update_node]
  by_cases h : j = i
  · subst h
    cases node_at g.funcs_ j 0 <;> simp
  · simp [h]

theorem grad_heap_set_grad {α : Type} (g : Graph α) (a b : Address) (t : Option (Tensor α)) :
    (g.set_grad a t).grad_heap b =
      if b = a then (node_at g.funcs_ a.fid a.vid).bind (fun _ => t) else g.grad_heap b := by
  unfold Graph.grad_heap Graph.set_grad
  simp only [node_at_update_node]
  by_cases h : b = a
  · subst h
    cases node_at g.funcs_ b.fid b.vid <;> simp
  · have : ¬ (b.fid = a.fid ∧ b.vid = a.vid) := by
      intro ⟨h1, h2⟩
      apply h
      cases a; cases b; simp_all
    simp [h, this]

theorem length_set_value {α : Type} (g : Graph α) (i : Nat) (v : Option (Tensor α)) :
    (g.set_value i v).funcs_.length = g.funcs_.length := by
  unfold Graph.set_value
  exact length_update_node _ _ _ _

theorem length_set_grad {α : Type} (g : Graph α) (a : Address) (t : Option (Tensor α)) :
    (g.set_grad a t).funcs_.length = g.funcs_.length := by
  unfold Graph.set_grad
  exact length_update_node _ _ _ _

/-! ## Graphs that differ in one field of their slots -/

theorem length_of_map_nodes_eq {α : Type} {h : NodeInfo α → NodeInfo α} {g g1 : Graph α}
    (e : g1.map_nodes h = g.map_nodes h) : g1.funcs_.length = g.funcs_.length := by
  have := congrArg (fun x => x.funcs_.length) e
  simpa [Graph.map_nodes] using this

theorem addr_of_map_nodes_eq {α : Type} {h : NodeInfo α → NodeInfo α} {g g1 : Graph α}
    (e : g1.map_nodes h = g.map_nodes h) : g1.addr = g.addr := by
  have := congrArg (fun x => x.addr) e
  simpa [Graph.map_nodes] using this

theorem funcs_of_map_nodes_eq {α : Type} {h : NodeInfo α → NodeInfo α} {g g1 : Graph α}
    (e : g1.map_nodes h = g.map_nodes h) (i : Nat) (f1 : FunctionInfo α)
    (hf : g1.funcs_[i]? = some f1) :
    ∃ f, g.funcs_[i]? = some f ∧ f.func = f1.func ∧ f.args = f1.args ∧
      f.rets.map h = f1.rets.map h := by
  have e2 := congrArg (fun x => x.funcs_[i]?) e
  simp only [Graph.map_nodes, List.getElem?_map, hf, Option.map_some'] at e2
  cases hg : g.funcs_[i]? with
  | none => simp [hg] at e2
  | some f =>
    simp only [hg, Option.map_some', Option.some.injEq, FunctionInfo.mk.injEq] at e2
    exact ⟨f, rfl, e2.1.symm, e2.2.1.symm, e2.2.2.symm⟩

theorem node_at_of_map_nodes_eq {α : Type} {h : NodeInfo α → NodeInfo α} {g g1 : Graph α}
    (e : g1.map_nodes h = g.map_nodes h) (i j : Nat) :
    (node_at g1.funcs_ i j).map h = (node_at g.funcs_ i j).map h := by
  unfold node_at
  cases hf1 : g1.funcs_[i]? with
  | none =>
    have hl := length_of_map_nodes_eq e
    have : g.funcs_[i]? = none := by
      rw [List.getElem?_eq_none_iff] at hf1 ⊢
      omega
    simp [this]
  | some f1 =>
    obtain ⟨f, hf, _, _, hr⟩ := funcs_of_map_nodes_eq e i f1 hf1
    simp only [hf]
    have := congrArg (fun l => l[j]?) hr
    simp only [List.getElem?_map] at this
    exact this.symm

theorem value_at_of_erase_grads_eq {α : Type} {g g1 : Graph α}
    (e : g1.erase_grads = g.erase_grads) (i : Nat) : g1.value_at i = g.value_at i := by
  have := node_at_of_map_nodes_eq e i 0
  unfold Graph.value_at
  cases h1 : node_at g1.funcs_ i 0 <;> cases h2 : node_at g.funcs_ i 0 <;>
    simp [h1, h2] at this ⊢
  exact this.2.2.1

theorem grad_heap_of_erase_values_eq {α : Type} {g g1 : Graph α}
    (e : g1.erase_values = g.erase_values) (a : Address) : g1.grad_heap a = g.grad_heap a := by
  have := node_at_of_map_nodes_eq e a.fid a.vid
  unfold Graph.grad_heap
  cases h1 : node_at g1.funcs_ a.fid a.vid <;> cases h2 : node_at g.funcs_ a.fid a.vid <;>
    simp [h1, h2] at this ⊢
  exact this.2.2.1

theorem topological_of_map_nodes_eq {α : Type} {h : NodeInfo α → NodeInfo α} {g g1 : Graph α}
    (e : g1.map_nodes h = g.map_nodes h) (ht : g.Topological) : g1.Topological := by
  intro i f1 hf1
  obtain ⟨f, hf, _, ha, hr⟩ := funcs_of_map_nodes_eq e i f1 hf1
  have := ht i f hf
  have hl := congrArg List.length hr
  simp only [List.length_map] at hl
  rw [← ha, ← hl]
  exact this

theorem eval_values_congr {α : Type} (r1 r2 : Nat → Except Failure (Tensor α))
    (args : List Address) (h : ∀ a ∈ args, r1 a.fid = r2 a.fid) :
    eval_values r1 args = eval_values r2 args := by
  induction args with
  | nil => rfl
  | cons a rest ih =>
    simp only [eval_values]
    rw [h a (List.mem_cons_self _ _), ih (fun b hb => h b (List.mem_cons_of_mem _ hb))]

/-- Two graphs with the same operations and argument lists in the steps below `n` have
the same reference values there. -/
theorem eval_fuel_congr {α : Type} (g g1 : Graph α) (n : Nat) (ht : g.Topological)
    (hs : ∀ i, i < n → (g1.funcs_[i]?).map (fun f => (f.func, f.args)) =
      (g.funcs_[i]?).map (fun f => (f.func, f.args))) :
    ∀ fuel i, i < n → eval_fuel g1 fuel i = eval_fuel g fuel i := by
  intro fuel
  induction fuel with
  | zero => intro i _; rfl
  | succ fuel ih =>
    intro i hi
    simp only [eval_fuel]
    have hsi := hs i hi
    cases hf1 : g1.funcs_[i]? with
    | none =>
      cases hf : g.funcs_[i]? with
      | none => rfl
      | some f => simp [hf1, hf] at hsi
    | some f1 =>
      cases hf : g.funcs_[i]? with
      | none => simp [hf1, hf] at hsi
      | some f =>
        simp only [hf1, hf, Option.map_some', Option.some.injEq, Prod.mk.injEq] at hsi
        obtain ⟨hfun, hargs⟩ := hsi
        simp only [hfun, hargs]
        cases f.func.get_inner_value with
        | some v => rfl
        | none =>
          have : eval_values (eval_fuel g1 fuel) f.args =
              eval_values (eval_fuel g fuel) f.args := by
            apply eval_values_congr
            intro a ha
            have := (ht i f hf).2 a ha
            exact ih a.fid (by omega)
          simp only [this]

theorem eval_of_map_nodes_eq {α : Type} {h : NodeInfo α → NodeInfo α} {g g1 : Graph α}
    (e : g1.map_nodes h = g.map_nodes h) (ht : g.Topological) (i : Nat) :
    g1.eval i = g.eval i := by
  unfold Graph.eval
  apply eval_fuel_congr g g1 (i + 1) ht _ (i + 1) i (by omega)
  intro j _
  cases hf1 : g1.funcs_[j]? with
  | none =>
    have hl := length_of_map_nodes_eq e
    have : g.funcs_[j]? = none := by
      rw [List.getElem?_eq_none_iff] at hf1 ⊢
      omega
    simp [this]
  | some f1 =>
    obtain ⟨f, hf, hfun, hargs, _⟩ := funcs_of_map_nodes_eq e j f1 hf1
    simp [hf, hfun, hargs]

/-- On a topological graph the reference value does not depend on the bound. -/
theorem eval_fuel_stable {α : Type} (g : Graph α) (ht : g.Topological) :
    ∀ fuel i, i < fuel → eval_fuel g fuel i = g.eval i := by
  intro fuel
  induction fuel using Nat.strong_induction_on with
  | _ fuel ih =>
    intro i hi
    cases fuel with
    | zero => omega
    | succ fuel =>
      unfold Graph.eval
      simp only [eval_fuel]
      cases hf : g.funcs_[i]? with
      | none => rfl
      | some f =>
        simp only
        cases f.func.get_inner_value with
        | some v => rfl
        | none =>
          have : eval_values (eval_fuel g fuel) f.args = eval_values (eval_fuel g i) f.args := by
            apply eval_values_congr
            intro a ha
            have := (ht i f hf).2 a ha
            rw [ih fuel (by omega) a.fid (by omega), ih i (by omega) a.fid (by omega)]
          simp only [this]

theorem eval_equation_holds {α : Type} (g : Graph α) (ht : g.Topological) (i : Nat)
    (f : FunctionInfo α) (hf : g.funcs_[i]? = some f) : eval_equation g i f := by
  unfold eval_equation
  have h1 : g.eval i = eval_fuel g (i + 1) i := rfl
  rw [h1]
  simp only [eval_fuel, hf]
  cases f.func.get_inner_value with
  | some v => rfl
  | none =>
    have : eval_values (eval_fuel g i) f.args = eval_values g.eval f.args := by
      apply eval_values_congr
      intro a ha
      have := (ht i f hf).2 a ha
      exact eval_fuel_stable g ht i a.fid (by omega)
    simp only [this]

/-! ## The forward recursion -/

theorem forward_calls_append {α : Type} (l1 l2 : List (Event α)) :
    forward_calls (l1 ++ l2) = forward_calls l1 ++ forward_calls l2 := by
  induction l1 with
  | nil => rfl
  | cons e l ih => cases e <;> simp [forward_calls, ih]

theorem backward_calls_append {α : Type} (l1 l2 : List (Event α)) :
    backward_calls (l1 ++ l2) = backward_calls l1 ++ backward_calls l2 := by
  induction l1 with
  | nil => rfl
  | cons e l ih => cases e <;> simp [backward_calls, ih]

theorem forward_run_refl {α : Type} (g : Graph α) (hm : g.MemoOK) (b : Nat) :
    ForwardRun g g [] b where
  frame := rfl
  mono := fun _ _ h => h
  memo := hm
  log_forward := rfl
  log_lt := by intro j hj; simp [forward_calls] at hj
  log_fresh := by intro j hj; simp [forward_calls] at hj
  log_nodup := by simp [forward_calls]
  unlogged := fun _ _ => rfl

theorem forward_run_weaken {α : Type} {g g1 : Graph α} {log : List (Event α)} {b c : Nat}
    (h : ForwardRun g g1 log b) (hbc : b ≤ c) : ForwardRun g g1 log c :=
  { h with log_lt := fun j hj => Nat.lt_of_lt_of_le (h.log_lt j hj) hbc }

theorem forward_run_trans {α : Type} {g g1 g2 : Graph α} {l1 l2 : List (Event α)} {b : Nat}
    (h1 : ForwardRun g g1 l1 b) (hm : Memoized g1 l1) (h2 : ForwardRun g1 g2 l2 b) :
    ForwardRun g g2 (l1 ++ l2) b where
  frame := h2.frame.trans h1.frame
  mono := fun i v h => h2.mono i v (h1.mono i v h)
  memo := h2.memo
  log_forward := by rw [backward_calls_append, h1.log_forward, h2.log_forward]; rfl
  log_lt := by
    intro j hj
    rw [forward_calls_append, List.mem_append] at hj
    exact hj.elim (h1.log_lt j) (h2.log_lt j)
  log_fresh := by
    intro j hj
    rw [forward_calls_append, List.mem_append] at hj
    rcases hj with hj | hj
    · exact h1.log_fresh j hj
    · have h3 := h2.log_fresh j hj
      cases hg : g.value_at j with
      | none => rfl
      | some v => rw [h1.mono j v hg] at h3; cases h3
  log_nodup := by
    rw [forward_calls_append, List.nodup_append]
    refine ⟨h1.log_nodup, h2.log_nodup, ?_⟩
    intro j hj1 hj2
    obtain ⟨v, hv⟩ := hm j hj1
    rw [h2.log_fresh j hj2] at hv
    cases hv
  unlogged := by
    intro j hj
    rw [forward_calls_append, List.mem_append, not_or] at hj
    rw [h2.unlogged j hj.2, h1.unlogged j hj.1]

theorem memoized_trans {α : Type} {g1 g2 : Graph α} {l1 l2 : List (Event α)} {b : Nat}
    (hm1 : Memoized g1 l1) (h2 : ForwardRun g1 g2 l2 b) (hm2 : Memoized g2 l2) :
    Memoized g2 (l1 ++ l2) := by
  intro j hj
  rw [forward_calls_append, List.mem_append] at hj
  rcases hj with hj | hj
  · obtain ⟨v, hv⟩ := hm1 j hj
    exact ⟨v, h2.mono j v hv⟩
  · exact hm2 j hj

theorem forward_run_topological {α : Type} {g g1 : Graph α} {log : List (Event α)} {b : Nat}
    (h : ForwardRun g g1 log b) (ht : g.Topological) : g1.Topological :=
  topological_of_map_nodes_eq h.frame ht

theorem forward_run_eval_eq {α : Type} {g g1 : Graph α} {log : List (Event α)} {b : Nat}
    (h : ForwardRun g g1 log b) (ht : g.Topological) : g1.eval = g.eval :=
  funext fun i => eval_of_map_nodes_eq h.frame ht i

theorem forward_run_length_eq {α : Type} {g g1 : Graph α} {log : List (Event α)} {b : Nat}
    (h : ForwardRun g g1 log b) : g1.funcs_.length = g.funcs_.length :=
  length_of_map_nodes_eq h.frame

/-- The loop over the arguments, given that the recursive call is right below `b`. -/
theorem gather_values_spec {α : Type} (rec : Nat → Graph α → Outcome α (Tensor α)) (b : Nat)
    (hrec : ∀ fid g, g.Topological → g.MemoOK → fid < b → fid < g.funcs_.length →
      ForwardRun g (rec fid g).g (rec fid g).log (fid + 1) ∧ (rec fid g).ret = g.eval fid ∧
        ((∃ v, (rec fid g).ret = Except.ok v) → Memoized (rec fid g).g (rec fid g).log)) :
    ∀ args g, g.Topological → g.MemoOK → (∀ a ∈ args, a.fid < b ∧ a.fid < g.funcs_.length) →
      ForwardRun g (gather_values rec args g).g (gather_values rec args g).log b ∧
        (gather_values rec args g).ret = eval_values g.eval args ∧
        ((∃ vs, (gather_values rec args g).ret = Except.ok vs) →
          Memoized (gather_values rec args g).g (gather_values rec args g).log) := by
  intro args
  induction args with
  | nil =>
    intro g _ hm _
    refine ⟨forward_run_refl g hm b, rfl, ?_⟩
    intro _ j hj
    simp [gather_values, forward_calls] at hj
  | cons a rest ih =>
    intro g ht hm ha
    have ha0 := ha a (List.mem_cons_self _ _)
    obtain ⟨hrun, hret, hmem⟩ := hrec a.fid g ht hm ha0.1 ha0.2
    have hrun1 := forward_run_weaken hrun (Nat.succ_le_of_lt ha0.1)
    simp only [gather_values, eval_values]
    rw [← hret]
    cases hr : (rec a.fid g).ret with
    | error e =>
      refine ⟨hrun1, rfl, ?_⟩
      intro ⟨vs, h⟩
      cases h
    | ok v =>
      have hmem1 := hmem ⟨v, hr⟩
      have ht1 := forward_run_topological hrun ht
      have hrest : ∀ c ∈ rest, c.fid < b ∧ c.fid < (rec a.fid g).g.funcs_.length := by
        intro c hc
        rw [forward_run_length_eq hrun]
        exact ha c (List.mem_cons_of_mem _ hc)
      obtain ⟨hrun2, hret2, hmem2⟩ := ih (rec a.fid g).g ht1 hrun.memo hrest
      rw [forward_run_eval_eq hrun ht] at hret2
      simp only
      rw [← hret2]
      cases hrs : (gather_values rec rest (rec a.fid g).g).ret with
      | error e =>
        refine ⟨forward_run_trans hrun1 hmem1 hrun2, rfl, ?_⟩
        intro ⟨vs, h⟩
        cases h
      | ok vs =>
        refine ⟨forward_run_trans hrun1 hmem1 hrun2, rfl, ?_⟩
        intro _
        exact memoized_trans hmem1 hrun2 (hmem2 ⟨vs, hrs⟩)

theorem value_at_eq_of_getElem? {α : Type} {g : Graph α} {fid : Nat} {f : FunctionInfo α}
    {n : NodeInfo α} (hf : g.funcs_[fid]? = some f) (hn : f.rets[0]? = some n) :
    g.value_at fid = n.value := by
  simp [Graph.value_at, node_at, hf, hn]

theorem slot_zero_of_topological {α : Type} {g : Graph α} (ht : g.Topological) {fid : Nat}
    (h : fid < g.funcs_.length) :
    ∃ f n, g.funcs_[fid]? = some f ∧ f.rets[0]? = some n ∧ f.rets = [n] := by
  have hf : g.funcs_[fid]? = some g.funcs_[fid] := List.getElem?_eq_getElem h
  have hl := (ht fid _ hf).1
  match hr : g.funcs_[fid].rets, hl with
  | [n], _ => exact ⟨_, n, hf, by simp [hr], hr⟩

/-- The forward recursion on a topological graph with right memoized values: it returns
the reference value within any bound above the step id. -/
theorem forward_recursive_spec {α : Type} :
    ∀ fuel fid (g : Graph α), g.Topological → g.MemoOK → fid < fuel → fid < g.funcs_.length →
      ForwardRun g (forward_recursive fuel fid g).g (forward_recursive fuel fid g).log (fid + 1) ∧
        (forward_recursive fuel fid g).ret = g.eval fid ∧
        ((∃ v, (forward_recursive fuel fid g).ret = Except.ok v) →
          Memoized (forward_recursive fuel fid g).g (forward_recursive fuel fid g).log) := by
  intro fuel
  induction fuel with
  | zero => intro fid g _ _ h; omega
  | succ fuel ih =>
    intro fid g ht hm hfuel hlen
    obtain ⟨f, n, hf, hn, hrets⟩ := slot_zero_of_topological ht hlen
    have heq := eval_equation_holds g ht fid f hf
    unfold eval_equation at heq
    have hval := value_at_eq_of_getElem? hf hn
    rw [forward_recursive]
    simp only [hf, hn]
    cases hin : f.func.get_inner_value with
    | some v =>
      simp only [hin] at heq ⊢
      refine ⟨forward_run_refl g hm _, heq.symm, ?_⟩
      intro _ j hj
      simp [forward_calls] at hj
    | none =>
      simp only [hin] at heq ⊢
      cases hv : n.value with
      | some v =>
        simp only
        refine ⟨forward_run_refl g hm _, ?_, ?_⟩
        · rw [hm fid v (by rw [hval, hv])]
        · intro _ j hj
          simp [forward_calls] at hj
      | none =>
        simp only
        have hargs : ∀ a ∈ f.args, a.fid < fid ∧ a.fid < g.funcs_.length := by
          intro a ha
          have := (ht fid f hf).2 a ha
          omega
        have hrec : ∀ fid1 (g1 : Graph α), g1.Topological → g1.MemoOK → fid1 < fid →
            fid1 < g1.funcs_.length →
            ForwardRun g1 (forward_recursive fuel fid1 g1).g (forward_recursive fuel fid1 g1).log
              (fid1 + 1) ∧
            (forward_recursive fuel fid1 g1).ret = g1.eval fid1 ∧
            ((∃ v, (forward_recursive fuel fid1 g1).ret = Except.ok v) →
              Memoized (forward_recursive fuel fid1 g1).g (forward_recursive fuel fid1 g1).log) :=
          fun fid1 g1 h1 h2 h3 h4 => ih fid1 g1 h1 h2 (by omega) h4
        obtain ⟨hrun, hret, hmem⟩ :=
          gather_values_spec (forward_recursive fuel) fid hrec f.args g ht hm hargs
        generalize gather_values (forward_recursive fuel) f.args g = r at hrun hret hmem
        rw [← hret] at heq
        have hfresh : g.value_at fid = none := by rw [hval, hv]
        have hnotin : fid ∉ forward_calls r.log := fun h => Nat.lt_irrefl _ (hrun.log_lt fid h)
        have hlog : ForwardRun g r.g (r.log ++ [Event.forward fid]) (fid + 1) :=
          { frame := hrun.frame
            mono := hrun.mono
            memo := hrun.memo
            log_forward := by
              rw [backward_calls_append, hrun.log_forward]; rfl
            log_lt := by
              intro j hj
              rw [forward_calls_append, List.mem_append] at hj
              rcases hj with hj | hj
              · exact Nat.lt_succ_of_lt (hrun.log_lt j hj)
              · simp [forward_calls] at hj; omega
            log_fresh := by
              intro j hj
              rw [forward_calls_append, List.mem_append] at hj
              rcases hj with hj | hj
              · exact hrun.log_fresh j hj
              · simp [forward_calls] at hj; rw [hj]; exact hfresh
            log_nodup := by
              rw [forward_calls_append, List.nodup_append]
              refine ⟨hrun.log_nodup, by simp [forward_calls], ?_⟩
              intro j hj1 hj2
              simp [forward_calls] at hj2
              exact hnotin (hj2 ▸ hj1)
            unlogged := by
              intro j hj
              rw [forward_calls_append, List.mem_append, not_or] at hj
              exact hrun.unlogged j hj.1 }
        cases hr : r.ret with
        | error e =>
          rw [hr] at heq
          refine ⟨forward_run_weaken hrun (Nat.le_succ _), heq.symm, ?_⟩
          intro ⟨v, h⟩
          cases h
        | ok vs =>
          rw [hr] at heq
          simp only at heq ⊢
          cases hfw : f.func.forward vs with
          | none =>
            rw [hfw] at heq
            refine ⟨hlog, heq.symm, ?_⟩
            intro ⟨v, h⟩
            cases h
          | some v =>
            rw [hfw] at heq
            simp only at heq ⊢
            have hnode : ∃ n1, node_at r.g.funcs_ fid 0 = some n1 := by
              have h1 := node_at_of_map_nodes_eq hrun.frame fid 0
              have h2 : node_at g.funcs_ fid 0 = some n := by simp [node_at, hf, hn]
              rw [h2] at h1
              cases h3 : node_at r.g.funcs_ fid 0 with
              | none => rw [h3] at h1; cases h1
              | some n1 => exact ⟨n1, rfl⟩
            obtain ⟨n1, hn1⟩ := hnode
            have hset : ∀ j, (r.g.set_value fid (some v)).value_at j =
                if j = fid then some v else r.g.value_at j := by
              intro j
              rw [value_at_set_value, hn1]
              rfl
            have hev : (r.g.set_value fid (some v)).eval = g.eval :=
              funext fun i => eval_of_map_nodes_eq
                ((map_nodes_set_value r.g fid (some v)).trans hrun.frame) ht i
            refine ⟨?_, heq.symm, ?_⟩
            · exact
              { frame := (map_nodes_set_value r.g fid (some v)).trans hrun.frame
                mono := by
                  intro j w hj
                  rw [hset]
                  split
                  · rename_i h; rw [h, hfresh] at hj; cases hj
                  · exact hrun.mono j w hj
                memo := by
                  intro j w hj
                  rw [hev]
                  rw [hset] at hj
                  split at hj
                  · rename_i h
                    cases hj
                    rw [h, heq]
                  · have := hrun.memo j w hj
                    rwa [forward_run_eval_eq hrun ht] at this
                log_forward := hlog.log_forward
                log_lt := hlog.log_lt
                log_fresh := hlog.log_fresh
                log_nodup := hlog.log_nodup
                unlogged := by
                  intro j hj
                  have hj2 := hj
                  rw [forward_calls_append, List.mem_append, not_or] at hj
                  have hne : j ≠ fid := by
                    intro h
                    apply hj.2
                    simp [forward_calls, h]
                  rw [hset, if_neg hne]
                  exact hrun.unlogged j hj.1 }
            · intro _ j hj
              rw [hset]
              split
              · exact ⟨v, rfl⟩
              · rw [forward_calls_append, List.mem_append] at hj
                rcases hj with hj | hj
                · exact hmem ⟨vs, hr⟩ j hj
                · rename_i h
                  simp [forward_calls] at hj
                  exact absurd hj h

theorem settled_forward_recursive {α : Type} {g : Graph α} {fid : Nat} {v : Tensor α}
    (h : Settled g fid v) (fuel : Nat) :
    forward_recursive (fuel + 1) fid g = ⟨Except.ok v, g, []⟩ := by
  obtain ⟨f, n, hf, hn, hc⟩ := h
  rw [forward_recursive]
  simp only [hf, hn]
  rcases hc with hc | ⟨hc1, hc2⟩
  · simp only [hc]
  · simp only [hc1, hc2]

theorem forward_recursive_settled {α : Type} (fuel fid : Nat) (g : Graph α)
    (ht : g.Topological) (hm : g.MemoOK) (hfuel : fid < fuel) (hlen : fid < g.funcs_.length)
    (v : Tensor α) (hret : (forward_recursive fuel fid g).ret = Except.ok v) :
    Settled (forward_recursive fuel fid g).g fid v := by
  cases fuel with
  | zero => omega
  | succ fuel =>
    obtain ⟨f, n, hf, hn, hrets⟩ := slot_zero_of_topological ht hlen
    rw [forward_recursive] at hret ⊢
    simp only [hf, hn] at hret ⊢
    cases hin : f.func.get_inner_value with
    | some w =>
      simp only [hin] at hret ⊢
      cases hret
      exact ⟨f, n, hf, hn, Or.inl hin⟩
    | none =>
      simp only [hin] at hret ⊢
      cases hv : n.value with
      | some w =>
        simp only [hv] at hret ⊢
        cases hret
        exact ⟨f, n, hf, hn, Or.inr ⟨hin, hv⟩⟩
      | none =>
        simp only [hv] at hret ⊢
        have hargs : ∀ a ∈ f.args, a.fid < fid ∧ a.fid < g.funcs_.length := by
          intro a ha
          have := (ht fid f hf).2 a ha
          omega
        obtain ⟨hrun, -, -⟩ :=
          gather_values_spec (forward_recursive fuel) fid
            (fun fid1 g1 h1 h2 h3 h4 => forward_recursive_spec fuel fid1 g1 h1 h2 (by omega) h4)
            f.args g ht hm hargs
        generalize gather_values (forward_recursive fuel) f.args g = r at hrun hret
        cases hr : r.ret with
        | error e => simp only [hr] at hret; cases hret
        | ok vs =>
          simp only [hr] at hret ⊢
          cases hfw : f.func.forward vs with
          | none => simp only [hfw] at hret; cases hret
          | some w =>
            simp only [hfw] at hret ⊢
            cases hret
            have hlen1 : fid < r.g.funcs_.length := by rw [forward_run_length_eq hrun]; exact hlen
            obtain ⟨f1, n1, hf1, hn1, hrets1⟩ :=
              slot_zero_of_topological (forward_run_topological hrun ht) hlen1
            obtain ⟨f0, hf0, hfun, _, _⟩ := funcs_of_map_nodes_eq hrun.frame fid f1 hf1
            rw [hf] at hf0
            cases hf0
            refine ⟨{ f1 with rets := [{ n1 with value := some v }] },
              { n1 with value := some v }, ?_, rfl, Or.inr ⟨?_, rfl⟩⟩
            · simp only [Graph.set_value, getElem?_update_node, if_true, hf1, Option.map_some',
                hrets1]
              rfl
            · simp only
              rw [← hfun]
              exact hin

/-! ## Construction -/

theorem check_node_none {α : Type} (g : Graph α) (n : Node) :
    g.CHECK_NODE n = none ↔
      n.g_ = g.addr ∧ ∃ f, g.funcs_[n.fid_]? = some f ∧ n.vid_ < f.rets.length := by
  unfold Graph.CHECK_NODE
  by_cases h : n.g_ = g.addr
  · simp only [h, ne_eq, not_true_eq_false, if_false, true_and]
    cases hf : g.funcs_[n.fid_]? with
    | none => simp
    | some f =>
      by_cases hv : n.vid_ < f.rets.length <;> simp [hv]
  · simp [h]

theorem access_of_check_node {α : Type} (g : Graph α) (n : Node) (h : g.CHECK_NODE n = none) :
    ∃ f ni, g.funcs_[n.fid_]? = some f ∧ f.rets[n.vid_]? = some ni ∧ g.ACCESS n = some ni := by
  obtain ⟨_, f, hf, hv⟩ := (check_node_none g n).mp h
  refine ⟨f, f.rets[n.vid_], hf, List.getElem?_eq_getElem hv, ?_⟩
  simp [Graph.ACCESS, node_at, hf, List.getElem?_eq_getElem hv]

theorem gather_args_spec {α : Type} (g : Graph α) :
    ∀ (args : List Node) (addrs : List Address) (shapes : List Shape),
      g.gather_args args = Except.ok (addrs, shapes) →
      addrs = args.map Node.address ∧ (∀ n ∈ args, g.CHECK_NODE n = none) ∧
        List.Forall₂ (fun n s => (g.ACCESS n).map NodeInfo.shape = some s) args shapes := by
  intro args
  induction args with
  | nil =>
    intro addrs shapes h
    simp only [Graph.gather_args, Except.ok.injEq, Prod.mk.injEq] at h
    obtain ⟨h1, h2⟩ := h
    subst h1 h2
    simp
  | cons a rest ih =>
    intro addrs shapes h
    simp only [Graph.gather_args] at h
    cases hc : g.CHECK_NODE a with
    | some e => simp [hc] at h
    | none =>
      simp only [hc] at h
      cases ha : g.ACCESS a with
      | none => simp [ha] at h
      | some ni =>
        simp only [ha] at h
        cases hr : g.gather_args rest with
        | error e => simp [hr] at h
        | ok p =>
          obtain ⟨as, ss⟩ := p
          simp only [hr, Except.ok.injEq, Prod.mk.injEq] at h
          obtain ⟨h1, h2⟩ := h
          subst h1 h2
          obtain ⟨i1, i2, i3⟩ := ih as ss hr
          refine ⟨by simp [i1, Node.address], ?_, ?_⟩
          · intro n hn
            rcases List.mem_cons.mp hn with hn | hn
            · rw [hn]; exact hc
            · exact i2 n hn
          · exact List.Forall₂.cons (by simp [ha]) i3

theorem gather_args_of_valid {α : Type} (g : Graph α) :
    ∀ (args : List Node), (∀ n ∈ args, g.CHECK_NODE n = none) →
      ∃ addrs shapes, g.gather_args args = Except.ok (addrs, shapes) := by
  intro args
  induction args with
  | nil => intro _; exact ⟨[], [], rfl⟩
  | cons a rest ih =>
    intro h
    have hc := h a (List.mem_cons_self _ _)
    obtain ⟨f, ni, _, _, ha⟩ := access_of_check_node g a hc
    obtain ⟨as, ss, hr⟩ := ih (fun n hn => h n (List.mem_cons_of_mem _ hn))
    exact ⟨⟨a.fid_, a.vid_⟩ :: as, ni.shape :: ss, by simp [Graph.gather_args, hc, ha, hr]⟩

theorem map_rets_foldl_register_sink {α : Type} (r : Nat) (h : NodeInfo α → NodeInfo α)
    (hh : ∀ n s, h { n with sinks := s } = h n) :
    ∀ (addrs : List Address) (fs : List (FunctionInfo α)),
      (addrs.foldl (register_sink r) fs).map (fun f => { f with rets := f.rets.map h }) =
        fs.map (fun f => { f with rets := f.rets.map h }) := by
  intro addrs
  induction addrs with
  | nil => intro fs; rfl
  | cons a rest ih =>
    intro fs
    simp only [List.foldl_cons]
    rw [ih]
    unfold register_sink
    exact map_rets_update_node _ _ _ _ _ (fun n => hh n _)

/-- The two ways a call of `add_function` ends: it fails and leaves the graph as it was,
or it appends one step after registering the sinks. -/
theorem add_function_cases {α : Type} (g : Graph α) (func : Function α) (args : List Node) :
    (∃ e, g.add_function func args = ⟨Except.error e, g, []⟩ ∧
      (g.gather_args args = Except.error e ∨
        (∃ addrs shapes, g.gather_args args = Except.ok (addrs, shapes) ∧
          ((func.forward_shape shapes = none ∧ e = Failure.shapeError) ∨
           (∃ s, func.forward_shape shapes = some s ∧ g.ret_device func args = none ∧
              e = Failure.badDevice))))) ∨
    (∃ addrs shapes ret_shape ret_device,
      g.gather_args args = Except.ok (addrs, shapes) ∧
      func.forward_shape shapes = some ret_shape ∧
      g.ret_device func args = some ret_device ∧
      g.add_function func args =
        ⟨Except.ok ⟨g.addr, g.funcs_.length, 0⟩,
          ⟨g.addr, addrs.foldl (register_sink g.funcs_.length) g.funcs_ ++
            [⟨func, addrs, [⟨ret_shape, ret_device, none, none, []⟩]⟩]⟩, []⟩) := by
  unfold Graph.add_function
  cases hg : g.gather_args args with
  | error e => exact Or.inl ⟨e, rfl, Or.inl rfl⟩
  | ok p =>
    obtain ⟨addrs, shapes⟩ := p
    simp only
    cases hs : func.forward_shape shapes with
    | none => exact Or.inl ⟨_, rfl, Or.inr ⟨addrs, shapes, rfl, Or.inl ⟨hs, rfl⟩⟩⟩
    | some s =>
      simp only
      cases hd : g.ret_device func args with
      | none => exact Or.inl ⟨_, rfl, Or.inr ⟨addrs, shapes, rfl, Or.inr ⟨s, hs, rfl, rfl⟩⟩⟩
      | some d => exact Or.inr ⟨addrs, shapes, s, d, rfl, hs, rfl, rfl⟩

theorem erase_sinks_register {α : Type} (g : Graph α) (r : Nat) (addrs : List Address) :
    (Graph.mk g.addr (addrs.foldl (register_sink r) g.funcs_)).erase_sinks = g.erase_sinks := by
  unfold Graph.erase_sinks Graph.map_nodes
  simp only [Graph.mk.injEq, true_and]
  exact map_rets_foldl_register_sink r (fun n => { n with sinks := [] }) (fun _ _ => rfl)
    addrs g.funcs_

theorem topological_clear {α : Type} (g : Graph α) : g.clear.Topological := by
  intro i f h
  simp [Graph.clear] at h

theorem topological_empty {α : Type} (addr : Nat) : (Graph.mk (α := α) addr []).Topological := by
  intro i f h
  simp at h

theorem topological_add_function {α : Type} (g : Graph α) (ht : g.Topological)
    (func : Function α) (args : List Node) : (g.add_function func args).g.Topological := by
  rcases add_function_cases g func args with ⟨e, h, _⟩ | ⟨addrs, shapes, s, d, hg, _, _, h⟩
  · rw [h]; exact ht
  · rw [h]
    simp only
    have hs := erase_sinks_register g g.funcs_.length addrs
    have hts := topological_of_map_nodes_eq hs ht
    have hl := length_of_map_nodes_eq hs
    simp only at hl
    intro i f hf
    simp only at hf
    rcases Nat.lt_trichotomy i g.funcs_.length with hi | hi | hi
    · rw [List.getElem?_append_left (by omega)] at hf
      exact hts i f hf
    · rw [List.getElem?_append_right (by omega)] at hf
      have : i - (List.foldl (register_sink g.funcs_.length) g.funcs_ addrs).length = 0 := by omega
      rw [this] at hf
      simp only [List.getElem?_cons_zero, Option.some.injEq] at hf
      subst hf
      refine ⟨rfl, ?_⟩
      intro a ha
      simp only at ha
      obtain ⟨h1, h2, _⟩ := gather_args_spec g args addrs shapes hg
      rw [h1] at ha
      obtain ⟨n, hn, hna⟩ := List.mem_map.mp ha
      obtain ⟨_, f, hf, hv⟩ := (check_node_none g n).mp (h2 n hn)
      have hlt : n.fid_ < g.funcs_.length := (List.getElem?_eq_some.mp hf).1
      have := (ht n.fid_ f hf).1
      rw [← hna]
      simp only [Node.address]
      omega
    · rw [List.getElem?_append_right (by omega)] at hf
      have : i - (List.foldl (register_sink g.funcs_.length) g.funcs_ addrs).length =
          (i - g.funcs_.length - 1) + 1 := by omega
      rw [this] at hf
      simp at hf

theorem topological_of_constructed {α : Type} {g : Graph α} (h : Constructed g) :
    g.Topological := by
  induction h with
  | empty addr => exact topological_empty addr
  | add_function func args _ ih => exact topological_add_function _ ih func args
  | clear _ _ => exact topological_clear _

theorem valid_slot_of_topological {α : Type} {g : Graph α} (ht : g.Topological) (i : Nat)
    (f : FunctionInfo α) (hf : g.funcs_[i]? = some f) (a : Address) (ha : a ∈ f.args) :
    a.fid < i ∧ ∃ fa, g.funcs_[a.fid]? = some fa ∧ a.vid < fa.rets.length := by
  have h1 := (ht i f hf).2 a ha
  have hi : i < g.funcs_.length := (List.getElem?_eq_some.mp hf).1
  have hlt : a.fid < g.funcs_.length := by omega
  refine ⟨h1.1, g.funcs_[a.fid], List.getElem?_eq_getElem hlt, ?_⟩
  have := (ht a.fid _ (List.getElem?_eq_getElem hlt)).1
  omega

/-- C1. Topological invariant: in every graph reached from the empty graph by calls of
`add_function` (returning or failing) and `clear`, every argument address `(f, v)` stored in
step `i` has `f < i`, and `v` is an output slot of step `f`. -/
theorem topological_invariant {α : Type} (g : Graph α) (h : Constructed g) (i : Nat)
    (f : FunctionInfo α) (hf : g.funcs_[i]? = some f) (a : Address) (ha : a ∈ f.args) :
    a.fid < i ∧ ∃ fa, g.funcs_[a.fid]? = some fa ∧ a.vid < fa.rets.length :=
  valid_slot_of_topological (topological_of_constructed h) i f hf a ha

theorem topological_invariant_witness :
    Constructed Scenario.gAC ∧ (⟨0, 0⟩ : Address) ∈ [(⟨0, 0⟩ : Address), ⟨0, 0⟩] ∧
      (0 < 1 ∧ ∃ fa, Scenario.gAC.funcs_[0]? = some fa ∧ 0 < fa.rets.length) :=
  ⟨Constructed.add_function _ _ (Constructed.add_function _ _ (Constructed.empty 1)),
    by decide,
    topological_invariant Scenario.gAC
      (Constructed.add_function _ _ (Constructed.add_function _ _ (Constructed.empty 1))) 1
      ⟨Scenario.add, [⟨0, 0⟩, ⟨0, 0⟩], [⟨⟨[1], 1⟩, Scenario.D0, none, none, []⟩]⟩ rfl
      ⟨0, 0⟩ (by decide)⟩

/-- C4. A failing `add_function` is atomic: whatever the failure (graph mismatch, shape
error, bad device forwarding), the graph after the call is the graph before the call, so
the step count, and the arguments, shape, value, gradient and sink list of every step,
are unchanged, and no contract was invoked. -/
theorem add_function_atomic {α : Type} (g : Graph α) (func : Function α) (args : List Node)
    (e : Failure) (h : (g.add_function func args).ret = Except.error e) :
    (g.add_function func args).g = g ∧ (g.add_function func args).log = [] := by
  rcases add_function_cases g func args with ⟨e1, h1, _⟩ | ⟨addrs, shapes, s, d, _, _, _, h1⟩
  · rw [h1]; exact ⟨rfl, rfl⟩
  · rw [h1] at h; cases h

theorem add_function_atomic_witness :
    (Scenario.gAB.add_function Scenario.add [Scenario.nA, Scenario.nB]).ret =
        Except.error Failure.shapeError ∧
      ((Scenario.gAB.add_function Scenario.add [Scenario.nA, Scenario.nB]).g = Scenario.gAB ∧
        (Scenario.gAB.add_function Scenario.add [Scenario.nA, Scenario.nB]).log = []) :=
  ⟨rfl, add_function_atomic Scenario.gAB Scenario.add [Scenario.nA, Scenario.nB]
    Failure.shapeError rfl⟩

theorem length_foldl_register_sink {α : Type} (r : Nat) :
    ∀ (addrs : List Address) (fs : List (FunctionInfo α)),
      (addrs.foldl (register_sink r) fs).length = fs.length := by
  intro addrs
  induction addrs with
  | nil => intro fs; rfl
  | cons a rest ih =>
    intro fs
    simp only [List.foldl_cons]
    rw [ih]
    exact length_update_node _ _ _ _

theorem get_shape_of_access {α : Type} (g : Graph α) (n : Node) (ni : NodeInfo α)
    (hc : g.CHECK_NODE n = none) (ha : g.ACCESS n = some ni) :
    g.get_shape n = Except.ok ni.shape := by
  simp [Graph.get_shape, hc, ha]

theorem get_device_of_access {α : Type} (g : Graph α) (n : Node) (ni : NodeInfo α)
    (hc : g.CHECK_NODE n = none) (ha : g.ACCESS n = some ni) :
    g.get_device n = Except.ok ni.device := by
  simp [Graph.get_device, hc, ha]

/-- The step a returning `add_function` appends, seen through `CHECK_NODE` and `ACCESS`. -/
theorem new_step_access {α : Type} (addr : Nat) (fs : List (FunctionInfo α))
    (f : FunctionInfo α) (ni : NodeInfo α) (hr : f.rets = [ni]) (k : Nat) (hk : k = fs.length) :
    (Graph.mk addr (fs ++ [f])).funcs_[k]? = some f ∧
      (Graph.mk addr (fs ++ [f])).CHECK_NODE ⟨addr, k, 0⟩ = none ∧
      (Graph.mk addr (fs ++ [f])).ACCESS ⟨addr, k, 0⟩ = some ni := by
  subst hk
  have h1 : (fs ++ [f])[fs.length]? = some f := by
    rw [List.getElem?_append_right (Nat.le_refl _)]
    simp
  refine ⟨h1, ?_, ?_⟩
  · rw [check_node_none]
    exact ⟨rfl, f, h1, by simp [hr]⟩
  · simp [Graph.ACCESS, node_at, h1, hr]

/-- C6. Device forwarding: when the arguments of an `add_function` call pass the checks and
the shape inference succeeds, the device of the new step is the device the operation
declares if it declares one, otherwise the device of the slot of argument 0; the call
fails with the bad-device error exactly when the operation declares no device and there
is no argument. -/
theorem device_forwarding {α : Type} (g : Graph α) (func : Function α) (args : List Node)
    (addrs : List Address) (shapes : List Shape) (s : Shape)
    (hg : g.gather_args args = Except.ok (addrs, shapes))
    (hs : func.forward_shape shapes = some s) :
    ((g.add_function func args).ret = Except.error Failure.badDevice ↔
        func.get_device = none ∧ args = []) ∧
      (∀ d, func.get_device = some d →
        (g.add_function func args).ret = Except.ok ⟨g.addr, g.funcs_.length, 0⟩ ∧
        (g.add_function func args).g.get_device ⟨g.addr, g.funcs_.length, 0⟩ = Except.ok d) ∧
      (∀ arg0 rest, func.get_device = none → args = arg0 :: rest →
        (g.add_function func args).ret = Except.ok ⟨g.addr, g.funcs_.length, 0⟩ ∧
        ∃ d, g.get_device arg0 = Except.ok d ∧
          (g.add_function func args).g.get_device ⟨g.addr, g.funcs_.length, 0⟩ =
            Except.ok d) := by
  have key : ∀ d, g.ret_device func args = some d →
      (g.add_function func args).ret = Except.ok ⟨g.addr, g.funcs_.length, 0⟩ ∧
      (g.add_function func args).g.get_device ⟨g.addr, g.funcs_.length, 0⟩ = Except.ok d := by
    intro d hd
    simp only [Graph.add_function, hg, hs, hd, true_and]
    obtain ⟨_, h2, h3⟩ := new_step_access g.addr
      (addrs.foldl (register_sink g.funcs_.length) g.funcs_)
      ⟨func, addrs, [⟨s, d, none, none, []⟩]⟩ ⟨s, d, none, none, []⟩ rfl g.funcs_.length
      (length_foldl_register_sink _ _ _).symm
    exact get_device_of_access _ _ _ h2 h3
  refine ⟨?_, ?_, ?_⟩
  · constructor
    · intro h
      cases hd : g.ret_device func args with
      | some d => rw [(key d hd).1] at h; cases h
      | none =>
        unfold Graph.ret_device at hd
        cases hdev : func.get_device with
        | some d => simp [hdev] at hd
        | none =>
          refine ⟨rfl, ?_⟩
          cases args with
          | nil => rfl
          | cons a rest =>
            exfalso
            obtain ⟨_, h2, _⟩ := gather_args_spec g _ addrs shapes hg
            obtain ⟨f, ni, _, _, ha⟩ := access_of_check_node g a (h2 a (List.mem_cons_self _ _))
            simp [hdev, ha] at hd
    · intro ⟨h1, h2⟩
      have : g.ret_device func args = none := by simp [Graph.ret_device, h1, h2]
      simp [Graph.add_function, hg, hs, this]
  · intro d hd
    exact key d (by simp [Graph.ret_device, hd])
  · intro arg0 rest hd hargs
    obtain ⟨_, h2, _⟩ := gather_args_spec g _ addrs shapes hg
    have hc := h2 arg0 (by rw [hargs]; exact List.mem_cons_self _ _)
    obtain ⟨f, ni, _, _, ha⟩ := access_of_check_node g arg0 hc
    have hr : g.ret_device func args = some ni.device := by
      simp [Graph.ret_device, hd, hargs, ha]
    exact ⟨(key _ hr).1, ni.device, get_device_of_access g arg0 ni hc ha, (key _ hr).2⟩

theorem device_forwarding_witness :
    Scenario.gX.gather_args [Scenario.nA] = Except.ok ([⟨0, 0⟩], [⟨[3], 1⟩]) ∧
      Scenario.double.get_device = none ∧
      ((Scenario.gX.add_function Scenario.double [Scenario.nA]).ret =
          Except.ok ⟨Scenario.gX.addr, Scenario.gX.funcs_.length, 0⟩ ∧
        ∃ d, Scenario.gX.get_device Scenario.nA = Except.ok d ∧
          (Scenario.gX.add_function Scenario.double [Scenario.nA]).g.get_device
            ⟨Scenario.gX.addr, Scenario.gX.funcs_.length, 0⟩ = Except.ok d) :=
  ⟨rfl, rfl,
    (device_forwarding Scenario.gX Scenario.double [Scenario.nA] [⟨0, 0⟩] [⟨[3], 1⟩] ⟨[3], 1⟩
      rfl rfl).2.2 Scenario.nA [] rfl rfl⟩

theorem shapes_of_access {α : Type} (g : Graph α) (args : List Node) (shapes : List Shape)
    (h3 : List.Forall₂ (fun n s => (g.ACCESS n).map NodeInfo.shape = some s) args shapes) :
    (∀ n ∈ args, g.CHECK_NODE n = none) →
      List.Forall₂ (fun n s => g.get_shape n = Except.ok s) args shapes := by
  induction h3 with
  | nil => intro _; exact List.Forall₂.nil
  | @cons n s rest ss hh _ ih =>
    intro h2
    refine List.Forall₂.cons ?_ (ih (fun m hm => h2 m (List.mem_cons_of_mem _ hm)))
    have hc := h2 n (List.mem_cons_self _ _)
    obtain ⟨f, ni, _, _, ha⟩ := access_of_check_node g n hc
    rw [get_shape_of_access g n ni hc ha]
    simp only [ha, Option.map_some', Option.some.injEq] at hh
    rw [hh]

theorem shapes_of_gather_args {α : Type} (g : Graph α) (args : List Node)
    (addrs : List Address) (shapes : List Shape)
    (hg : g.gather_args args = Except.ok (addrs, shapes)) :
    List.Forall₂ (fun n s => g.get_shape n = Except.ok s) args shapes := by
  obtain ⟨_, h2, h3⟩ := gather_args_spec g args addrs shapes hg
  exact shapes_of_access g args shapes h3 h2

/-- C7. Postcondition of a returning `add_function` on a graph with `n` steps: the graph
has `n + 1` steps; the returned node is step `n`, slot 0 of this graph; the record of step
`n` holds the operation, the addresses of the arguments in order, and exactly one output
slot, whose shape is the shape inference applied to the shapes of the arguments in order
and whose value, gradient and sink list are empty; `get_shape` of the returned node is
that shape. -/
theorem add_function_postcondition {α : Type} (g : Graph α) (func : Function α)
    (args : List Node) (node : Node)
    (h : (g.add_function func args).ret = Except.ok node) :
    (g.add_function func args).g.funcs_.length = g.funcs_.length + 1 ∧
      node = ⟨g.addr, g.funcs_.length, 0⟩ ∧
      (g.add_function func args).g.addr = g.addr ∧
      ∃ shapes ret_shape ret_device,
        List.Forall₂ (fun n s => g.get_shape n = Except.ok s) args shapes ∧
        func.forward_shape shapes = some ret_shape ∧
        (g.add_function func args).g.funcs_[g.funcs_.length]? =
          some ⟨func, args.map Node.address, [⟨ret_shape, ret_device, none, none, []⟩]⟩ ∧
        (g.add_function func args).g.get_shape node = Except.ok ret_shape := by
  rcases add_function_cases g func args with ⟨e1, h1, _⟩ | ⟨addrs, shapes, s, d, hg, hs, _, h1⟩
  · rw [h1] at h; cases h
  · rw [h1] at h ⊢
    simp only [Except.ok.injEq] at h
    subst h
    obtain ⟨e1, e2, e3⟩ := new_step_access g.addr
      (addrs.foldl (register_sink g.funcs_.length) g.funcs_)
      ⟨func, addrs, [⟨s, d, none, none, []⟩]⟩ ⟨s, d, none, none, []⟩ rfl g.funcs_.length
      (length_foldl_register_sink _ _ _).symm
    refine ⟨by simp [length_foldl_register_sink], rfl, rfl, shapes, s, d,
      shapes_of_gather_args g args addrs shapes hg, hs, ?_, ?_⟩
    · rw [← (gather_args_spec g args addrs shapes hg).1]
      exact e1
    · exact get_shape_of_access _ _ _ e2 e3

theorem add_function_postcondition_witness :
    (Scenario.gA.add_function Scenario.add [Scenario.nA, Scenario.nA]).ret =
        Except.ok Scenario.nC ∧
      ((Scenario.gA.add_function Scenario.add [Scenario.nA, Scenario.nA]).g.funcs_.length =
          Scenario.gA.funcs_.length + 1 ∧
        Scenario.nC = ⟨Scenario.gA.addr, Scenario.gA.funcs_.length, 0⟩ ∧
        (Scenario.gA.add_function Scenario.add [Scenario.nA, Scenario.nA]).g.addr =
          Scenario.gA.addr ∧
        ∃ shapes ret_shape ret_device,
          List.Forall₂ (fun n s => Scenario.gA.get_shape n = Except.ok s)
            [Scenario.nA, Scenario.nA] shapes ∧
          Scenario.add.forward_shape shapes = some ret_shape ∧
          (Scenario.gA.add_function Scenario.add
              [Scenario.nA, Scenario.nA]).g.funcs_[Scenario.gA.funcs_.length]? =
            some ⟨Scenario.add, [Scenario.nA, Scenario.nA].map Node.address,
              [⟨ret_shape, ret_device, none, none, []⟩]⟩ ∧
          (Scenario.gA.add_function Scenario.add [Scenario.nA, Scenario.nA]).g.get_shape
            Scenario.nC = Except.ok ret_shape) :=
  ⟨rfl, add_function_postcondition Scenario.gA Scenario.add [Scenario.nA, Scenario.nA]
    Scenario.nC rfl⟩

/-- C5 as stated fails: the node `A` returned before `clear()` passes the checks again
once a new step has been added to the cleared graph; `get_shape`, `get_device` and
`forward` then return the data of the new step 0. -/
theorem stale_node_accepted_after_rebuild :
    (Scenario.g0.add_function (Scenario.input (Scenario.vec [1])) []).ret =
        Except.ok Scenario.nA ∧
      Scenario.gA.get_shape Scenario.nA = Except.ok ⟨[1], 1⟩ ∧
      Scenario.gRebuilt.get_shape Scenario.nA = Except.ok ⟨[2], 1⟩ ∧
      Scenario.gRebuilt.get_device Scenario.nA = Except.ok Scenario.D0 ∧
      (Scenario.gRebuilt.forward Scenario.nA).ret = Except.ok (Scenario.vec [7, 8]) := by
  refine ⟨rfl, rfl, rfl, rfl, rfl⟩

/-- C5, amended. `clear()` leaves a graph without steps, and a node of this graph whose
step id is not below the number of steps of the graph is rejected as an invalid node by
`forward`, `get_shape` and `get_device`; so every node returned before a `clear()` is
rejected right after it, and stays rejected as long as the graph has been given no more
than `fid_` new steps. `forward` leaves the graph as it is and invokes no contract. -/
theorem stale_node_rejected {α : Type} (g : Graph α) (node : Node)
    (hown : node.g_ = g.addr) (hstale : g.funcs_.length ≤ node.fid_) :
    g.clear.funcs_.length = 0 ∧
      g.get_shape node = Except.error Failure.invalidNode ∧
      g.get_device node = Except.error Failure.invalidNode ∧
      g.forward node = ⟨Except.error Failure.invalidNode, g, []⟩ ∧
      g.clear.get_shape node = Except.error Failure.invalidNode ∧
      g.clear.get_device node = Except.error Failure.invalidNode ∧
      g.clear.forward node = ⟨Except.error Failure.invalidNode, g.clear, []⟩ := by
  have h1 : g.funcs_[node.fid_]? = none := List.getElem?_eq_none_iff.mpr hstale
  have hc : g.CHECK_NODE node = some Failure.invalidNode := by
    simp [Graph.CHECK_NODE, hown, h1]
  have hc2 : g.clear.CHECK_NODE node = some Failure.invalidNode := by
    simp [Graph.CHECK_NODE, Graph.clear, hown]
  refine ⟨rfl, ?_, ?_, ?_, ?_, ?_, ?_⟩
  · simp [Graph.get_shape, hc]
  · simp [Graph.get_device, hc]
  · simp [Graph.forward, hc]
  · simp [Graph.get_shape, hc2]
  · simp [Graph.get_device, hc2]
  · simp [Graph.forward, hc2]

theorem stale_node_rejected_witness :
    Scenario.nC.g_ = Scenario.gA.addr ∧ Scenario.gA.funcs_.length ≤ Scenario.nC.fid_ ∧
      (Scenario.gA.clear.funcs_.length = 0 ∧
      Scenario.gA.get_shape Scenario.nC = Except.error Failure.invalidNode ∧
      Scenario.gA.get_device Scenario.nC = Except.error Failure.invalidNode ∧
      Scenario.gA.forward Scenario.nC = ⟨Except.error Failure.invalidNode, Scenario.gA, []⟩ ∧
      Scenario.gA.clear.get_shape Scenario.nC = Except.error Failure.invalidNode ∧
      Scenario.gA.clear.get_device Scenario.nC = Except.error Failure.invalidNode ∧
      Scenario.gA.clear.forward Scenario.nC =
        ⟨Except.error Failure.invalidNode, Scenario.gA.clear, []⟩) :=
  ⟨rfl, by decide, stale_node_rejected Scenario.gA Scenario.nC rfl (by decide)⟩

/-! ## The backward sweep changes gradients only -/

theorem gather_grads_frame {α : Type} [Zero α] :
    ∀ (args : List Address) (g : Graph α), (gather_grads args g).2.erase_grads = g.erase_grads := by
  intro args
  induction args with
  | nil => intro g; rfl
  | cons a rest ih =>
    intro g
    simp only [gather_grads]
    cases hf : g.funcs_[a.fid]? with
    | none => rfl
    | some f =>
      simp only
      cases hn : f.rets[a.vid]? with
      | none => rfl
      | some n =>
        simp only
        cases hgrad : n.grad with
        | none =>
          cases hv : value_or_inner f n with
          | none => rfl
          | some v =>
            simp only
            have := ih (g.set_grad a (some (n.device.new_tensor v.shape 0)))
            rw [map_nodes_set_grad] at this
            split <;> rename_i heq <;> rw [heq] at this <;> exact this
        | some t =>
          simp only
          have := ih g
          split <;> rename_i heq <;> rw [heq] at this <;> exact this

theorem store_grads_frame {α : Type} (heap : GradHeap α) :
    ∀ (ptrs : List Address) (g : Graph α), (g.store_grads ptrs heap).erase_grads = g.erase_grads := by
  intro ptrs
  induction ptrs with
  | nil => intro g; rfl
  | cons a rest ih =>
    intro g
    simp only [Graph.store_grads, List.foldl_cons]
    have := ih (g.set_grad a (heap a))
    simp only [Graph.store_grads] at this
    rw [this, map_nodes_set_grad]

theorem backward_step_frame {α : Type} [Zero α] (fid : Nat) (g : Graph α) :
    (backward_step fid g).g.erase_grads = g.erase_grads := by
  unfold backward_step
  cases hf : g.funcs_[fid]? with
  | none => rfl
  | some f =>
    simp only
    cases hn : f.rets[0]? with
    | none => rfl
    | some n =>
      simp only
      cases hgrad : n.grad with
      | none => rfl
      | some cg =>
        simp only
        have h1 := gather_grads_frame f.args g
        split
        · rename_i e g1 heq
          rw [heq] at h1
          exact h1
        · rename_i vs g1 heq
          rw [heq] at h1
          simp only at h1
          cases hv : value_or_inner f n with
          | none => exact h1
          | some v =>
            simp only
            split
            · simp only
              rw [store_grads_frame, h1]
            · simp only
              rw [map_nodes_set_grad, store_grads_frame, h1]

theorem backward_loop_frame {α : Type} [Zero α] :
    ∀ (n : Nat) (g : Graph α), (backward_loop n g).g.erase_grads = g.erase_grads := by
  intro n
  induction n with
  | zero => intro g; rfl
  | succ n ih =>
    intro g
    simp only [backward_loop]
    have h1 := backward_step_frame n g
    split
    · exact h1
    · simp only
      rw [ih, h1]

theorem seed_and_sweep_frame {α : Type} [Zero α] [One α] (g : Graph α) (node : Node)
    (d : Device) (s : Shape) : (seed_and_sweep g node d s).g.erase_grads = g.erase_grads := by
  unfold seed_and_sweep
  rw [backward_loop_frame, map_nodes_set_grad]

/-- The graph after `backward` differs in gradients only from the graph before the call
or from the graph after the `forward` call it makes. -/
theorem backward_frame {α : Type} [Zero α] [One α] (g : Graph α) (node : Node) :
    (g.backward node).g.erase_grads = g.erase_grads ∨
      (g.backward node).g.erase_grads = (g.forward node).g.erase_grads := by
  unfold Graph.backward
  cases hc : g.CHECK_NODE node with
  | some e => exact Or.inl rfl
  | none =>
    simp only
    cases hf : g.funcs_[node.fid_]? with
    | none => exact Or.inl rfl
    | some f =>
      simp only
      cases hn : f.rets[node.vid_]? with
      | none => exact Or.inl rfl
      | some n =>
        simp only
        cases hv : value_or_inner f n with
        | some v => exact Or.inl (seed_and_sweep_frame _ _ _ _)
        | none =>
          simp only
          cases hr : (g.forward node).ret with
          | error e => exact Or.inr rfl
          | ok v =>
            simp only
            cases ha : (g.forward node).g.ACCESS node with
            | none => exact Or.inr rfl
            | some n1 =>
              simp only
              cases hv1 : n1.value with
              | none => exact Or.inr rfl
              | some v1 => exact Or.inr (seed_and_sweep_frame _ _ _ _)

/-! ## Invariants of the reachable graphs -/

theorem forward_spec {α : Type} (g : Graph α) (ht : g.Topological) (hm : g.MemoOK)
    (node : Node) (hv : g.CHECK_NODE node = none) :
    ForwardRun g (g.forward node).g (g.forward node).log (node.fid_ + 1) ∧
      (g.forward node).ret = g.eval node.fid_ ∧
      ((∃ v, (g.forward node).ret = Except.ok v) →
        Memoized (g.forward node).g (g.forward node).log) := by
  obtain ⟨_, f, hf, _⟩ := (check_node_none g node).mp hv
  have hlen : node.fid_ < g.funcs_.length := (List.getElem?_eq_some.mp hf).1
  simp only [Graph.forward, hv]
  exact forward_recursive_spec g.funcs_.length node.fid_ g ht hm hlen hlen

theorem forward_keeps_invariants {α : Type} (g : Graph α) (ht : g.Topological) (hm : g.MemoOK)
    (node : Node) : (g.forward node).g.Topological ∧ (g.forward node).g.MemoOK := by
  cases hv : g.CHECK_NODE node with
  | some e =>
    simp only [Graph.forward, hv]
    exact ⟨ht, hm⟩
  | none =>
    obtain ⟨hrun, _, _⟩ := forward_spec g ht hm node hv
    exact ⟨forward_run_topological hrun ht, hrun.memo⟩

theorem memo_of_erase_grads_eq {α : Type} {g g1 : Graph α}
    (e : g1.erase_grads = g.erase_grads) (ht : g.Topological) (hm : g.MemoOK) : g1.MemoOK := by
  intro i v hv
  rw [value_at_of_erase_grads_eq e] at hv
  rw [eval_of_map_nodes_eq e ht]
  exact hm i v hv

theorem backward_keeps_invariants {α : Type} [Zero α] [One α] (g : Graph α)
    (ht : g.Topological) (hm : g.MemoOK) (node : Node) :
    (g.backward node).g.Topological ∧ (g.backward node).g.MemoOK := by
  rcases backward_frame g node with e | e
  · exact ⟨topological_of_map_nodes_eq e ht, memo_of_erase_grads_eq e ht hm⟩
  · obtain ⟨ht1, hm1⟩ := forward_keeps_invariants g ht hm node
    exact ⟨topological_of_map_nodes_eq e ht1, memo_of_erase_grads_eq e ht1 hm1⟩

theorem memo_add_function {α : Type} (g : Graph α) (ht : g.Topological) (hm : g.MemoOK)
    (func : Function α) (args : List Node) : (g.add_function func args).g.MemoOK := by
  rcases add_function_cases g func args with ⟨e, h, _⟩ | ⟨addrs, shapes, s, d, hg, _, _, h⟩
  · rw [h]; exact hm
  · rw [h]
    simp only
    have hs := erase_sinks_register g g.funcs_.length addrs
    have hl : (addrs.foldl (register_sink g.funcs_.length) g.funcs_).length = g.funcs_.length :=
      length_foldl_register_sink _ _ _
    intro i v hv
    have hi : i < g.funcs_.length := by
      rcases Nat.lt_trichotomy i g.funcs_.length with hi | hi | hi
      · exact hi
      · exfalso
        simp only [Graph.value_at, node_at] at hv
        rw [List.getElem?_append_right (by omega)] at hv
        have : i - (List.foldl (register_sink g.funcs_.length) g.funcs_ addrs).length = 0 := by
          omega
        rw [this] at hv
        simp at hv
      · exfalso
        simp only [Graph.value_at, node_at] at hv
        rw [List.getElem?_append_right (by omega)] at hv
        have : i - (List.foldl (register_sink g.funcs_.length) g.funcs_ addrs).length =
            (i - g.funcs_.length - 1) + 1 := by omega
        rw [this] at hv
        simp at hv
    have hval : g.value_at i = some v := by
      have h1 := node_at_of_map_nodes_eq hs i 0
      simp only [Graph.value_at, node_at] at hv h1 ⊢
      rw [List.getElem?_append_left (by omega)] at hv
      cases h2 : (List.foldl (register_sink g.funcs_.length) g.funcs_ addrs)[i]? with
      | none => rw [h2] at hv; simp at hv
      | some f1 =>
        rw [h2] at hv h1
        simp only at hv h1
        cases h3 : f1.rets[0]? with
        | none => rw [h3] at hv; simp at hv
        | some n1 =>
          rw [h3] at hv h1
          simp only [Option.bind_some, Option.map_some'] at hv h1
          cases h4 : g.funcs_[i]? with
          | none => rw [h4] at h1; simp at h1
          | some f0 =>
            rw [h4] at h1
            simp only at h1 ⊢
            cases h5 : f0.rets[0]? with
            | none => rw [h5] at h1; simp at h1
            | some n0 =>
              rw [h5] at h1
              simp only [Option.map_some', Option.some.injEq, NodeInfo.mk.injEq] at h1
              have hv2 : n1.value = some v := hv
              show n0.value = some v
              rw [← h1.2.2.1]
              exact hv2
    have hev := hm i v hval
    rw [← hev]
    unfold Graph.eval
    apply eval_fuel_congr g _ (i + 1) ht _ (i + 1) i (by omega)
    intro j hj
    rw [List.getElem?_append_left (by omega)]
    cases hf1 : (List.foldl (register_sink g.funcs_.length) g.funcs_ addrs)[j]? with
    | none =>
      have := List.getElem?_eq_none_iff.mp hf1
      omega
    | some f1 =>
      obtain ⟨f, hf, hfun, hargs, _⟩ := funcs_of_map_nodes_eq hs j f1 hf1
      simp [hf, hfun, hargs]

theorem memo_clear {α : Type} (g : Graph α) : g.clear.MemoOK := by
  intro i v h
  simp [Graph.clear, Graph.value_at, node_at] at h

theorem invariants_of_reachable {α : Type} [Zero α] [One α] {g : Graph α} (h : Reachable g) :
    g.Topological ∧ g.MemoOK := by
  induction h with
  | empty addr =>
    refine ⟨topological_empty addr, ?_⟩
    intro i v h
    simp [Graph.value_at, node_at] at h
  | add_function func args _ ih =>
    exact ⟨topological_add_function _ ih.1 func args, memo_add_function _ ih.1 ih.2 func args⟩
  | clear _ _ => exact ⟨topological_clear _, memo_clear _⟩
  | forward node _ ih => exact forward_keeps_invariants _ ih.1 ih.2 node
  | backward node _ ih => exact backward_keeps_invariants _ ih.1 ih.2 node

theorem check_node_of_map_nodes_eq {α : Type} {h : NodeInfo α → NodeInfo α} {g g1 : Graph α}
    (e : g1.map_nodes h = g.map_nodes h) (n : Node) : g1.CHECK_NODE n = g.CHECK_NODE n := by
  unfold Graph.CHECK_NODE
  rw [addr_of_map_nodes_eq e]
  cases hf1 : g1.funcs_[n.fid_]? with
  | none =>
    have hl := length_of_map_nodes_eq e
    have : g.funcs_[n.fid_]? = none := by
      rw [List.getElem?_eq_none_iff] at hf1 ⊢
      omega
    rw [this]
  | some f1 =>
    obtain ⟨f, hf, _, _, hr⟩ := funcs_of_map_nodes_eq e n.fid_ f1 hf1
    have hl := congrArg List.length hr
    simp only [List.length_map] at hl
    simp only [hf, hl]

/-- On a topological graph the reference value of a step is a tensor or the failure of
a forward contract; it is a tensor when no forward contract fails. -/
theorem eval_defined {α : Type} (g : Graph α) (ht : g.Topological) :
    ∀ i, i < g.funcs_.length →
      ((∃ v, g.eval i = Except.ok v) ∨ g.eval i = Except.error Failure.functionError) ∧
      ((∀ (j : Nat) (f : FunctionInfo α), g.funcs_[j]? = some f → ∀ vs, f.func.forward vs ≠ none) →
        ∃ v, g.eval i = Except.ok v) := by
  intro i
  induction i using Nat.strong_induction_on with
  | _ i ih =>
    intro hi
    have hf : g.funcs_[i]? = some g.funcs_[i] := List.getElem?_eq_getElem hi
    have heq := eval_equation_holds g ht i _ hf
    unfold eval_equation at heq
    generalize g.funcs_[i] = f at hf heq
    have hargs : ∀ a ∈ f.args, a.fid < i := fun a ha => ((ht i f hf).2 a ha).1
    have hvals : ∀ (args : List Address), (∀ a ∈ args, a.fid < i) →
        ((∃ vs, eval_values g.eval args = Except.ok vs) ∨
          eval_values g.eval args = Except.error Failure.functionError) ∧
        ((∀ (j : Nat) (f : FunctionInfo α), g.funcs_[j]? = some f → ∀ vs, f.func.forward vs ≠ none) →
          ∃ vs, eval_values g.eval args = Except.ok vs) := by
      intro args
      induction args with
      | nil => intro _; exact ⟨Or.inl ⟨[], rfl⟩, fun _ => ⟨[], rfl⟩⟩
      | cons a rest ihr =>
        intro ha
        have h1 := ih a.fid (ha a (List.mem_cons_self _ _)) (by
          have := ha a (List.mem_cons_self _ _)
          omega)
        have h2 := ihr (fun b hb => ha b (List.mem_cons_of_mem _ hb))
        simp only [eval_values]
        constructor
        · rcases h1.1 with ⟨v, hv⟩ | he
          · rw [hv]
            rcases h2.1 with ⟨vs, hvs⟩ | hes
            · rw [hvs]; exact Or.inl ⟨_, rfl⟩
            · rw [hes]; exact Or.inr rfl
          · rw [he]; exact Or.inr rfl
        · intro hno
          obtain ⟨v, hv⟩ := h1.2 hno
          obtain ⟨vs, hvs⟩ := h2.2 hno
          rw [hv, hvs]
          exact ⟨_, rfl⟩
    have h3 := hvals f.args hargs
    rw [heq]
    cases hin : f.func.get_inner_value with
    | some v => exact ⟨Or.inl ⟨v, rfl⟩, fun _ => ⟨v, rfl⟩⟩
    | none =>
      simp only
      constructor
      · rcases h3.1 with ⟨vs, hvs⟩ | hes
        · rw [hvs]
          simp only
          cases hfw : f.func.forward vs with
          | none => exact Or.inr rfl
          | some v => exact Or.inl ⟨v, rfl⟩
        · rw [hes]; exact Or.inr rfl
      · intro hno
        obtain ⟨vs, hvs⟩ := h3.2 hno
        rw [hvs]
        simp only
        cases hfw : f.func.forward vs with
        | none => exact absurd hfw (hno i f hf vs)
        | some v => exact ⟨v, rfl⟩

/-- C2. Forward computes the reference evaluation: on every reachable graph and for
every node that passes the check, `forward(node)` ends within the bound on the depth of
the recursion and returns `eval(node.fid_)`, whatever `forward` calls were made before.
The reference value `eval(i)` is the inner value of the operation of step `i` when it
exposes one, and otherwise its forward contract applied to the reference values of the
arguments of step `i`, in argument order. The result is a tensor when no forward contract
raises an error, and otherwise the error of a forward contract. -/
theorem forward_computes_eval {α : Type} [Zero α] [One α] (g : Graph α) (hr : Reachable g)
    (node : Node) (hv : g.valid node) :
    (g.forward node).ret = g.eval node.fid_ ∧
      (∀ (i : Nat) (f : FunctionInfo α), g.funcs_[i]? = some f → eval_equation g i f) ∧
      ((∃ v, (g.forward node).ret = Except.ok v) ∨
        (g.forward node).ret = Except.error Failure.functionError) ∧
      ((∀ (j : Nat) (f : FunctionInfo α), g.funcs_[j]? = some f → ∀ vs, f.func.forward vs ≠ none) →
        ∃ v, (g.forward node).ret = Except.ok v) := by
  obtain ⟨ht, hm⟩ := invariants_of_reachable hr
  obtain ⟨_, hret, _⟩ := forward_spec g ht hm node hv
  obtain ⟨_, f, hf, _⟩ := (check_node_none g node).mp hv
  have hlen : node.fid_ < g.funcs_.length := (List.getElem?_eq_some.mp hf).1
  have hd := eval_defined g ht node.fid_ hlen
  rw [hret]
  exact ⟨rfl, fun i f hf => eval_equation_holds g ht i f hf, hd.1, hd.2⟩

theorem forward_computes_eval_witness :
    Reachable Scenario.gAC ∧ Scenario.gAC.valid Scenario.nC ∧
      ((Scenario.gAC.forward Scenario.nC).ret = Scenario.gAC.eval Scenario.nC.fid_ ∧
      (∀ (i : Nat) (f : FunctionInfo Int), Scenario.gAC.funcs_[i]? = some f →
        eval_equation Scenario.gAC i f) ∧
      ((∃ v, (Scenario.gAC.forward Scenario.nC).ret = Except.ok v) ∨
        (Scenario.gAC.forward Scenario.nC).ret = Except.error Failure.functionError) ∧
      ((∀ (j : Nat) (f : FunctionInfo Int), Scenario.gAC.funcs_[j]? = some f →
        ∀ vs, f.func.forward vs ≠ none) →
        ∃ v, (Scenario.gAC.forward Scenario.nC).ret = Except.ok v)) :=
  ⟨Reachable.add_function _ _ (Reachable.add_function _ _ (Reachable.empty 1)),
    rfl,
    forward_computes_eval Scenario.gAC
      (Reachable.add_function _ _ (Reachable.add_function _ _ (Reachable.empty 1)))
      Scenario.nC rfl⟩

/-! ## Gradients in the backward sweep -/

theorem grad_heap_gather_grads {α : Type} [Zero α] (b : Address) :
    ∀ (args : List Address) (g : Graph α), b ∉ args →
      (gather_grads args g).2.grad_heap b = g.grad_heap b := by
  intro args
  induction args with
  | nil => intro g _; rfl
  | cons a rest ih =>
    intro g hb
    have hba : b ≠ a := fun h => hb (h ▸ List.mem_cons_self _ _)
    have hbr : b ∉ rest := fun h => hb (List.mem_cons_of_mem _ h)
    simp only [gather_grads]
    cases hf : g.funcs_[a.fid]? with
    | none => rfl
    | some f =>
      simp only
      cases hn : f.rets[a.vid]? with
      | none => rfl
      | some n =>
        simp only
        cases hgrad : n.grad with
        | none =>
          cases hv : value_or_inner f n with
          | none => rfl
          | some v =>
            simp only
            have := ih (g.set_grad a (some (n.device.new_tensor v.shape 0))) hbr
            rw [grad_heap_set_grad, if_neg hba] at this
            split <;> rename_i heq <;> rw [heq] at this <;> exact this
        | some t =>
          simp only
          have := ih g hbr
          split <;> rename_i heq <;> rw [heq] at this <;> exact this

theorem grad_heap_store_grads {α : Type} (heap : GradHeap α) (b : Address) :
    ∀ (ptrs : List Address) (g : Graph α), b ∉ ptrs →
      (g.store_grads ptrs heap).grad_heap b = g.grad_heap b := by
  intro ptrs
  induction ptrs with
  | nil => intro g _; rfl
  | cons a rest ih =>
    intro g hb
    have hba : b ≠ a := fun h => hb (h ▸ List.mem_cons_self _ _)
    have hbr : b ∉ rest := fun h => hb (List.mem_cons_of_mem _ h)
    simp only [Graph.store_grads, List.foldl_cons]
    have := ih (g.set_grad a (heap a)) hbr
    simp only [Graph.store_grads] at this
    rw [this, grad_heap_set_grad, if_neg hba]

/-- One round of the sweep on a topological graph: the gradients of the later steps are
untouched, and the gradient of the step of the round is empty when the round returns. -/
theorem backward_step_grads {α : Type} [Zero α] (fid : Nat) (g : Graph α)
    (ht : g.Topological) :
    (∀ i, fid < i → (backward_step fid g).g.grad_at i = g.grad_at i) ∧
      ((backward_step fid g).ret = Except.ok () → (backward_step fid g).g.grad_at fid = none) := by
  unfold backward_step
  cases hf : g.funcs_[fid]? with
  | none => exact ⟨fun _ _ => rfl, fun h => by cases h⟩
  | some f =>
    simp only
    cases hn : f.rets[0]? with
    | none => exact ⟨fun _ _ => rfl, fun h => by cases h⟩
    | some n =>
      simp only
      cases hgrad : n.grad with
      | none =>
        refine ⟨fun _ _ => rfl, fun _ => ?_⟩
        simp [Graph.grad_at, Graph.grad_heap, node_at, hf, hn, hgrad]
      | some cg =>
        simp only
        have hnot : ∀ i, fid ≤ i → (⟨i, 0⟩ : Address) ∉ f.args := by
          intro i hi hmem
          have := ((ht fid f hf).2 _ hmem).1
          simp only at this
          omega
        have h1 : ∀ i, fid ≤ i → (gather_grads f.args g).2.grad_heap ⟨i, 0⟩ = g.grad_heap ⟨i, 0⟩ :=
          fun i hi => grad_heap_gather_grads _ f.args g (hnot i hi)
        split
        · rename_i e g1 heq
          rw [heq] at h1
          exact ⟨fun i hi => h1 i (Nat.le_of_lt hi), fun h => by cases h⟩
        · rename_i vs g1 heq
          rw [heq] at h1
          simp only at h1
          cases hv : value_or_inner f n with
          | none => exact ⟨fun i hi => h1 i (Nat.le_of_lt hi), fun h => by cases h⟩
          | some v =>
            simp only
            split
            · refine ⟨fun i hi => ?_, fun h => by cases h⟩
              simp only [Graph.grad_at]
              rw [grad_heap_store_grads _ _ _ _ (hnot i (Nat.le_of_lt hi))]
              exact h1 i (Nat.le_of_lt hi)
            · refine ⟨fun i hi => ?_, fun _ => ?_⟩
              · simp only [Graph.grad_at]
                have hne : (⟨i, 0⟩ : Address) ≠ ⟨fid, 0⟩ := by
                  intro h
                  cases h
                  omega
                rw [grad_heap_set_grad, if_neg hne,
                  grad_heap_store_grads _ _ _ _ (hnot i (Nat.le_of_lt hi))]
                exact h1 i (Nat.le_of_lt hi)
              · simp only [Graph.grad_at]
                rw [grad_heap_set_grad, if_pos rfl]
                cases node_at (g1.store_grads f.args _).funcs_ fid 0 <;> rfl

theorem backward_loop_grads {α : Type} [Zero α] :
    ∀ (n : Nat) (g : Graph α), g.Topological →
      (∀ i, n ≤ i → (backward_loop n g).g.grad_at i = g.grad_at i) ∧
      ((backward_loop n g).ret = Except.ok () →
        ∀ i, i < n → (backward_loop n g).g.grad_at i = none) := by
  intro n
  induction n with
  | zero =>
    intro g _
    exact ⟨fun _ _ => rfl, fun _ i hi => by omega⟩
  | succ n ih =>
    intro g ht
    obtain ⟨s1, s2⟩ := backward_step_grads n g ht
    have ht1 : (backward_step n g).g.Topological :=
      topological_of_map_nodes_eq (backward_step_frame n g) ht
    obtain ⟨l1, l2⟩ := ih (backward_step n g).g ht1
    simp only [backward_loop]
    cases hr : (backward_step n g).ret with
    | error e =>
      simp only
      exact ⟨fun i hi => s1 i (by omega), fun h => by cases h⟩
    | ok u =>
      simp only
      refine ⟨fun i hi => ?_, fun hok i hi => ?_⟩
      · rw [l1 i (by omega), s1 i (by omega)]
      · rcases Nat.lt_succ_iff_lt_or_eq.mp hi with h | h
        · exact l2 hok i h
        · rw [h, l1 n (Nat.le_refl _)]
          exact s2 hr

theorem seed_and_sweep_grads {α : Type} [Zero α] [One α] (g : Graph α) (ht : g.Topological)
    (node : Node) (d : Device) (s : Shape)
    (h : (seed_and_sweep g node d s).ret = Except.ok ()) :
    ∀ i, i ≤ node.fid_ → (seed_and_sweep g node d s).g.grad_at i = none := by
  unfold seed_and_sweep at h ⊢
  have ht1 : (g.set_grad ⟨node.fid_, node.vid_⟩ (some (d.new_tensor s 1))).Topological :=
    topological_of_map_nodes_eq (map_nodes_set_grad _ _ _) ht
  intro i hi
  exact (backward_loop_grads (node.fid_ + 1) _ ht1).2 h i (by omega)

/-- The gradients after a returning `backward`: none is left at or below the node. -/
theorem backward_grads {α : Type} [Zero α] [One α] (g : Graph α) (ht : g.Topological)
    (hm : g.MemoOK) (node : Node) (h : (g.backward node).ret = Except.ok ()) :
    ∀ i, i ≤ node.fid_ → (g.backward node).g.grad_at i = none := by
  unfold Graph.backward at h ⊢
  cases hc : g.CHECK_NODE node with
  | some e => simp [hc] at h
  | none =>
    simp only [hc] at h ⊢
    cases hf : g.funcs_[node.fid_]? with
    | none => simp [hf] at h
    | some f =>
      simp only [hf] at h ⊢
      cases hn : f.rets[node.vid_]? with
      | none => simp [hn] at h
      | some n =>
        simp only [hn] at h ⊢
        cases hv : value_or_inner f n with
        | some v =>
          simp only [hv] at h ⊢
          exact seed_and_sweep_grads g ht node _ _ h
        | none =>
          simp only [hv] at h ⊢
          have ht1 := (forward_keeps_invariants g ht hm node).1
          cases hr : (g.forward node).ret with
          | error e => simp [hr] at h
          | ok v =>
            simp only [hr] at h ⊢
            cases ha : (g.forward node).g.ACCESS node with
            | none => simp [ha] at h
            | some n1 =>
              simp only [ha] at h ⊢
              cases hv1 : n1.value with
              | none => simp [hv1] at h
              | some v1 =>
                simp only [hv1] at h ⊢
                exact seed_and_sweep_grads _ ht1 node _ _ h

/-- On a topological graph `backward` changes, besides gradients, what the `forward`
call on the same node changes. -/
theorem backward_frame_forward {α : Type} [Zero α] [One α] (g : Graph α) (ht : g.Topological)
    (node : Node) :
    (g.backward node).g.erase_grads = (g.forward node).g.erase_grads := by
  unfold Graph.backward
  cases hc : g.CHECK_NODE node with
  | some e => simp [Graph.forward, hc]
  | none =>
    simp only
    cases hf : g.funcs_[node.fid_]? with
    | none =>
      simp only [Graph.forward, hc]
      cases g.funcs_.length <;> simp [forward_recursive, hf]
    | some f =>
      simp only
      have hlen : node.fid_ < g.funcs_.length := (List.getElem?_eq_some.mp hf).1
      obtain ⟨_, f0, hf0, hvid⟩ := (check_node_none g node).mp hc
      rw [hf] at hf0
      cases hf0
      have hvid0 : node.vid_ = 0 := by
        have := (ht node.fid_ f hf).1
        omega
      cases hn : f.rets[node.vid_]? with
      | none =>
        have := List.getElem?_eq_none_iff.mp hn
        omega
      | some n =>
        simp only
        cases hv : value_or_inner f n with
        | some v =>
          simp only
          rw [seed_and_sweep_frame]
          have hs : ∃ w, Settled g node.fid_ w := by
            cases hin : f.func.get_inner_value with
            | some u => exact ⟨u, f, n, hf, by rw [← hvid0]; exact hn, Or.inl hin⟩
            | none =>
              unfold value_or_inner at hv
              cases hval : n.value with
              | none => rw [hval, hin] at hv; cases hv
              | some w => exact ⟨w, f, n, hf, by rw [← hvid0]; exact hn, Or.inr ⟨hin, hval⟩⟩
          obtain ⟨w, hs⟩ := hs
          simp only [Graph.forward, hc]
          cases hk : g.funcs_.length with
          | zero => omega
          | succ k => rw [settled_forward_recursive hs k]
        | none =>
          simp only
          cases hr : (g.forward node).ret with
          | error e => rfl
          | ok v =>
            simp only
            cases ha : (g.forward node).g.ACCESS node with
            | none => rfl
            | some n1 =>
              simp only
              cases hv1 : n1.value with
              | none => rfl
              | some v1 => exact seed_and_sweep_frame _ _ _ _

/-- C8. After `backward(node)` has returned on a reachable graph (so no operation failed),
the gradient slot of every step with id at most the id of the step of `node` is empty,
every value that was memoized before the call is still memoized with the same value, and
the memoized values are those that the `forward(node)` call made inside leaves. -/
theorem backward_frees_gradients {α : Type} [Zero α] [One α] (g : Graph α) (hr : Reachable g)
    (node : Node) (h : (g.backward node).ret = Except.ok ()) :
    (∀ i, i ≤ node.fid_ → (g.backward node).g.grad_at i = none) ∧
      (∀ i v, g.value_at i = some v → (g.backward node).g.value_at i = some v) ∧
      (∀ i, (g.backward node).g.value_at i = (g.forward node).g.value_at i) := by
  obtain ⟨ht, hm⟩ := invariants_of_reachable hr
  have hfr := backward_frame_forward g ht node
  have hval : ∀ i, (g.backward node).g.value_at i = (g.forward node).g.value_at i :=
    fun i => value_at_of_erase_grads_eq hfr i
  refine ⟨backward_grads g ht hm node h, ?_, hval⟩
  intro i v hv
  rw [hval]
  cases hc : g.CHECK_NODE node with
  | some e =>
    simp only [Graph.forward, hc]
    exact hv
  | none => exact (forward_spec g ht hm node hc).1.mono i v hv

theorem backward_frees_gradients_witness :
    Reachable Scenario.gAC ∧ (Scenario.gAC.backward Scenario.nC).ret = Except.ok () ∧
      ((∀ i, i ≤ Scenario.nC.fid_ → (Scenario.gAC.backward Scenario.nC).g.grad_at i = none) ∧
      (∀ i v, Scenario.gAC.value_at i = some v →
        (Scenario.gAC.backward Scenario.nC).g.value_at i = some v) ∧
      (∀ i, (Scenario.gAC.backward Scenario.nC).g.value_at i =
        (Scenario.gAC.forward Scenario.nC).g.value_at i)) :=
  ⟨Reachable.add_function _ _ (Reachable.add_function _ _ (Reachable.empty 1)), rfl,
    backward_frees_gradients Scenario.gAC
      (Reachable.add_function _ _ (Reachable.add_function _ _ (Reachable.empty 1)))
      Scenario.nC rfl⟩

theorem seed_and_sweep_grads_above {α : Type} [Zero α] [One α] (g : Graph α)
    (ht : g.Topological) (node : Node) (d : Device) (s : Shape) :
    ∀ i, node.fid_ < i → (seed_and_sweep g node d s).g.grad_at i = g.grad_at i := by
  unfold seed_and_sweep
  have ht1 : (g.set_grad ⟨node.fid_, node.vid_⟩ (some (d.new_tensor s 1))).Topological :=
    topological_of_map_nodes_eq (map_nodes_set_grad _ _ _) ht
  intro i hi
  rw [(backward_loop_grads (node.fid_ + 1) _ ht1).1 i (by omega)]
  simp only [Graph.grad_at]
  have hne : (⟨i, 0⟩ : Address) ≠ ⟨node.fid_, node.vid_⟩ := by
    intro h
    have := congrArg Address.fid h
    simp only at this
    omega
  rw [grad_heap_set_grad, if_neg hne]

theorem forward_grad_heap {α : Type} (g : Graph α) (ht : g.Topological) (hm : g.MemoOK)
    (node : Node) (a : Address) : (g.forward node).g.grad_heap a = g.grad_heap a := by
  cases hc : g.CHECK_NODE node with
  | some e => simp only [Graph.forward, hc]
  | none => exact grad_heap_of_erase_values_eq (forward_spec g ht hm node hc).1.frame a

/-- The gradients of the steps after the node are the same before and after `backward`. -/
theorem backward_grads_above {α : Type} [Zero α] [One α] (g : Graph α) (ht : g.Topological)
    (hm : g.MemoOK) (node : Node) :
    ∀ i, node.fid_ < i → (g.backward node).g.grad_at i = g.grad_at i := by
  intro i hi
  have hfw : (g.forward node).g.grad_at i = g.grad_at i := forward_grad_heap g ht hm node _
  have ht1 := (forward_keeps_invariants g ht hm node).1
  unfold Graph.backward
  cases hc : g.CHECK_NODE node with
  | some e => rfl
  | none =>
    simp only
    cases hf : g.funcs_[node.fid_]? with
    | none => rfl
    | some f =>
      simp only
      cases hn : f.rets[node.vid_]? with
      | none => rfl
      | some n =>
        simp only
        cases hv : value_or_inner f n with
        | some v => exact seed_and_sweep_grads_above g ht node _ _ i hi
        | none =>
          simp only
          cases hr : (g.forward node).ret with
          | error e => exact hfw
          | ok v =>
            simp only
            cases ha : (g.forward node).g.ACCESS node with
            | none => exact hfw
            | some n1 =>
              simp only
              cases hv1 : n1.value with
              | none => exact hfw
              | some v1 =>
                simp only
                rw [seed_and_sweep_grads_above _ ht1 node _ _ i hi]
                exact hfw

theorem grad_heap_other_slot {α : Type} (g : Graph α) (ht : g.Topological) (a : Address)
    (h : a.vid ≠ 0) : g.grad_heap a = none := by
  unfold Graph.grad_heap node_at
  cases hf : g.funcs_[a.fid]? with
  | none => rfl
  | some f =>
    have := (ht a.fid f hf).1
    have : f.rets[a.vid]? = none := List.getElem?_eq_none_iff.mpr (by omega)
    simp [this]

/-- Two graphs that differ in gradients only and have the same gradients are equal. -/
theorem graph_eq_of_erase_grads_eq {α : Type} (g1 g2 : Graph α)
    (e : g1.erase_grads = g2.erase_grads) (hg : ∀ a, g1.grad_heap a = g2.grad_heap a) :
    g1 = g2 := by
  have haddr := addr_of_map_nodes_eq e
  have hlen := length_of_map_nodes_eq e
  cases g1 with
  | mk addr1 fs1 =>
    cases g2 with
    | mk addr2 fs2 =>
      simp only at haddr hlen
      subst haddr
      congr 1
      apply List.ext_getElem?
      intro i
      cases hf1 : fs1[i]? with
      | none =>
        symm
        rw [List.getElem?_eq_none_iff] at hf1 ⊢
        omega
      | some f1 =>
        obtain ⟨f2, hf2, hfun, hargs, hrets⟩ := funcs_of_map_nodes_eq e i f1 hf1
        simp only at hf2
        rw [hf2]
        congr 1
        cases f1 with
        | mk func1 args1 rets1 =>
          cases f2 with
          | mk func2 args2 rets2 =>
            simp only at hfun hargs hrets
            subst hfun hargs
            congr 1
            apply List.ext_getElem?
            intro j
            have hj := congrArg (fun l => l[j]?) hrets
            simp only [List.getElem?_map] at hj
            have hgj := hg ⟨i, j⟩
            simp only [Graph.grad_heap, node_at, hf1, hf2] at hgj
            cases hn1 : rets1[j]? with
            | none =>
              rw [hn1] at hj
              cases hn2 : rets2[j]? with
              | none => rfl
              | some n2 => rw [hn2] at hj; simp at hj
            | some n1 =>
              rw [hn1] at hj hgj
              cases hn2 : rets2[j]? with
              | none => rw [hn2] at hj; simp at hj
              | some n2 =>
                rw [hn2] at hj hgj
                simp only [Option.map_some', Option.some.injEq, NodeInfo.mk.injEq] at hj
                simp only [Option.some_bind] at hgj
                cases n1
                cases n2
                simp only [NodeInfo.mk.injEq] at hj hgj ⊢
                simp_all

/-- A returning `backward` on a graph without gradients leaves the graph that
`forward` on the same node leaves: no gradient outlives the call. -/
theorem backward_eq_forward {α : Type} [Zero α] [One α] (g : Graph α) (ht : g.Topological)
    (hm : g.MemoOK) (hg : ∀ a, g.grad_heap a = none) (node : Node)
    (h : (g.backward node).ret = Except.ok ()) :
    (g.backward node).g = (g.forward node).g := by
  apply graph_eq_of_erase_grads_eq _ _ (backward_frame_forward g ht node)
  intro a
  rw [forward_grad_heap g ht hm node a, hg a]
  obtain ⟨ht1, _⟩ := backward_keeps_invariants g ht hm node
  by_cases hv : a.vid = 0
  · have ha : a = ⟨a.fid, 0⟩ := by cases a; simp_all
    rw [ha]
    rcases Nat.lt_or_ge node.fid_ a.fid with hlt | hge
    · have := backward_grads_above g ht hm node a.fid hlt
      simp only [Graph.grad_at] at this
      rw [this, hg]
    · exact backward_grads g ht hm node h a.fid hge
  · exact grad_heap_other_slot _ ht1 a hv

/-- C9 as stated fails: with `A = input([1])` and `C = add(A, A)`, where the backward
contract of `add` accumulates the output gradient into the gradient of each argument,
`backward(C)` returns and the gradient slot of `A` is empty afterwards, not `[2]`. -/
theorem diamond_gradient_not_kept :
    (Scenario.gAC.forward Scenario.nA).ret = Except.ok (Scenario.vec [1]) ∧
      (Scenario.gAC.backward Scenario.nC).ret = Except.ok () ∧
      (Scenario.gAC.backward Scenario.nC).g.grad_at 0 = none ∧
      (Scenario.gAC.backward Scenario.nC).g.grad_at 0 ≠ some (Scenario.vec [2]) := by
  refine ⟨rfl, rfl, by decide, by decide⟩

/-- C9, amended. With `A = input([1])` and `C = add(A, A)`, `backward(C)` invokes the
backward contract of `C` with the gradient `[1]` and then the backward contract of `A`
with the gradient `[2]` (two additive contributions of 1 each), not `[1]`; after that
round the gradient slot of `A` is cleared, so it is empty when `backward(C)` returns. -/
theorem diamond_accumulation :
    (Scenario.gAC.backward Scenario.nC).ret = Except.ok () ∧
      (Scenario.gAC.backward Scenario.nC).log =
        [Event.forward 0, Event.forward 1, Event.backward 1 (Scenario.vec [1]),
          Event.backward 0 (Scenario.vec [2])] ∧
      (Scenario.gAC.backward Scenario.nC).g.grad_at 0 = none := by
  refine ⟨rfl, by decide, by decide⟩

/-- C10 as stated fails: with `A = input([1])`, `N1 = double(A)` and `N2 = double(A)`, the
gradient slot of `A` is empty after `backward(N1)` and empty again after the following
`backward(N2)`, although the second pass hands the backward contract of `A` the
contribution `[2]`: the second reading is not the first reading plus that contribution. -/
theorem no_accumulation_across_passes :
    (Scenario.gFork.backward Scenario.nB).ret = Except.ok () ∧
      ((Scenario.gFork.backward Scenario.nB).g.backward Scenario.nN2).ret = Except.ok () ∧
      (Scenario.gFork.backward Scenario.nB).g.grad_at 0 = none ∧
      ((Scenario.gFork.backward Scenario.nB).g.backward Scenario.nN2).g.grad_at 0 = none ∧
      ((Scenario.gFork.backward Scenario.nB).g.backward Scenario.nN2).log =
        [Event.forward 2, Event.backward 2 (Scenario.vec [1]),
          Event.backward 0 (Scenario.vec [2])] := by
  refine ⟨rfl, rfl, by decide, by decide, by decide⟩

/-- C10, amended. On a reachable graph whose gradient slots are all empty, a returning
`backward(n1)` leaves every gradient slot empty again: the graph after it is the graph
that `forward(n1)` leaves. So the gradient of a shared argument read after `backward(n1)`
is empty, a following `backward(n2)` runs as it would without the first pass (it hands
the backward contract of the argument the contribution of the second pass alone), and
when it returns every gradient slot is empty once more. -/
theorem backward_passes_independent {α : Type} [Zero α] [One α] (g : Graph α)
    (hr : Reachable g) (hg : ∀ a, g.grad_heap a = none) (n1 n2 : Node)
    (h1 : (g.backward n1).ret = Except.ok ()) :
    (g.backward n1).g = (g.forward n1).g ∧
      (∀ a, (g.backward n1).g.grad_heap a = none) ∧
      (g.backward n1).g.backward n2 = (g.forward n1).g.backward n2 ∧
      (((g.backward n1).g.backward n2).ret = Except.ok () →
        ∀ a, ((g.backward n1).g.backward n2).g.grad_heap a = none) := by
  obtain ⟨ht, hm⟩ := invariants_of_reachable hr
  have e1 := backward_eq_forward g ht hm hg n1 h1
  have hg1 : ∀ a, (g.backward n1).g.grad_heap a = none := by
    intro a
    rw [e1, forward_grad_heap g ht hm n1 a, hg a]
  refine ⟨e1, hg1, by rw [e1], ?_⟩
  intro h2 a
  obtain ⟨ht1, hm1⟩ := backward_keeps_invariants g ht hm n1
  rw [backward_eq_forward _ ht1 hm1 hg1 n2 h2, forward_grad_heap _ ht1 hm1 n2 a, hg1 a]

theorem backward_passes_independent_witness :
    Reachable Scenario.gFork ∧ (∀ a, Scenario.gFork.grad_heap a = none) ∧
      (Scenario.gFork.backward Scenario.nB).ret = Except.ok () ∧
      ((Scenario.gFork.backward Scenario.nB).g.backward Scenario.nN2).ret = Except.ok () ∧
      ((Scenario.gFork.backward Scenario.nB).g = (Scenario.gFork.forward Scenario.nB).g ∧
      (∀ a, (Scenario.gFork.backward Scenario.nB).g.grad_heap a = none) ∧
      (Scenario.gFork.backward Scenario.nB).g.backward Scenario.nN2 =
        (Scenario.gFork.forward Scenario.nB).g.backward Scenario.nN2 ∧
      (((Scenario.gFork.backward Scenario.nB).g.backward Scenario.nN2).ret = Except.ok () →
        ∀ a, ((Scenario.gFork.backward Scenario.nB).g.backward Scenario.nN2).g.grad_heap a =
          none)) :=
  have hr : Reachable Scenario.gFork :=
    Reachable.add_function _ _ (Reachable.add_function _ _
      (Reachable.add_function _ _ (Reachable.empty 1)))
  have hg : ∀ a, Scenario.gFork.grad_heap a = none := by
    intro a
    obtain ⟨fid, vid⟩ := a
    match fid, vid with
    | 0, 0 => rfl
    | 1, 0 => rfl
    | 2, 0 => rfl
    | _ + 3, _ => rfl
    | 0, _ + 1 => rfl
    | 1, _ + 1 => rfl
    | 2, _ + 1 => rfl
  ⟨hr, hg, rfl, rfl, backward_passes_independent Scenario.gFork hr hg Scenario.nB Scenario.nN2 rfl⟩

/-! ## Foreign and stale nodes -/

theorem check_node_mismatch {α : Type} (g : Graph α) (n : Node) :
    g.CHECK_NODE n = some Failure.graphMismatch ↔ n.g_ ≠ g.addr := by
  unfold Graph.CHECK_NODE
  by_cases h : n.g_ = g.addr
  · simp only [h, ne_eq, not_true_eq_false, if_false, iff_false]
    cases g.funcs_[n.fid_]? with
    | none => simp
    | some f => simp only; split <;> simp
  · simp [h]

theorem check_node_invalid {α : Type} (g : Graph α) (n : Node) :
    g.CHECK_NODE n = some Failure.invalidNode ↔
      n.g_ = g.addr ∧ ∀ f, g.funcs_[n.fid_]? = some f → f.rets.length ≤ n.vid_ := by
  unfold Graph.CHECK_NODE
  by_cases h : n.g_ = g.addr
  · simp only [h, ne_eq, not_true_eq_false, if_false, true_and]
    cases g.funcs_[n.fid_]? with
    | none => simp
    | some f =>
      simp only [Option.some.injEq, forall_eq']
      by_cases hv : n.vid_ < f.rets.length
      · simp [hv]
      · simp only [hv, if_false, true_iff]; omega
  · simp [h]

theorem check_node_failures {α : Type} (g : Graph α) (n : Node) (e : Failure)
    (h : g.CHECK_NODE n = some e) : e = Failure.graphMismatch ∨ e = Failure.invalidNode := by
  unfold Graph.CHECK_NODE at h
  split at h
  · simp only [Option.some.injEq] at h; exact Or.inl h.symm
  · split at h
    · simp only [Option.some.injEq] at h; exact Or.inr h.symm
    · split at h
      · cases h
      · simp only [Option.some.injEq] at h; exact Or.inr h.symm

/-- The first loop of `add_function` fails exactly with the failure of the first argument
that does not pass `CHECK_NODE`. -/
theorem gather_args_error {α : Type} (g : Graph α) :
    ∀ (args : List Node) (e : Failure),
      g.gather_args args = Except.error e ↔
        ∃ pre n post, args = pre ++ n :: post ∧ (∀ m ∈ pre, g.CHECK_NODE m = none) ∧
          g.CHECK_NODE n = some e := by
  intro args
  induction args with
  | nil =>
    intro e
    simp [Graph.gather_args]
  | cons a rest ih =>
    intro e
    simp only [Graph.gather_args]
    cases hc : g.CHECK_NODE a with
    | some e1 =>
      simp only [Except.error.injEq]
      constructor
      · intro h
        subst h
        exact ⟨[], a, rest, rfl, by simp, hc⟩
      · intro ⟨pre, n, post, h1, h2, h3⟩
        cases pre with
        | nil =>
          simp only [List.nil_append, List.cons.injEq] at h1
          rw [← h1.1, hc] at h3
          simpa using h3
        | cons p ps =>
          simp only [List.cons_append, List.cons.injEq] at h1
          have := h2 p (List.mem_cons_self _ _)
          rw [← h1.1, hc] at this
          cases this
    | none =>
      simp only
      obtain ⟨f, ni, _, _, ha⟩ := access_of_check_node g a hc
      simp only [ha]
      cases hr : g.gather_args rest with
      | error e1 =>
        simp only [Except.error.injEq]
        constructor
        · intro h
          subst h
          obtain ⟨pre, n, post, h1, h2, h3⟩ := (ih e1).mp hr
          refine ⟨a :: pre, n, post, by simp [h1], ?_, h3⟩
          intro m hm
          rcases List.mem_cons.mp hm with hm | hm
          · rw [hm]; exact hc
          · exact h2 m hm
        · intro ⟨pre, n, post, h1, h2, h3⟩
          cases pre with
          | nil =>
            simp only [List.nil_append, List.cons.injEq] at h1
            rw [← h1.1, hc] at h3
            cases h3
          | cons p ps =>
            simp only [List.cons_append, List.cons.injEq] at h1
            have h4 : g.gather_args rest = Except.error e :=
              (ih e).mpr ⟨ps, n, post, h1.2, fun m hm => h2 m (List.mem_cons_of_mem _ hm), h3⟩
            rw [hr] at h4
            simpa using h4
      | ok p =>
        obtain ⟨as, ss⟩ := p
        constructor
        · intro h; cases h
        intro ⟨pre, n, post, h1, h2, h3⟩
        cases pre with
        | nil =>
          simp only [List.nil_append, List.cons.injEq] at h1
          rw [← h1.1, hc] at h3
          cases h3
        | cons p ps =>
          simp only [List.cons_append, List.cons.injEq] at h1
          have h4 : g.gather_args rest = Except.error e :=
            (ih e).mpr ⟨ps, n, post, h1.2, fun m hm => h2 m (List.mem_cons_of_mem _ hm), h3⟩
          rw [hr] at h4
          cases h4

theorem add_function_error_of_gather {α : Type} (g : Graph α) (func : Function α)
    (args : List Node) (e : Failure) (h : g.gather_args args = Except.error e) :
    g.add_function func args = ⟨Except.error e, g, []⟩ := by
  simp [Graph.add_function, h]

/-- C11 as stated fails: with the stale node `(this, 5, 0)` before the foreign node in the
argument list, `add_function` on the one-step graph `gA` ends in `std::abort()` (invalid
node), not in the graph-mismatch error: the arguments are checked in order. -/
theorem foreign_argument_after_stale_aborts :
    Scenario.nForeign.g_ ≠ Scenario.gA.addr ∧
      (Scenario.gA.add_function Scenario.add [Scenario.nStale, Scenario.nForeign]).ret =
        Except.error Failure.invalidNode ∧
      (Scenario.gA.add_function Scenario.add [Scenario.nStale, Scenario.nForeign]).ret ≠
        Except.error Failure.graphMismatch := by
  refine ⟨by decide, rfl, ?_⟩
  intro h
  have h2 : (Scenario.gA.add_function Scenario.add [Scenario.nStale, Scenario.nForeign]).ret =
      Except.error Failure.invalidNode := rfl
  rw [h2] at h
  cases h

/-- C11, amended. When some node of the argument list belongs to another graph,
`add_function` never extends the graph: it fails and leaves the graph as it was. It fails
with the graph-mismatch error when every argument before the first foreign one passes
`CHECK_NODE`, and otherwise stops at an earlier argument of this graph that is out of
range (`std::abort()`, invalid node). The graph-mismatch error is raised only when some
argument belongs to another graph. -/
theorem foreign_argument_rejected {α : Type} (g : Graph α) (func : Function α)
    (args : List Node) :
    ((∃ n ∈ args, n.g_ ≠ g.addr) →
        ((g.add_function func args).ret = Except.error Failure.graphMismatch ∨
          (g.add_function func args).ret = Except.error Failure.invalidNode) ∧
        (g.add_function func args).g = g) ∧
      (∀ pre n post, args = pre ++ n :: post → (∀ m ∈ pre, g.valid m) → n.g_ ≠ g.addr →
        (g.add_function func args).ret = Except.error Failure.graphMismatch) ∧
      ((g.add_function func args).ret = Except.error Failure.graphMismatch →
        ∃ n ∈ args, n.g_ ≠ g.addr) := by
  refine ⟨?_, ?_, ?_⟩
  · intro ⟨n, hn, hne⟩
    cases hg : g.gather_args args with
    | error e =>
      rw [add_function_error_of_gather g func args e hg]
      obtain ⟨pre, m, post, _, _, h3⟩ := (gather_args_error g args e).mp hg
      rcases check_node_failures g m e h3 with h | h
      · exact ⟨Or.inl (by rw [h]), rfl⟩
      · exact ⟨Or.inr (by rw [h]), rfl⟩
    | ok p =>
      exfalso
      obtain ⟨_, h2, _⟩ := gather_args_spec g args p.1 p.2 hg
      have := (check_node_none g n).mp (h2 n hn)
      exact hne this.1
  · intro pre n post h1 h2 h3
    have hg : g.gather_args args = Except.error Failure.graphMismatch :=
      (gather_args_error g args _).mpr ⟨pre, n, post, h1, h2, (check_node_mismatch g n).mpr h3⟩
    rw [add_function_error_of_gather g func args _ hg]
  · intro h
    rcases add_function_cases g func args with ⟨e, h1, h2⟩ | ⟨_, _, _, _, _, _, _, h1⟩
    · rw [h1] at h
      simp only [Except.error.injEq] at h
      subst h
      rcases h2 with h2 | ⟨_, _, _, h2 | ⟨_, _, _, h2⟩⟩
      · obtain ⟨pre, m, post, h3, _, h5⟩ := (gather_args_error g args _).mp h2
        exact ⟨m, by rw [h3]; simp, (check_node_mismatch g m).mp h5⟩
      · cases h2.2
      · cases h2
    · rw [h1] at h
      cases h

theorem foreign_argument_rejected_witness :
    (∃ n ∈ [Scenario.nA, Scenario.nForeign], n.g_ ≠ Scenario.gA.addr) ∧
      (Scenario.gA.add_function Scenario.add [Scenario.nA, Scenario.nForeign]).ret =
        Except.error Failure.graphMismatch ∧
      (((∃ n ∈ [Scenario.nA, Scenario.nForeign], n.g_ ≠ Scenario.gA.addr) →
        ((Scenario.gA.add_function Scenario.add [Scenario.nA, Scenario.nForeign]).ret =
            Except.error Failure.graphMismatch ∨
          (Scenario.gA.add_function Scenario.add [Scenario.nA, Scenario.nForeign]).ret =
            Except.error Failure.invalidNode) ∧
        (Scenario.gA.add_function Scenario.add [Scenario.nA, Scenario.nForeign]).g =
          Scenario.gA) ∧
      (∀ pre n post, [Scenario.nA, Scenario.nForeign] = pre ++ n :: post →
        (∀ m ∈ pre, Scenario.gA.valid m) → n.g_ ≠ Scenario.gA.addr →
        (Scenario.gA.add_function Scenario.add [Scenario.nA, Scenario.nForeign]).ret =
          Except.error Failure.graphMismatch) ∧
      ((Scenario.gA.add_function Scenario.add [Scenario.nA, Scenario.nForeign]).ret =
          Except.error Failure.graphMismatch →
        ∃ n ∈ [Scenario.nA, Scenario.nForeign], n.g_ ≠ Scenario.gA.addr)) :=
  ⟨⟨Scenario.nForeign, by simp, by decide⟩, rfl,
    foreign_argument_rejected Scenario.gA Scenario.add [Scenario.nA, Scenario.nForeign]⟩

/-- C12 as stated fails: for a node owned by another graph, `get_shape` and `get_device`
fail with the graph-mismatch error that `CHECK_NODE` throws, not with the invalid-node
abort. -/
theorem foreign_node_lookup_throws :
    Scenario.nForeign.g_ ≠ Scenario.gA.addr ∧
      Scenario.gA.get_shape Scenario.nForeign = Except.error Failure.graphMismatch ∧
      Scenario.gA.get_device Scenario.nForeign = Except.error Failure.graphMismatch ∧
      Scenario.gA.get_shape Scenario.nForeign ≠ Except.error Failure.invalidNode ∧
      Scenario.gA.get_device Scenario.nForeign ≠ Except.error Failure.invalidNode := by
  refine ⟨by decide, rfl, rfl, ?_, ?_⟩
  · intro h
    have h2 : Scenario.gA.get_shape Scenario.nForeign = Except.error Failure.graphMismatch := rfl
    rw [h2] at h
    cases h
  · intro h
    have h2 : Scenario.gA.get_device Scenario.nForeign = Except.error Failure.graphMismatch := rfl
    rw [h2] at h
    cases h

/-- C12, amended. The members `get_shape` and `get_device` are lookups that cannot change
the graph (they are `const` and return no graph). For a node of this graph whose step id
and slot id are in range they return the shape and the device recorded in the addressed
slot; for a node of this graph whose step id or slot id is out of range they fail with the
invalid-node abort; for a node owned by another graph they fail with the graph-mismatch
error, which is checked first. -/
theorem validated_lookups {α : Type} (g : Graph α) (node : Node) :
    (∀ f n, node.g_ = g.addr → g.funcs_[node.fid_]? = some f → f.rets[node.vid_]? = some n →
        g.get_shape node = Except.ok n.shape ∧ g.get_device node = Except.ok n.device) ∧
      (node.g_ = g.addr →
        (g.funcs_.length ≤ node.fid_ ∨
          ∃ f, g.funcs_[node.fid_]? = some f ∧ f.rets.length ≤ node.vid_) →
        g.get_shape node = Except.error Failure.invalidNode ∧
          g.get_device node = Except.error Failure.invalidNode) ∧
      (node.g_ ≠ g.addr →
        g.get_shape node = Except.error Failure.graphMismatch ∧
          g.get_device node = Except.error Failure.graphMismatch) := by
  refine ⟨?_, ?_, ?_⟩
  · intro f n h1 h2 h3
    have hv : node.vid_ < f.rets.length := (List.getElem?_eq_some.mp h3).1
    have hc : g.CHECK_NODE node = none := (check_node_none g node).mpr ⟨h1, f, h2, hv⟩
    have ha : g.ACCESS node = some n := by simp [Graph.ACCESS, node_at, h2, h3]
    exact ⟨get_shape_of_access g node n hc ha, get_device_of_access g node n hc ha⟩
  · intro h1 h2
    have hc : g.CHECK_NODE node = some Failure.invalidNode := by
      rw [check_node_invalid]
      refine ⟨h1, ?_⟩
      intro f hf
      rcases h2 with h2 | ⟨f2, hf2, h2⟩
      · have := (List.getElem?_eq_some.mp hf).1
        omega
      · rw [hf] at hf2
        cases hf2
        exact h2
    simp [Graph.get_shape, Graph.get_device, hc]
  · intro h1
    have hc := (check_node_mismatch g node).mpr h1
    simp [Graph.get_shape, Graph.get_device, hc]

theorem validated_lookups_witness :
    (Scenario.gA.get_shape Scenario.nA = Except.ok ⟨[1], 1⟩ ∧
        Scenario.gA.get_device Scenario.nA = Except.ok Scenario.D0) ∧
      (Scenario.gA.get_shape Scenario.nStale = Except.error Failure.invalidNode ∧
        Scenario.gA.get_device Scenario.nStale = Except.error Failure.invalidNode) ∧
      (Scenario.gA.get_shape Scenario.nForeign = Except.error Failure.graphMismatch ∧
        Scenario.gA.get_device Scenario.nForeign = Except.error Failure.graphMismatch) :=
  ⟨(validated_lookups Scenario.gA Scenario.nA).1
      ⟨Scenario.input (Scenario.vec [1]), [], [⟨⟨[1], 1⟩, Scenario.D0, none, none, []⟩]⟩
      ⟨⟨[1], 1⟩, Scenario.D0, none, none, []⟩ rfl rfl rfl,
    (validated_lookups Scenario.gA Scenario.nStale).2.1 rfl (Or.inl (by decide)),
    (validated_lookups Scenario.gA Scenario.nForeign).2.2 (by decide)⟩

/-! ## The default graph -/

theorem registered_since_reverse (calls : List RegistryCall) :
    ∀ destroyed : List Nat,
      registered_since calls.reverse destroyed =
        match registry_after calls with
        | none => none
        | some g => if g ∈ destroyed then none else some g := by
  induction calls using List.reverseRecOn with
  | nil => intro d; rfl
  | append_singleton calls c ih =>
    intro d
    simp only [List.reverse_append, List.reverse_cons, List.reverse_nil, List.nil_append,
      List.singleton_append, registry_after, List.foldl_append, List.foldl_cons, List.foldl_nil]
    cases c with
    | set_default g =>
      simp only [registered_since, RegistryCall.apply, Graph.set_default]
    | destroy g =>
      simp only [registered_since, RegistryCall.apply, Graph.destructor]
      rw [ih (g :: d)]
      simp only [registry_after]
      cases h : List.foldl RegistryCall.apply none calls with
      | none => simp
      | some a =>
        simp only [Option.some.injEq, List.mem_cons]
        by_cases ha : a = g
        · simp [ha]
        · simp [ha]

/-- C13. The default-graph registry is a single-slot state machine: after any sequence of
`set_default` calls and graph destructions, `get_default` returns the graph most recently
passed to `set_default` if that graph has not been destroyed since that call, and fails
with the error "Default graph is null." otherwise (no `set_default` yet, or the registered
graph was destroyed); the destruction of a graph that is not the registered one leaves
the registration as it is, and before any call `get_default` fails. -/
theorem default_graph_registry (calls : List RegistryCall) :
    Graph.get_default (registry_after calls) =
        (match most_recent_default calls with
        | some g => Except.ok g
        | none => Except.error Failure.defaultNull) ∧
      (∀ g, registry_after calls ≠ some g →
        registry_after (calls ++ [RegistryCall.destroy g]) = registry_after calls) ∧
      (∀ g, registry_after (calls ++ [RegistryCall.set_default g]) = some g) ∧
      (∀ g, registry_after calls = some g →
        Graph.get_default (registry_after (calls ++ [RegistryCall.destroy g])) =
          Except.error Failure.defaultNull) ∧
      Graph.get_default (registry_after []) = Except.error Failure.defaultNull := by
  refine ⟨?_, ?_, ?_, ?_, rfl⟩
  · unfold most_recent_default
    rw [registered_since_reverse]
    cases registry_after calls with
    | none => rfl
    | some g => simp [Graph.get_default]
  · intro g h
    simp only [registry_after, List.foldl_append, List.foldl_cons, List.foldl_nil,
      RegistryCall.apply, Graph.destructor] at h ⊢
    simp [h]
  · intro g
    simp [registry_after, List.foldl_append, RegistryCall.apply, Graph.set_default]
  · intro g h
    simp only [registry_after, List.foldl_append, List.foldl_cons, List.foldl_nil,
      RegistryCall.apply, Graph.destructor] at h ⊢
    simp [h, Graph.get_default]

/-- The scenario of the specification, as an evaluation: `set_default(g1)`, then `g2` is
constructed and `g1` destroyed; `get_default` fails afterwards. -/
theorem default_graph_scenario :
    Graph.get_default (registry_after [RegistryCall.set_default 1, RegistryCall.destroy 1]) =
        Except.error Failure.defaultNull ∧
      Graph.get_default (registry_after [RegistryCall.set_default 1, RegistryCall.destroy 2]) =
        Except.ok 1 := by
  exact ⟨rfl, rfl⟩

/-! ## Shapes -/

theorem dim_size_eq_getD (s : Shape) (i : Nat) : s.dim_size i = s.dim_.getD i 1 := by
  unfold Shape.dim_size
  split
  · rfl
  · rename_i h
    rw [List.getD_eq_default]
    omega

theorem foldl_mul_mod (m : Nat) :
    ∀ (l : List Nat) (a : Nat),
      l.foldl (fun acc d => (acc * d) % m) (a % m) = (a * l.prod) % m := by
  intro l
  induction l with
  | nil => intro a; simp
  | cons d rest ih =>
    intro a
    simp only [List.foldl_cons, List.prod_cons]
    rw [ih (a % m * d), Nat.mul_assoc, Nat.mod_mul_mod]

theorem prod_range_getD :
    ∀ (l : List Nat) (n : Nat), l.length ≤ n →
      ∏ i ∈ Finset.range n, l.getD i 1 = l.prod := by
  intro l
  induction l with
  | nil =>
    intro n _
    simp
  | cons d rest ih =>
    intro n hn
    cases n with
    | zero => simp at hn
    | succ m =>
      rw [Finset.prod_range_succ']
      simp only [List.getD_cons_succ, List.getD_cons_zero, List.prod_cons]
      rw [ih m (by simpa using hn), Nat.mul_comm]

/-- C14. Shape element count: `size()` is `batch_size()` times the product of
`dim_size(i)` over the axes `i`, in unsigned 32-bit arithmetic (modulo `2 ^ 32`); the
product may run over any range of axes that contains the stored ones, since `dim_size(i)`
is the stored size for a stored axis and 1 for every axis beyond. -/
theorem shape_size_product (s : Shape) (n : Nat) (hn : s.dim_.length ≤ n) :
    s.size = (s.batch_size * ∏ i ∈ Finset.range n, s.dim_size i) % 2 ^ 32 ∧
      (∀ i, i < s.dim_.length → s.dim_[i]? = some (s.dim_size i)) ∧
      (∀ i, s.dim_.length ≤ i → s.dim_size i = 1) := by
  refine ⟨?_, ?_, ?_⟩
  · have h1 : ∏ i ∈ Finset.range n, s.dim_size i = s.dim_.prod := by
      rw [← prod_range_getD s.dim_ n hn]
      exact Finset.prod_congr rfl (fun i _ => dim_size_eq_getD s i)
    rw [h1]
    unfold Shape.size Shape.batch_size
    exact foldl_mul_mod (2 ^ 32) s.dim_ s.k_
  · intro i hi
    rw [dim_size_eq_getD, List.getD_eq_getElem?_getD, List.getElem?_eq_getElem hi]
    rfl
  · intro i hi
    rw [dim_size_eq_getD, List.getD_eq_default]
    exact hi

theorem shape_size_product_witness :
    (⟨[2, 3], 4⟩ : Shape).dim_.length ≤ 5 ∧ (⟨[2, 3], 4⟩ : Shape).size = 24 ∧
      ((⟨[2, 3], 4⟩ : Shape).size =
        ((⟨[2, 3], 4⟩ : Shape).batch_size *
          ∏ i ∈ Finset.range 5, (⟨[2, 3], 4⟩ : Shape).dim_size i) % 2 ^ 32 ∧
      (∀ i, i < (⟨[2, 3], 4⟩ : Shape).dim_.length →
        (⟨[2, 3], 4⟩ : Shape).dim_[i]? = some ((⟨[2, 3], 4⟩ : Shape).dim_size i)) ∧
      (∀ i, (⟨[2, 3], 4⟩ : Shape).dim_.length ≤ i → (⟨[2, 3], 4⟩ : Shape).dim_size i = 1)) :=
  ⟨by decide, by decide, shape_size_product ⟨[2, 3], 4⟩ 5 (by decide)⟩

theorem getD_drop_trailing_ones :
    ∀ (l : List Nat) (i : Nat), (drop_trailing_ones l).getD i 1 = l.getD i 1 := by
  intro l
  induction l with
  | nil => intro i; rfl
  | cons d rest ih =>
    intro i
    simp only [drop_trailing_ones]
    cases h : drop_trailing_ones rest with
    | nil =>
      rw [h] at ih
      simp only
      by_cases hd : d = 1
      · simp only [hd, if_true]
        cases i with
        | zero => simp
        | succ j => simpa using ih j
      · simp only [hd, if_false]
        cases i with
        | zero => simp
        | succ j => simpa using ih j
    | cons r rs =>
      rw [h] at ih
      simp only
      cases i with
      | zero => simp
      | succ j => simpa using ih j

theorem drop_trailing_ones_eq_nil :
    ∀ (l : List Nat), (∀ i, l.getD i 1 = 1) → drop_trailing_ones l = [] := by
  intro l
  induction l with
  | nil => intro _; rfl
  | cons d rest ih =>
    intro h
    have h0 : d = 1 := by simpa using h 0
    have hr : drop_trailing_ones rest = [] := ih (fun i => by simpa using h (i + 1))
    simp [drop_trailing_ones, hr, h0]

theorem drop_trailing_ones_congr :
    ∀ (l1 l2 : List Nat), (∀ i, l1.getD i 1 = l2.getD i 1) →
      drop_trailing_ones l1 = drop_trailing_ones l2 := by
  intro l1
  induction l1 with
  | nil =>
    intro l2 h
    rw [drop_trailing_ones_eq_nil l2 (fun i => by simpa using (h i).symm)]
    rfl
  | cons d1 r1 ih =>
    intro l2 h
    cases l2 with
    | nil =>
      rw [drop_trailing_ones_eq_nil (d1 :: r1) (fun i => by simpa using h i)]
      rfl
    | cons d2 r2 =>
      have h0 : d1 = d2 := by simpa using h 0
      have hr := ih r2 (fun i => by simpa using h (i + 1))
      simp only [drop_trailing_ones, hr, h0]

theorem dim_size_make (dim : List Nat) (k i : Nat) :
    (Shape.make dim k).dim_size i = dim.getD i 1 := by
  rw [dim_size_eq_getD]
  exact getD_drop_trailing_ones dim i

/-- The member `operator==` alone tells stored trailing ones apart: on the records
`{[n], 1}` and `{[n, 1, 1], 1}` it is false. The equalities of the class documentation
rest on the constructor. -/
theorem op_eq_on_stored_axes (n : Nat) :
    Shape.op_eq ⟨[n], 1⟩ ⟨[n, 1, 1], 1⟩ = false := by
  simp [Shape.op_eq]

/-- C15. Shape equality ignores implicit trailing axes of size 1: for shapes `a` and `b`
built by the constructor, `a == b` holds exactly when `a.batch_size() == b.batch_size()`
and `a.dim_size(i) == b.dim_size(i)` for every axis `i`, where `dim_size(i)` of a built
shape is the given size of axis `i`, or 1 beyond the given axes; in particular
`Shape({n}) == Shape({n, 1, 1}, 1)` and `Shape({}) == Shape({1, 1}, 1)`; and `a != b` is
the negation of `a == b`. -/
theorem shape_equality (dim1 dim2 : List Nat) (k1 k2 : Nat) :
    ((Shape.make dim1 k1).op_eq (Shape.make dim2 k2) = true ↔
        (Shape.make dim1 k1).batch_size = (Shape.make dim2 k2).batch_size ∧
        ∀ i, (Shape.make dim1 k1).dim_size i = (Shape.make dim2 k2).dim_size i) ∧
      (∀ i, (Shape.make dim1 k1).dim_size i = dim1.getD i 1) ∧
      (∀ n, (Shape.make [n] 1).op_eq (Shape.make [n, 1, 1] 1) = true) ∧
      (Shape.make [] 1).op_eq (Shape.make [1, 1] 1) = true ∧
      (Shape.make dim1 k1).op_ne (Shape.make dim2 k2) =
        !(Shape.make dim1 k1).op_eq (Shape.make dim2 k2) := by
  refine ⟨?_, fun i => dim_size_make dim1 k1 i, ?_, by decide, rfl⟩
  · simp only [dim_size_make]
    simp only [Shape.op_eq, Shape.make, Shape.batch_size, Bool.and_eq_true, beq_iff_eq]
    constructor
    · intro ⟨h1, h2⟩
      refine ⟨h2, fun i => ?_⟩
      rw [← getD_drop_trailing_ones dim1, ← getD_drop_trailing_ones dim2, h1]
    · intro ⟨h1, h2⟩
      exact ⟨drop_trailing_ones_congr dim1 dim2 h2, h1⟩
  · intro n
    have : drop_trailing_ones [n] = drop_trailing_ones [n, 1, 1] :=
      drop_trailing_ones_congr _ _ (fun i => by
        match i with
        | 0 => rfl
        | 1 => rfl
        | 2 => rfl
        | _ + 3 => rfl)
    simp [Shape.op_eq, Shape.make, this]

/-! ## Sink lists -/

theorem map_args_update_node {α : Type} (fs : List (FunctionInfo α)) (i j : Nat)
    (u : NodeInfo α → NodeInfo α) :
    (update_node fs i j u).map FunctionInfo.args = fs.map FunctionInfo.args := by
  unfold update_node
  exact map_modify_at _ _ _ _ (fun _ => rfl)

theorem map_args_foldl_register_sink {α : Type} (r : Nat) :
    ∀ (addrs : List Address) (fs : List (FunctionInfo α)),
      (addrs.foldl (register_sink r) fs).map FunctionInfo.args = fs.map FunctionInfo.args := by
  intro addrs
  induction addrs with
  | nil => intro fs; rfl
  | cons a rest ih =>
    intro fs
    simp only [List.foldl_cons]
    rw [ih]
    exact map_args_update_node _ _ _ _

/-- The slots after the loop that registers the new step as a sink: each slot has the new
step appended to its sink list once for every occurrence among the addresses. -/
theorem node_at_foldl_register_sink {α : Type} (r : Nat) (i v : Nat) :
    ∀ (addrs : List Address) (fs : List (FunctionInfo α)),
      node_at (addrs.foldl (register_sink r) fs) i v =
        (node_at fs i v).map (fun n =>
          { n with sinks := n.sinks ++ List.replicate (addrs.count ⟨i, v⟩) r }) := by
  intro addrs
  induction addrs with
  | nil =>
    intro fs
    simp only [List.foldl_nil, List.count_nil, List.replicate_zero, List.append_nil]
    cases node_at fs i v <;> rfl
  | cons a rest ih =>
    intro fs
    simp only [List.foldl_cons]
    rw [ih]
    unfold register_sink
    rw [node_at_update_node]
    by_cases h : i = a.fid ∧ v = a.vid
    · have ha : a = ⟨i, v⟩ := by
        cases a
        simp only at h
        simp [h.1, h.2]
      rw [if_pos h]
      cases node_at fs i v with
      | none => rfl
      | some n =>
        simp only [Option.map_some', Option.some.injEq, NodeInfo.mk.injEq, true_and]
        rw [ha, List.count_cons_self, List.replicate_succ, List.append_assoc]
        rfl
    · have ha : a ≠ ⟨i, v⟩ := by
        intro e
        apply h
        rw [e]
        exact ⟨rfl, rfl⟩
      rw [if_neg h, List.count_cons_of_ne (fun e => ha e.symm)]

theorem sinks_of_args_append (a : Address) :
    ∀ (argss : List (List Address)) (args : List Address) (j : Nat),
      sinks_of_args a (argss ++ [args]) j =
        sinks_of_args a argss j ++ List.replicate (args.count a) (j + argss.length) := by
  intro argss
  induction argss with
  | nil => intro args j; simp [sinks_of_args]
  | cons x rest ih =>
    intro args j
    show List.replicate (x.count a) j ++ sinks_of_args a (rest ++ [args]) (j + 1) =
      (List.replicate (x.count a) j ++ sinks_of_args a rest (j + 1)) ++
        List.replicate (args.count a) (j + (rest.length + 1))
    have : j + 1 + rest.length = j + (rest.length + 1) := by omega
    rw [ih, this, List.append_assoc]

theorem mem_sinks_of_args (a : Address) :
    ∀ (argss : List (List Address)) (j x : Nat), x ∈ sinks_of_args a argss j →
      j ≤ x ∧ ∃ args, argss[x - j]? = some args ∧ a ∈ args := by
  intro argss
  induction argss with
  | nil => intro j x h; simp [sinks_of_args] at h
  | cons l rest ih =>
    intro j x h
    simp only [sinks_of_args, List.mem_append] at h
    rcases h with h | h
    · have hx := (List.mem_replicate.mp h).2
      have hc := (List.mem_replicate.mp h).1
      subst hx
      refine ⟨Nat.le_refl _, l, by simp, ?_⟩
      exact List.count_pos_iff.mp (Nat.pos_of_ne_zero hc)
    · obtain ⟨h1, args, h2, h3⟩ := ih (j + 1) x h
      refine ⟨by omega, args, ?_, h3⟩
      have : x - j = (x - (j + 1)) + 1 := by omega
      rw [this, List.getElem?_cons_succ]
      exact h2

theorem pairwise_sinks_of_args (a : Address) :
    ∀ (argss : List (List Address)) (j : Nat),
      (sinks_of_args a argss j).Pairwise (fun x y => x ≤ y) := by
  intro argss
  induction argss with
  | nil => intro j; simp [sinks_of_args]
  | cons l rest ih =>
    intro j
    simp only [sinks_of_args]
    rw [List.pairwise_append]
    refine ⟨?_, ih (j + 1), ?_⟩
    · rw [List.pairwise_replicate]
      exact Or.inr (Nat.le_refl _)
    · intro x hx y hy
      have := (List.mem_replicate.mp hx).2
      have := (mem_sinks_of_args a rest (j + 1) y hy).1
      omega

theorem count_sinks_of_args (a : Address) :
    ∀ (argss : List (List Address)) (j k : Nat) (args : List Address),
      argss[k]? = some args → (sinks_of_args a argss j).count (j + k) = args.count a := by
  intro argss
  induction argss with
  | nil => intro j k args h; simp at h
  | cons l rest ih =>
    intro j k args h
    simp only [sinks_of_args, List.count_append]
    cases k with
    | zero =>
      simp only [List.getElem?_cons_zero, Option.some.injEq] at h
      subst h
      have h0 : (sinks_of_args a rest (j + 1)).count (j + 0) = 0 := by
        rw [List.count_eq_zero]
        intro hm
        have := (mem_sinks_of_args a rest (j + 1) _ hm).1
        omega
      rw [h0]
      simp [List.count_replicate]
    | succ k =>
      simp only [List.getElem?_cons_succ] at h
      have h1 := ih (j + 1) k args h
      have h2 : j + (k + 1) = j + 1 + k := by omega
      rw [h2, h1, List.count_replicate]
      have : ¬ (j = j + 1 + k) := by omega
      simp [this]

theorem expected_sinks_bounds {α : Type} (g : Graph α) (ht : g.Topological) (i x : Nat)
    (h : x ∈ g.expected_sinks i) : i < x ∧ x < g.funcs_.length := by
  obtain ⟨_, args, h2, h3⟩ := mem_sinks_of_args _ _ _ _ h
  simp only [Nat.sub_zero, List.getElem?_map] at h2
  cases hf : g.funcs_[x]? with
  | none => rw [hf] at h2; cases h2
  | some f =>
    rw [hf] at h2
    simp only [Option.map_some', Option.some.injEq] at h2
    subst h2
    exact ⟨((ht x f hf).2 _ h3).1, (List.getElem?_eq_some.mp hf).1⟩

theorem expected_sinks_count {α : Type} (g : Graph α) (i j : Nat) (f : FunctionInfo α)
    (hf : g.funcs_[j]? = some f) : (g.expected_sinks i).count j = f.args.count ⟨i, 0⟩ := by
  have := count_sinks_of_args ⟨i, 0⟩ (g.funcs_.map FunctionInfo.args) 0 j f.args
    (by simp [hf])
  simpa [Graph.expected_sinks] using this

/-- In a graph built by `add_function` and `clear` the sink list of every slot is the
list that the argument lists ask for. -/
theorem sinks_of_constructed {α : Type} {g : Graph α} (h : Constructed g) :
    ∀ i n, node_at g.funcs_ i 0 = some n → n.sinks = g.expected_sinks i := by
  induction h with
  | empty addr => intro i n h; simp [node_at] at h
  | clear _ _ => intro i n h; simp [node_at, Graph.clear] at h
  | @add_function g func args hc ih =>
    have ht := topological_of_constructed hc
    have ht1 := topological_add_function g ht func args
    rcases add_function_cases g func args with ⟨e, h1, _⟩ | ⟨addrs, shapes, s, d, hg, _, _, h1⟩
    · rw [h1]; exact ih
    · rw [h1] at ht1 ⊢
      simp only at ht1 ⊢
      have hl : (addrs.foldl (register_sink g.funcs_.length) g.funcs_).length = g.funcs_.length :=
        length_foldl_register_sink _ _ _
      intro i n hn
      rcases Nat.lt_trichotomy i g.funcs_.length with hi | hi | hi
      · have h2 : node_at (addrs.foldl (register_sink g.funcs_.length) g.funcs_ ++
            [⟨func, addrs, [⟨s, d, none, none, []⟩]⟩]) i 0 =
            node_at (addrs.foldl (register_sink g.funcs_.length) g.funcs_) i 0 := by
          simp only [node_at]
          rw [List.getElem?_append_left (by omega)]
        rw [h2, node_at_foldl_register_sink] at hn
        cases h0 : node_at g.funcs_ i 0 with
        | none => rw [h0] at hn; cases hn
        | some n0 =>
          rw [h0] at hn
          simp only [Option.map_some', Option.some.injEq] at hn
          subst hn
          simp only [Graph.expected_sinks, List.map_append, List.map_cons, List.map_nil,
            map_args_foldl_register_sink, sinks_of_args_append, List.length_map, Nat.zero_add]
          rw [ih i n0 h0]
          rfl
      · have h2 : node_at (addrs.foldl (register_sink g.funcs_.length) g.funcs_ ++
            [⟨func, addrs, [⟨s, d, none, none, []⟩]⟩]) i 0 =
            some ⟨s, d, none, none, []⟩ := by
          simp only [node_at]
          rw [List.getElem?_append_right (by omega)]
          have : i - (addrs.foldl (register_sink g.funcs_.length) g.funcs_).length = 0 := by omega
          rw [this]
          rfl
        rw [h2] at hn
        simp only [Option.some.injEq] at hn
        subst hn
        simp only
        symm
        rw [List.eq_nil_iff_forall_not_mem]
        intro x hx
        have := expected_sinks_bounds _ ht1 i x hx
        simp only [List.length_append, List.length_cons, List.length_nil, hl] at this
        omega
      · exfalso
        simp only [node_at] at hn
        rw [List.getElem?_append_right (by omega)] at hn
        have : i - (addrs.foldl (register_sink g.funcs_.length) g.funcs_).length =
            (i - g.funcs_.length - 1) + 1 := by omega
        rw [this] at hn
        simp at hn

/-- C18. Sink lists mirror argument lists: in every graph reached from the empty graph by
`add_function` and `clear`, the sink list of the output slot of step `i` is the list of
the steps `j` that have `(i, 0)` among their argument addresses, in non-decreasing order
of step id and each as often as it has `(i, 0)` among its arguments; every sink id `j`
has `i < j` and is below the number of steps. -/
theorem sinks_mirror_arguments {α : Type} (g : Graph α) (h : Constructed g) (i : Nat)
    (n : NodeInfo α) (hn : node_at g.funcs_ i 0 = some n) :
    n.sinks = g.expected_sinks i ∧
      n.sinks.Pairwise (fun x y => x ≤ y) ∧
      (∀ j f, g.funcs_[j]? = some f → n.sinks.count j = f.args.count ⟨i, 0⟩) ∧
      (∀ j ∈ n.sinks, i < j ∧ j < g.funcs_.length) := by
  have hs := sinks_of_constructed h i n hn
  rw [hs]
  refine ⟨rfl, pairwise_sinks_of_args _ _ _, ?_, ?_⟩
  · intro j f hf
    exact expected_sinks_count g i j f hf
  · intro j hj
    exact expected_sinks_bounds g (topological_of_constructed h) i j hj

theorem sinks_mirror_arguments_witness :
    Constructed Scenario.gAC ∧
      node_at Scenario.gAC.funcs_ 0 0 = some ⟨⟨[1], 1⟩, Scenario.D0, none, none, [1, 1]⟩ ∧
      ([1, 1] = Scenario.gAC.expected_sinks 0 ∧
      [1, 1].Pairwise (fun x y => x ≤ y) ∧
      (∀ j f, Scenario.gAC.funcs_[j]? = some f →
        [1, 1].count j = f.args.count ⟨0, 0⟩) ∧
      (∀ j ∈ [1, 1], 0 < j ∧ j < Scenario.gAC.funcs_.length)) :=
  ⟨Constructed.add_function _ _ (Constructed.add_function _ _ (Constructed.empty 1)), rfl,
    sinks_mirror_arguments Scenario.gAC
      (Constructed.add_function _ _ (Constructed.add_function _ _ (Constructed.empty 1)))
      0 ⟨⟨[1], 1⟩, Scenario.D0, none, none, [1, 1]⟩ rfl⟩

/-! ## Dependencies and the frame of forward -/

theorem active_of_map_nodes_eq {α : Type} {h : NodeInfo α → NodeInfo α} {g g1 : Graph α}
    (e : g1.map_nodes h = g.map_nodes h) (seed : Nat → Prop) (j : Nat)
    (ha : Active g1 seed j) : Active g seed j := by
  induction ha with
  | seed hs => exact Active.seed hs
  | arg f a _ hf hmem ih =>
    obtain ⟨f0, hf0, _, hargs, _⟩ := funcs_of_map_nodes_eq e _ f hf
    exact Active.arg f0 a ih hf0 (hargs ▸ hmem)

theorem active_mono {α : Type} (g : Graph α) (seed1 seed2 : Nat → Prop)
    (hs : ∀ i, seed1 i → Active g seed2 i) (j : Nat) (ha : Active g seed1 j) :
    Active g seed2 j := by
  induction ha with
  | seed h => exact hs _ h
  | arg f a _ hf hmem ih => exact Active.arg f a ih hf hmem

theorem depends_on_refl {α : Type} (g : Graph α) (i : Nat) : DependsOn g i i :=
  Active.seed rfl

theorem depends_on_head {α : Type} (g : Graph α) (i j : Nat) (f : FunctionInfo α)
    (a : Address) (hf : g.funcs_[i]? = some f) (ha : a ∈ f.args)
    (hd : DependsOn g a.fid j) : DependsOn g i j := by
  apply active_mono g _ _ _ j hd
  intro k hk
  rw [hk]
  exact Active.arg f a (Active.seed rfl) hf ha

theorem mem_forward_calls_singleton {α : Type} (fid j : Nat) :
    j ∈ forward_calls [(Event.forward fid : Event α)] ↔ j = fid := by
  simp [forward_calls]

/-- The frame of the loop over the arguments, given the frame of the recursive call. -/
theorem gather_values_frame {α : Type} (rec : Nat → Graph α → Outcome α (Tensor α))
    (hrec : ∀ fid g, (rec fid g).g.erase_values = g.erase_values ∧
      (∀ j ∈ forward_calls (rec fid g).log, DependsOn g fid j) ∧
      (∀ j, j ∉ forward_calls (rec fid g).log → (rec fid g).g.value_at j = g.value_at j) ∧
      backward_calls (rec fid g).log = []) :
    ∀ args g, (gather_values rec args g).g.erase_values = g.erase_values ∧
      (∀ j ∈ forward_calls (gather_values rec args g).log, ∃ a ∈ args, DependsOn g a.fid j) ∧
      (∀ j, j ∉ forward_calls (gather_values rec args g).log →
        (gather_values rec args g).g.value_at j = g.value_at j) ∧
      backward_calls (gather_values rec args g).log = [] := by
  intro args
  induction args with
  | nil =>
    intro g
    refine ⟨rfl, ?_, fun _ _ => rfl, rfl⟩
    intro j hj
    simp [gather_values, forward_calls] at hj
  | cons a rest ih =>
    intro g
    obtain ⟨h1, h2, h3, h4⟩ := hrec a.fid g
    have key1 : ∀ j ∈ forward_calls (rec a.fid g).log, ∃ b ∈ a :: rest, DependsOn g b.fid j :=
      fun j hj => ⟨a, List.mem_cons_self _ _, h2 j hj⟩
    simp only [gather_values]
    cases hr : (rec a.fid g).ret with
    | error e => exact ⟨h1, key1, h3, h4⟩
    | ok v =>
      simp only
      obtain ⟨i1, i2, i3, i4⟩ := ih (rec a.fid g).g
      have key : (gather_values rec rest (rec a.fid g).g).g.erase_values = g.erase_values ∧
          (∀ j ∈ forward_calls ((rec a.fid g).log ++ (gather_values rec rest (rec a.fid g).g).log),
            ∃ b ∈ a :: rest, DependsOn g b.fid j) ∧
          (∀ j, j ∉ forward_calls
              ((rec a.fid g).log ++ (gather_values rec rest (rec a.fid g).g).log) →
            (gather_values rec rest (rec a.fid g).g).g.value_at j = g.value_at j) ∧
          backward_calls ((rec a.fid g).log ++ (gather_values rec rest (rec a.fid g).g).log) =
            [] := by
        refine ⟨i1.trans h1, ?_, ?_, ?_⟩
        · intro j hj
          rw [forward_calls_append, List.mem_append] at hj
          rcases hj with hj | hj
          · exact key1 j hj
          · obtain ⟨b, hb, hd⟩ := i2 j hj
            exact ⟨b, List.mem_cons_of_mem _ hb, active_of_map_nodes_eq h1 _ j hd⟩
        · intro j hj
          rw [forward_calls_append, List.mem_append, not_or] at hj
          rw [i3 j hj.2, h3 j hj.1]
        · rw [backward_calls_append, h4, i4]
          rfl
      cases hrs : (gather_values rec rest (rec a.fid g).g).ret with
      | error e => exact key
      | ok vs => exact key

/-- The frame of the forward recursion, on any graph and for any bound: only value slots
change, and only those of the steps whose forward contract is invoked, which are steps
the start depends on. -/
theorem forward_recursive_frame {α : Type} :
    ∀ fuel fid (g : Graph α),
      (forward_recursive fuel fid g).g.erase_values = g.erase_values ∧
      (∀ j ∈ forward_calls (forward_recursive fuel fid g).log, DependsOn g fid j) ∧
      (∀ j, j ∉ forward_calls (forward_recursive fuel fid g).log →
        (forward_recursive fuel fid g).g.value_at j = g.value_at j) ∧
      backward_calls (forward_recursive fuel fid g).log = [] := by
  intro fuel
  induction fuel with
  | zero =>
    intro fid g
    refine ⟨rfl, ?_, fun _ _ => rfl, rfl⟩
    intro j hj
    simp [forward_recursive, forward_calls] at hj
  | succ fuel ih =>
    intro fid g
    have triv : ∀ (ret : Except Failure (Tensor α)),
        (Outcome.mk ret g []).g.erase_values = g.erase_values ∧
        (∀ j ∈ forward_calls (Outcome.mk ret g []).log, DependsOn g fid j) ∧
        (∀ j, j ∉ forward_calls (Outcome.mk ret g []).log →
          (Outcome.mk ret g []).g.value_at j = g.value_at j) ∧
        backward_calls (Outcome.mk ret g []).log = [] := by
      intro ret
      refine ⟨rfl, ?_, fun _ _ => rfl, rfl⟩
      intro j hj
      simp [forward_calls] at hj
    rw [forward_recursive]
    cases hf : g.funcs_[fid]? with
    | none => exact triv _
    | some f =>
      simp only
      cases hn : f.rets[0]? with
      | none => exact triv _
      | some n =>
        simp only
        cases hin : f.func.get_inner_value with
        | some v => exact triv _
        | none =>
          simp only
          cases hv : n.value with
          | some v => exact triv _
          | none =>
            simp only
            obtain ⟨g1, g2, g3, g4⟩ := gather_values_frame (forward_recursive fuel) ih f.args g
            generalize gather_values (forward_recursive fuel) f.args g = r at g1 g2 g3 g4
            have hdep : ∀ j ∈ forward_calls (r.log ++ [Event.forward fid]), DependsOn g fid j := by
              intro j hj
              rw [forward_calls_append, List.mem_append] at hj
              rcases hj with hj | hj
              · obtain ⟨a, ha, hd⟩ := g2 j hj
                exact depends_on_head g fid j f a hf ha hd
              · rw [(mem_forward_calls_singleton fid j).mp hj]
                exact depends_on_refl g fid
            have hbw : backward_calls (r.log ++ [Event.forward fid]) = [] := by
              rw [backward_calls_append, g4]
              rfl
            cases hr : r.ret with
            | error e =>
              refine ⟨g1, ?_, g3, g4⟩
              intro j hj
              obtain ⟨a, ha, hd⟩ := g2 j hj
              exact depends_on_head g fid j f a hf ha hd
            | ok vs =>
              simp only
              cases hfw : f.func.forward vs with
              | none =>
                refine ⟨g1, hdep, ?_, hbw⟩
                intro j hj
                rw [forward_calls_append, List.mem_append, not_or] at hj
                exact g3 j hj.1
              | some v =>
                refine ⟨(map_nodes_set_value r.g fid (some v)).trans g1, hdep, ?_, hbw⟩
                intro j hj
                rw [forward_calls_append, List.mem_append, not_or] at hj
                have hne : j ≠ fid := fun e => hj.2 ((mem_forward_calls_singleton fid j).mpr e)
                simp only
                rw [value_at_set_value, if_neg hne]
                exact g3 j hj.1

theorem add_function_log {α : Type} (g : Graph α) (func : Function α) (args : List Node) :
    (g.add_function func args).log = [] := by
  rcases add_function_cases g func args with ⟨e, h1, _⟩ | ⟨_, _, _, _, _, _, _, h1⟩ <;> rw [h1]

/-- C19. Lazy evaluation and the frame of forward: `add_function` invokes no contract of
an operation (in particular no forward contract); `forward(node)` invokes forward
contracts only, and only of steps that the step of `node` depends on through argument
addresses (that step included); the graph after it differs from the graph before in
value slots only (same step count, operations, argument lists, shapes, devices, sink
lists and gradient slots), and the value slot of every step whose forward contract was
not invoked is unchanged. -/
theorem forward_frame {α : Type} (g : Graph α) (func : Function α) (args : List Node)
    (node : Node) :
    (g.add_function func args).log = [] ∧
      (∀ j ∈ forward_calls (g.forward node).log, DependsOn g node.fid_ j) ∧
      backward_calls (g.forward node).log = [] ∧
      (g.forward node).g.erase_values = g.erase_values ∧
      (g.forward node).g.funcs_.length = g.funcs_.length ∧
      (g.forward node).g.funcs_.map FunctionInfo.args = g.funcs_.map FunctionInfo.args ∧
      (∀ a, (g.forward node).g.grad_heap a = g.grad_heap a) ∧
      (∀ i v, (node_at (g.forward node).g.funcs_ i v).map
          (fun n => (n.shape, n.device, n.sinks)) =
        (node_at g.funcs_ i v).map (fun n => (n.shape, n.device, n.sinks))) ∧
      (∀ j, j ∉ forward_calls (g.forward node).log →
        (g.forward node).g.value_at j = g.value_at j) := by
  have key : (g.forward node).g.erase_values = g.erase_values ∧
      (∀ j ∈ forward_calls (g.forward node).log, DependsOn g node.fid_ j) ∧
      (∀ j, j ∉ forward_calls (g.forward node).log →
        (g.forward node).g.value_at j = g.value_at j) ∧
      backward_calls (g.forward node).log = [] := by
    unfold Graph.forward
    cases g.CHECK_NODE node with
    | some e =>
      refine ⟨rfl, ?_, fun _ _ => rfl, rfl⟩
      intro j hj
      simp [forward_calls] at hj
    | none => exact forward_recursive_frame _ _ _
  obtain ⟨k1, k2, k3, k4⟩ := key
  refine ⟨add_function_log g func args, k2, k4, k1, length_of_map_nodes_eq k1, ?_,
    fun a => grad_heap_of_erase_values_eq k1 a, ?_, k3⟩
  · have := congrArg (fun x : Graph α => x.funcs_.map FunctionInfo.args) k1
    simpa [Graph.erase_values, Graph.map_nodes, List.map_map, Function.comp] using this
  · intro i v
    have := node_at_of_map_nodes_eq k1 i v
    cases h1 : node_at (g.forward node).g.funcs_ i v with
    | none =>
      cases h2 : node_at g.funcs_ i v with
      | none => rfl
      | some n2 => rw [h1, h2] at this; cases this
    | some n1 =>
      cases h2 : node_at g.funcs_ i v with
      | none => rw [h1, h2] at this; cases this
      | some n2 =>
        rw [h1, h2] at this
        simp only [Option.map_some', Option.some.injEq, NodeInfo.mk.injEq] at this
        simp only [Option.map_some', Option.some.injEq, Prod.mk.injEq]
        exact ⟨this.1, this.2.1, this.2.2.2.2⟩

/-! ## The dependency path in the backward sweep -/

/-- C20 as stated fails for an operation that exposes an inner value and takes an
argument: with `A = input([1])` not yet evaluated and `B = cached(A)`, where the operation
of `B` exposes an inner value, `forward(B)` returns the inner value without evaluating
`A`, and `backward(B)` finds neither a memoized value nor an inner value for the argument
`A` when it sizes the zero gradient of `A`: the null pointer `arg_v` is dereferenced. -/
theorem backward_dereferences_missing_value :
    Reachable Scenario.gCached ∧ Scenario.gCached.valid Scenario.nB ∧
      (Scenario.gCached.forward Scenario.nB).ret = Except.ok (Scenario.vec [5]) ∧
      (Scenario.gCached.forward Scenario.nB).log = [] ∧
      Scenario.gCached.value_at 0 = none ∧
      (Scenario.input (Scenario.vec [1])).get_inner_value = none ∧
      (Scenario.gCached.backward Scenario.nB).ret =
        Except.error Failure.undefinedBehaviour := by
  refine ⟨Reachable.add_function _ _ (Reachable.add_function _ _ (Reachable.empty 1)),
    rfl, rfl, rfl, rfl, rfl, rfl⟩

theorem node_at_set_grad_isSome {α : Type} (g : Graph α) (a : Address)
    (t : Option (Tensor α)) (i v : Nat) :
    (node_at (g.set_grad a t).funcs_ i v).isSome = (node_at g.funcs_ i v).isSome := by
  unfold Graph.set_grad
  simp only [node_at_update_node]
  split
  · cases node_at g.funcs_ i v <;> rfl
  · rfl

theorem grad_heap_ne_none_node {α : Type} (g : Graph α) (a : Address)
    (h : g.grad_heap a ≠ none) : (node_at g.funcs_ a.fid a.vid).isSome = true := by
  unfold Graph.grad_heap at h
  cases hn : node_at g.funcs_ a.fid a.vid with
  | none => rw [hn] at h; exact absurd rfl h
  | some n => rfl

theorem grad_heap_set_grad_self {α : Type} (g : Graph α) (a : Address)
    (t : Option (Tensor α)) (h : (node_at g.funcs_ a.fid a.vid).isSome = true) :
    (g.set_grad a t).grad_heap a = t := by
  rw [grad_heap_set_grad, if_pos rfl]
  cases hn : node_at g.funcs_ a.fid a.vid with
  | none => rw [hn] at h; cases h
  | some n => rfl

/-- The loop that gathers the argument gradients never makes a valid gradient invalid. -/
theorem gather_grads_keeps {α : Type} [Zero α] (b : Address) :
    ∀ (args : List Address) (g : Graph α), g.grad_heap b ≠ none →
      (gather_grads args g).2.grad_heap b ≠ none := by
  intro args
  induction args with
  | nil => intro g h; exact h
  | cons a rest ih =>
    intro g hb
    simp only [gather_grads]
    cases hf : g.funcs_[a.fid]? with
    | none => exact hb
    | some f =>
      simp only
      cases hn : f.rets[a.vid]? with
      | none => exact hb
      | some n =>
        simp only
        cases hgrad : n.grad with
        | none =>
          cases hv : value_or_inner f n with
          | none => exact hb
          | some v =>
            simp only
            have hb1 : (g.set_grad a (some (n.device.new_tensor v.shape 0))).grad_heap b ≠
                none := by
              rw [grad_heap_set_grad]
              split
              · rename_i e
                rw [← e]
                have := grad_heap_ne_none_node g b hb
                cases hx : node_at g.funcs_ b.fid b.vid with
                | none => rw [hx] at this; cases this
                | some _ => simp
              · exact hb
            have := ih (g.set_grad a (some (n.device.new_tensor v.shape 0))) hb1
            split <;> rename_i heq <;> rw [heq] at this <;> exact this
        | some t =>
          simp only
          have := ih g hb
          split <;> rename_i heq <;> rw [heq] at this <;> exact this

/-- When the loop that gathers the argument gradients returns, the gradient of every
argument is valid. -/
theorem gather_grads_valid {α : Type} [Zero α] :
    ∀ (args : List Address) (g : Graph α) (vs : List (Option (Tensor α))),
      (gather_grads args g).1 = Except.ok vs →
      ∀ a ∈ args, (gather_grads args g).2.grad_heap a ≠ none := by
  intro args
  induction args with
  | nil => intro g vs _ a ha; simp at ha
  | cons a rest ih =>
    intro g vs hok b hb
    simp only [gather_grads] at hok ⊢
    cases hf : g.funcs_[a.fid]? with
    | none => rw [hf] at hok; cases hok
    | some f =>
      rw [hf] at hok
      simp only at hok ⊢
      cases hn : f.rets[a.vid]? with
      | none => rw [hn] at hok; cases hok
      | some n =>
        rw [hn] at hok
        simp only at hok ⊢
        have hnode : node_at g.funcs_ a.fid a.vid = some n := by simp [node_at, hf, hn]
        cases hgrad : n.grad with
        | none =>
          rw [hgrad] at hok
          cases hv : value_or_inner f n with
          | none => rw [hv] at hok; cases hok
          | some v =>
            rw [hv] at hok
            simp only at hok ⊢
            have ha1 : (g.set_grad a (some (n.device.new_tensor v.shape 0))).grad_heap a ≠
                none := by
              rw [grad_heap_set_grad_self _ _ _ (by rw [hnode]; rfl)]
              simp
            have k1 := gather_grads_keeps a rest _ ha1
            have k2 := ih (g.set_grad a (some (n.device.new_tensor v.shape 0)))
            cases hres : gather_grads rest (g.set_grad a (some (n.device.new_tensor v.shape 0))) with
            | mk r1 g1 =>
              rw [hres] at hok k1 k2
              cases r1 with
              | error e => cases hok
              | ok vs1 =>
                simp only at k1 k2 ⊢
                rcases List.mem_cons.mp hb with hb | hb
                · rw [hb]; exact k1
                · exact k2 vs1 rfl b hb
        | some t =>
          rw [hgrad] at hok
          simp only at hok ⊢
          have ha1 : g.grad_heap a ≠ none := by
            simp [Graph.grad_heap, hnode, hgrad]
          have k1 := gather_grads_keeps a rest g ha1
          have k2 := ih g
          cases hres : gather_grads rest g with
          | mk r1 g1 =>
            rw [hres] at hok k1 k2
            cases r1 with
            | error e => cases hok
            | ok vs1 =>
              simp only at k1 k2 ⊢
              rcases List.mem_cons.mp hb with hb | hb
              · rw [hb]; exact k1
              · exact k2 vs1 rfl b hb

/-- After the gradients are written back, the tensor behind a pointer that was handed to
the contract is the tensor the contract left there. -/
theorem grad_heap_store_grads_mem {α : Type} (heap : GradHeap α) (b : Address) :
    ∀ (ptrs : List Address) (g : Graph α), b ∈ ptrs →
      (node_at g.funcs_ b.fid b.vid).isSome = true →
      (g.store_grads ptrs heap).grad_heap b = heap b := by
  intro ptrs
  induction ptrs with
  | nil => intro g h; simp at h
  | cons a rest ih =>
    intro g hb hnode
    have hnode1 : (node_at (g.set_grad a (heap a)).funcs_ b.fid b.vid).isSome = true := by
      rw [node_at_set_grad_isSome]; exact hnode
    have hstep : g.store_grads (a :: rest) heap = (g.set_grad a (heap a)).store_grads rest heap := by
      simp [Graph.store_grads]
    rw [hstep]
    by_cases hr : b ∈ rest
    · exact ih _ hr hnode1
    · have hba : b = a := by
        rcases List.mem_cons.mp hb with h | h
        · exact h
        · exact absurd h hr
      rw [grad_heap_store_grads heap b rest _ hr, hba]
      exact grad_heap_set_grad_self g a (heap a) (by rw [← hba]; exact hnode)

theorem grad_at_eq_of_getElem? {α : Type} {g : Graph α} {k : Nat} {f : FunctionInfo α}
    {n : NodeInfo α} (hf : g.funcs_[k]? = some f) (hn : f.rets[0]? = some n) :
    g.grad_at k = n.grad := by
  simp [Graph.grad_at, Graph.grad_heap, node_at, hf, hn]

theorem mem_backward_calls_singleton {α : Type} (fid x : Nat) (t : Tensor α) :
    x ∈ backward_calls [Event.backward fid t] ↔ x = fid := by
  simp [backward_calls]

/-- One round of the sweep on a topological graph whose backward contracts keep the
gradients they are handed valid: the round invokes the contract of its step exactly when
the gradient of the step is valid, and when it returns the valid gradients below are
those that were valid and those of the arguments of a processed step. -/
theorem backward_step_round_aux {α : Type} [Zero α] (k : Nat) (g : Graph α)
    (hacc : g.Accumulating) (Q : Nat → Prop)
    (hQ : ∀ i, Q i ↔ ∃ f, g.funcs_[k]? = some f ∧ (⟨i, 0⟩ : Address) ∈ f.args) :
    forward_calls (backward_step k g).log = [] ∧
      (backward_calls (backward_step k g).log = [] ∨
        (backward_calls (backward_step k g).log = [k] ∧ g.grad_at k ≠ none)) ∧
      ((backward_step k g).ret = Except.ok () →
        (g.grad_at k ≠ none → backward_calls (backward_step k g).log = [k]) ∧
        ∀ i, i < k →
          ((backward_step k g).g.grad_at i ≠ none ↔
            (g.grad_at i ≠ none ∨ (g.grad_at k ≠ none ∧ Q i)))) := by
  have triv : ∀ (e : Failure) (g1 : Graph α),
      forward_calls (Outcome.mk (ρ := Unit) (Except.error e) g1 []).log = [] ∧
      (backward_calls (Outcome.mk (ρ := Unit) (Except.error e) g1 []).log = [] ∨
        (backward_calls (Outcome.mk (ρ := Unit) (Except.error e) g1 []).log = [k] ∧
          g.grad_at k ≠ none)) ∧
      ((Outcome.mk (ρ := Unit) (Except.error e) g1 []).ret = Except.ok () →
        (g.grad_at k ≠ none →
          backward_calls (Outcome.mk (ρ := Unit) (Except.error e) g1 []).log = [k]) ∧
        ∀ i, i < k →
          ((Outcome.mk (ρ := Unit) (Except.error e) g1 []).g.grad_at i ≠ none ↔
            (g.grad_at i ≠ none ∨ (g.grad_at k ≠ none ∧ Q i)))) := by
    intro e g1
    exact ⟨rfl, Or.inl rfl, fun h => by cases h⟩
  unfold backward_step
  cases hf : g.funcs_[k]? with
  | none => exact triv Failure.undefinedBehaviour g
  | some f =>
    simp only
    cases hn : f.rets[0]? with
    | none => exact triv Failure.undefinedBehaviour g
    | some n =>
      simp only
      have hgk := grad_at_eq_of_getElem? hf hn
      cases hgrad : n.grad with
      | none =>
        simp only
        rw [hgrad] at hgk
        refine ⟨rfl, Or.inl rfl, fun _ => ⟨fun h => absurd hgk h, fun i _ => ?_⟩⟩
        · constructor
          · intro h; exact Or.inl h
          · intro h
            rcases h with h | ⟨h, _⟩
            · exact h
            · exact absurd hgk h
      | some cg =>
        simp only
        rw [hgrad] at hgk
        have hgk1 : g.grad_at k ≠ none := by rw [hgk]; simp
        have h1 := fun b hb => grad_heap_gather_grads (α := α) b f.args g hb
        have h2 := gather_grads_valid f.args g
        cases hres : gather_grads f.args g with
        | mk r1 g1 =>
          rw [hres] at h1 h2
          simp only at h1 h2
          cases r1 with
          | error e => exact triv e g1
          | ok vs =>
            simp only
            have hvalid := h2 vs rfl
            cases hv : value_or_inner f n with
            | none => exact triv Failure.undefinedBehaviour g1
            | some v =>
              simp only
              have hkeep : ∀ a ∈ f.args,
                  (f.func.backward v cg vs f.args g1.grad_heap).heap a ≠ none :=
                fun a ha => hacc k f hf v cg vs f.args g1.grad_heap a ha (hvalid a ha)
              split
              · exact ⟨rfl, Or.inr ⟨rfl, hgk1⟩, fun h => by cases h⟩
              · refine ⟨rfl, Or.inr ⟨rfl, hgk1⟩, fun _ => ⟨fun _ => rfl, fun i hi => ?_⟩⟩
                · have hne : (⟨i, 0⟩ : Address) ≠ ⟨k, 0⟩ := by
                    intro h
                    have := congrArg Address.fid h
                    simp only at this
                    omega
                  simp only [Graph.grad_at]
                  rw [grad_heap_set_grad, if_neg hne]
                  by_cases hmem : (⟨i, 0⟩ : Address) ∈ f.args
                  · rw [grad_heap_store_grads_mem _ _ _ _ hmem
                      (grad_heap_ne_none_node g1 _ (hvalid _ hmem))]
                    constructor
                    · intro _
                      exact Or.inr ⟨hgk1, (hQ i).mpr ⟨f, hf, hmem⟩⟩
                    · intro _
                      exact hkeep _ hmem
                  · rw [grad_heap_store_grads _ _ _ _ hmem, h1 _ hmem]
                    constructor
                    · intro h; exact Or.inl h
                    · intro h
                      rcases h with h | ⟨_, hq⟩
                      · exact h
                      · obtain ⟨f2, hf2, hm2⟩ := (hQ i).mp hq
                        rw [hf] at hf2
                        simp only [Option.some.injEq] at hf2
                        rw [← hf2] at hm2
                        exact absurd hm2 hmem

/-- One round of the sweep on a topological graph whose backward contracts keep the
gradients they are handed valid: the round invokes the contract of its step exactly when
the gradient of the step is valid, and when it returns the valid gradients below are
those that were valid and those of the arguments of a processed step. -/
theorem backward_step_round {α : Type} [Zero α] (k : Nat) (g : Graph α)
    (hacc : g.Accumulating) :
    forward_calls (backward_step k g).log = [] ∧
      (backward_calls (backward_step k g).log = [] ∨
        (backward_calls (backward_step k g).log = [k] ∧ g.grad_at k ≠ none)) ∧
      ((backward_step k g).ret = Except.ok () →
        (g.grad_at k ≠ none → backward_calls (backward_step k g).log = [k]) ∧
        ∀ i, i < k →
          ((backward_step k g).g.grad_at i ≠ none ↔
            (g.grad_at i ≠ none ∨
              (g.grad_at k ≠ none ∧
                ∃ f, g.funcs_[k]? = some f ∧ (⟨i, 0⟩ : Address) ∈ f.args)))) :=
  backward_step_round_aux k g hacc _ (fun _ => Iff.rfl)

theorem accumulating_of_map_nodes_eq {α : Type} {h : NodeInfo α → NodeInfo α} {g g1 : Graph α}
    (e : g1.map_nodes h = g.map_nodes h) (ha : g.Accumulating) : g1.Accumulating := by
  intro i f1 hf1
  obtain ⟨f, hf, hfun, _, _⟩ := funcs_of_map_nodes_eq e i f1 hf1
  rw [← hfun]
  exact ha i f hf

theorem active_lt {α : Type} (g : Graph α) (ht : g.Topological) (seed : Nat → Prop) (m : Nat)
    (hs : ∀ i, seed i → i < m) (x : Nat) (ha : Active g seed x) : x < m := by
  induction ha with
  | seed h => exact hs _ h
  | arg f a _ hf hmem ih =>
    have := ((ht _ f hf).2 a hmem).1
    omega

theorem address_eq_of_topological {α : Type} {g : Graph α} (ht : g.Topological) {j : Nat}
    {f : FunctionInfo α} (hf : g.funcs_[j]? = some f) {a : Address} (ha : a ∈ f.args) :
    a = ⟨a.fid, 0⟩ := by
  have := ((ht j f hf).2 a ha).2
  cases a
  simp only at this
  simp [this]

/-- The steps the sweep will process from round `n` on are step `n`, if its gradient is
valid, and the steps it will process from round `n - 1` on after round `n`. -/
theorem active_after_round {α : Type} (n : Nat) (g g1 : Graph α) (ht : g.Topological)
    (hframe : g1.erase_grads = g.erase_grads)
    (hgr : ∀ i, i < n →
      (g1.grad_at i ≠ none ↔
        (g.grad_at i ≠ none ∨
          (g.grad_at n ≠ none ∧ ∃ f, g.funcs_[n]? = some f ∧ (⟨i, 0⟩ : Address) ∈ f.args))))
    (x : Nat) :
    Active g (g.pending (n + 1)) x ↔
      ((x = n ∧ g.grad_at n ≠ none) ∨ Active g1 (g1.pending n) x) := by
  constructor
  · intro ha
    induction ha with
    | @seed i hs =>
      obtain ⟨h1, h2⟩ := hs
      rcases Nat.lt_succ_iff_lt_or_eq.mp h1 with h | h
      · exact Or.inr (Active.seed ⟨h, (hgr i h).mpr (Or.inl h2)⟩)
      · exact Or.inl ⟨h, h ▸ h2⟩
    | @arg j f a _ hf hmem ih =>
      rcases ih with ⟨hj, hg⟩ | ih
      · subst hj
        have hlt := ((ht j f hf).2 a hmem).1
        have haddr := address_eq_of_topological ht hf hmem
        refine Or.inr (Active.seed ⟨hlt, (hgr a.fid hlt).mpr (Or.inr ⟨hg, f, hf, ?_⟩)⟩)
        rw [← haddr]
        exact hmem
      · obtain ⟨f1, hf1, _, hargs, _⟩ := funcs_of_map_nodes_eq hframe.symm j f hf
        exact Or.inr (Active.arg f1 a ih hf1 (hargs ▸ hmem))
  · intro h
    rcases h with ⟨hx, hg⟩ | h
    · exact Active.seed ⟨by omega, hx ▸ hg⟩
    · have h2 := active_of_map_nodes_eq hframe _ x h
      apply active_mono g _ _ _ x h2
      intro i ⟨hi, hgi⟩
      rcases (hgr i hi).mp hgi with h3 | ⟨h3, f, hf, hmem⟩
      · exact Active.seed ⟨by omega, h3⟩
      · exact Active.arg f ⟨i, 0⟩ (Active.seed ⟨Nat.lt_succ_self n, h3⟩) hf hmem

/-- The rounds `n - 1, ..., 0` of the sweep on a topological graph whose backward
contracts keep the gradients they are handed valid: backward contracts are invoked in
strictly decreasing order of step id, each of a step that is pending or is reached from a
pending step by argument addresses; when a contract is invoked, those of all such steps
with a greater id have been invoked; when the loop returns, all of them were. -/
theorem backward_loop_path {α : Type} [Zero α] :
    ∀ (n : Nat) (g : Graph α), g.Topological → g.Accumulating →
      forward_calls (backward_loop n g).log = [] ∧
      (∀ x ∈ backward_calls (backward_loop n g).log, Active g (g.pending n) x) ∧
      (∀ x ∈ backward_calls (backward_loop n g).log, ∀ y, x < y →
        Active g (g.pending n) y → y ∈ backward_calls (backward_loop n g).log) ∧
      ((backward_loop n g).ret = Except.ok () →
        ∀ x, Active g (g.pending n) x → x ∈ backward_calls (backward_loop n g).log) ∧
      (backward_calls (backward_loop n g).log).Pairwise (fun x y => x > y) ∧
      (∀ x ∈ backward_calls (backward_loop n g).log, x < n) := by
  intro n
  induction n with
  | zero =>
    intro g ht _
    have hnone : ∀ x, ¬ Active g (g.pending 0) x := by
      intro x hx
      have := active_lt g ht _ 0 (fun i hi => hi.1) x hx
      omega
    refine ⟨rfl, ?_, ?_, fun _ x hx => absurd hx (hnone x), List.Pairwise.nil, ?_⟩
    · intro x hx; simp [backward_loop, backward_calls] at hx
    · intro x hx; simp [backward_loop, backward_calls] at hx
    · intro x hx; simp [backward_loop, backward_calls] at hx
  | succ n ih =>
    intro g ht hacc
    obtain ⟨r1, r2, r3⟩ := backward_step_round n g hacc
    have hframe := backward_step_frame n g
    have hlt : ∀ y, Active g (g.pending (n + 1)) y → y < n + 1 :=
      fun y hy => active_lt g ht _ (n + 1) (fun i hi => hi.1) y hy
    have hmem1 : ∀ x ∈ backward_calls (backward_step n g).log, x = n ∧ g.grad_at n ≠ none := by
      intro x hx
      rcases r2 with h | ⟨h, hg⟩
      · rw [h] at hx; cases hx
      · rw [h] at hx
        exact ⟨by simpa using hx, hg⟩
    have hpw1 : (backward_calls (backward_step n g).log).Pairwise (fun x y => x > y) := by
      rcases r2 with h | ⟨h, _⟩ <;> rw [h] <;> simp
    simp only [backward_loop]
    cases hr : (backward_step n g).ret with
    | error e =>
      simp only
      refine ⟨r1, ?_, ?_, (fun h => by cases h), hpw1, ?_⟩
      · intro x hx
        obtain ⟨h1, h2⟩ := hmem1 x hx
        exact Active.seed ⟨by omega, h1 ▸ h2⟩
      · intro x hx y hxy hy
        have := (hmem1 x hx).1
        have := hlt y hy
        omega
      · intro x hx
        have := (hmem1 x hx).1
        omega
    | ok u =>
      simp only
      obtain ⟨s1, s2⟩ := r3 hr
      have ht1 : (backward_step n g).g.Topological := topological_of_map_nodes_eq hframe ht
      have hacc1 : (backward_step n g).g.Accumulating := accumulating_of_map_nodes_eq hframe hacc
      obtain ⟨i1, i2, i3, i4, i5, i6⟩ := ih (backward_step n g).g ht1 hacc1
      have hE := active_after_round n g (backward_step n g).g ht hframe s2
      refine ⟨?_, ?_, ?_, ?_, ?_, ?_⟩
      · rw [forward_calls_append, r1, i1]; rfl
      · intro x hx
        rw [backward_calls_append, List.mem_append] at hx
        rcases hx with hx | hx
        · obtain ⟨h1, h2⟩ := hmem1 x hx
          exact Active.seed ⟨by omega, h1 ▸ h2⟩
        · exact (hE x).mpr (Or.inr (i2 x hx))
      · intro x hx y hxy hy
        rw [backward_calls_append, List.mem_append] at hx ⊢
        rcases hx with hx | hx
        · have := (hmem1 x hx).1
          have := hlt y hy
          omega
        · rcases (hE y).mp hy with ⟨h1, h2⟩ | h
          · left
            rw [s1 h2, h1]
            simp
          · exact Or.inr (i3 x hx y hxy h)
      · intro hok x hx
        rw [backward_calls_append, List.mem_append]
        rcases (hE x).mp hx with ⟨h1, h2⟩ | h
        · left
          rw [s1 h2, h1]
          simp
        · exact Or.inr (i4 hok x h)
      · rw [backward_calls_append, List.pairwise_append]
        refine ⟨hpw1, i5, ?_⟩
        intro x hx y hy
        have := (hmem1 x hx).1
        have := i6 y hy
        omega
      · intro x hx
        rw [backward_calls_append, List.mem_append] at hx
        rcases hx with hx | hx
        · have := (hmem1 x hx).1
          omega
        · have := i6 x hx
          omega

theorem forward_changes_values_only {α : Type} (g : Graph α) (node : Node) :
    (g.forward node).g.erase_values = g.erase_values ∧
      backward_calls (g.forward node).log = [] := by
  unfold Graph.forward
  cases g.CHECK_NODE node with
  | some e => exact ⟨rfl, rfl⟩
  | none =>
    obtain ⟨h1, _, _, h4⟩ := forward_recursive_frame g.funcs_.length node.fid_ g
    exact ⟨h1, h4⟩

/-- The shape of a `backward` call: it fails before the sweep and invokes no backward
contract, or it runs the sweep from the step of the node on a graph that differs from
the given one in values and in the seeded gradient only. -/
theorem backward_sweep_form {α : Type} [Zero α] [One α] (g : Graph α) (node : Node) :
    (backward_calls (g.backward node).log = [] ∧ ∀ u, (g.backward node).ret ≠ Except.ok u) ∨
      ∃ (gf : Graph α) (t : Tensor α), gf.erase_values = g.erase_values ∧
        backward_calls (g.backward node).log =
          backward_calls (backward_loop (node.fid_ + 1)
            (gf.set_grad ⟨node.fid_, node.vid_⟩ (some t))).log ∧
        (g.backward node).ret =
          (backward_loop (node.fid_ + 1) (gf.set_grad ⟨node.fid_, node.vid_⟩ (some t))).ret := by
  unfold Graph.backward
  cases hc : g.CHECK_NODE node with
  | some e => exact Or.inl ⟨rfl, fun u h => by cases h⟩
  | none =>
    simp only
    cases hf : g.funcs_[node.fid_]? with
    | none => exact Or.inl ⟨rfl, fun u h => by cases h⟩
    | some f =>
      simp only
      cases hn : f.rets[node.vid_]? with
      | none => exact Or.inl ⟨rfl, fun u h => by cases h⟩
      | some n =>
        simp only
        cases hv : value_or_inner f n with
        | some v =>
          exact Or.inr ⟨g, n.device.new_tensor v.shape 1, rfl, rfl, rfl⟩
        | none =>
          simp only
          obtain ⟨k1, k2⟩ := forward_changes_values_only g node
          cases hr : (g.forward node).ret with
          | error e => exact Or.inl ⟨k2, fun u h => by cases h⟩
          | ok v =>
            simp only
            cases ha : (g.forward node).g.ACCESS node with
            | none => exact Or.inl ⟨k2, fun u h => by cases h⟩
            | some n1 =>
              simp only
              cases hv1 : n1.value with
              | none => exact Or.inl ⟨k2, fun u h => by cases h⟩
              | some v1 =>
                refine Or.inr ⟨(g.forward node).g, n1.device.new_tensor v1.shape 1, k1, ?_, rfl⟩
                simp only [seed_and_sweep]
                rw [backward_calls_append, k2]
                rfl

theorem pairwise_gt_sublist (l : List Nat) (hp : l.Pairwise (fun x y => x > y)) (j i : Nat)
    (hj : j ∈ l) (hi : i ∈ l) (hlt : i < j) : List.Sublist [j, i] l := by
  induction l with
  | nil => cases hj
  | cons x rest ih =>
    rw [List.pairwise_cons] at hp
    rcases List.mem_cons.mp hj with hj | hj
    · subst hj
      rcases List.mem_cons.mp hi with hi | hi
      · omega
      · exact List.Sublist.cons₂ _ (List.singleton_sublist.mpr hi)
    · rcases List.mem_cons.mp hi with hi | hi
      · have := hp.1 j hj
        omega
      · exact List.Sublist.cons _ (ih hp.2 hj hi)

/-- The backward contracts a `backward` call invokes, on a topological graph whose
backward contracts keep the gradients they are handed valid. -/
theorem backward_calls_spec {α : Type} [Zero α] [One α] (g : Graph α) (ht : g.Topological)
    (hacc : g.Accumulating) (node : Node) (hv : g.CHECK_NODE node = none) :
    (backward_calls (g.backward node).log).Pairwise (fun x y => x > y) ∧
      (∀ x ∈ backward_calls (g.backward node).log, ∀ y, x < y → DependsOn g node.fid_ y →
        y ∈ backward_calls (g.backward node).log) ∧
      ((∀ a, g.grad_heap a = none) →
        ∀ x ∈ backward_calls (g.backward node).log, DependsOn g node.fid_ x) ∧
      ((g.backward node).ret = Except.ok () →
        ∀ x, DependsOn g node.fid_ x → x ∈ backward_calls (g.backward node).log) := by
  rcases backward_sweep_form g node with ⟨h1, h2⟩ | ⟨gf, t, hfr, hlog, hret⟩
  · rw [h1]
    refine ⟨List.Pairwise.nil, ?_, ?_, fun h => absurd h (h2 ())⟩
    · intro x hx; cases hx
    · intro _ x hx; cases hx
  · rw [hlog, hret]
    have hfr2 : (gf.set_grad ⟨node.fid_, node.vid_⟩ (some t)).erase_grads = gf.erase_grads :=
      map_nodes_set_grad _ _ _
    have htf : gf.Topological := topological_of_map_nodes_eq hfr ht
    have hts := topological_of_map_nodes_eq hfr2 htf
    have haccs := accumulating_of_map_nodes_eq hfr2 (accumulating_of_map_nodes_eq hfr hacc)
    obtain ⟨_, p2, p3, p4, p5, _⟩ := backward_loop_path (node.fid_ + 1) _ hts haccs
    have hcf : gf.CHECK_NODE node = none := by
      rw [check_node_of_map_nodes_eq hfr]; exact hv
    obtain ⟨_, f, hf, hvid⟩ := (check_node_none gf node).mp hcf
    have hvid0 : node.vid_ = 0 := by
      have := (htf node.fid_ f hf).1
      omega
    obtain ⟨_, ni, _, _, hacs⟩ := access_of_check_node gf node hcf
    have hnode : (node_at gf.funcs_ node.fid_ 0).isSome = true := by
      simp only [Graph.ACCESS, hvid0] at hacs
      rw [hacs]; rfl
    have hseed : (gf.set_grad ⟨node.fid_, node.vid_⟩ (some t)).grad_at node.fid_ = some t := by
      rw [hvid0]
      exact grad_heap_set_grad_self gf ⟨node.fid_, 0⟩ (some t) hnode
    have hto : ∀ y, DependsOn g node.fid_ y →
        Active (gf.set_grad ⟨node.fid_, node.vid_⟩ (some t))
          ((gf.set_grad ⟨node.fid_, node.vid_⟩ (some t)).pending (node.fid_ + 1)) y := by
      intro y hy
      have h1 := active_of_map_nodes_eq hfr.symm _ y hy
      have h2 := active_of_map_nodes_eq hfr2.symm _ y h1
      apply active_mono _ _ _ _ y h2
      intro i hi
      rw [hi]
      exact Active.seed ⟨Nat.lt_succ_self _, by rw [hseed]; simp⟩
    refine ⟨p5, ?_, ?_, ?_⟩
    · intro x hx y hxy hy
      exact p3 x hx y hxy (hto y hy)
    · intro hg x hx
      have h1 := p2 x hx
      have h2 : Active (gf.set_grad ⟨node.fid_, node.vid_⟩ (some t))
          (fun k => k = node.fid_) x := by
        apply active_mono _ _ _ _ x h1
        intro i ⟨_, hi⟩
        by_cases hifid : i = node.fid_
        · exact Active.seed hifid
        · exfalso
          apply hi
          simp only [Graph.grad_at]
          have hne : (⟨i, 0⟩ : Address) ≠ ⟨node.fid_, node.vid_⟩ := by
            intro h
            exact hifid (congrArg Address.fid h)
          rw [grad_heap_set_grad, if_neg hne, grad_heap_of_erase_values_eq hfr]
          exact hg _
      exact active_of_map_nodes_eq hfr _ x (active_of_map_nodes_eq hfr2 _ x h2)
    · intro hok x hx
      exact p4 hok x (hto x hx)

theorem accumulate_keeps (heap : GradHeap Int) (p a : Address) (t : Tensor Int)
    (h : heap a ≠ none) : Scenario.accumulate heap p t a ≠ none := by
  unfold Scenario.accumulate
  split
  · rename_i e
    rw [← e]
    cases hx : heap a with
    | none => exact absurd hx h
    | some x => simp
  · exact h

theorem foldl_accumulate_keeps (a : Address) (f : Tensor Int → Tensor Int) (t : Tensor Int) :
    ∀ (ptrs : List Address) (heap : GradHeap Int), heap a ≠ none →
      ptrs.foldl (fun h p => Scenario.accumulate h p (f t)) heap a ≠ none := by
  intro ptrs
  induction ptrs with
  | nil => intro heap h; exact h
  | cons p rest ih =>
    intro heap h
    simp only [List.foldl_cons]
    exact ih _ (accumulate_keeps heap p a (f t) h)

/-- The operations of the diamond scenario keep the gradients they are handed valid. -/
theorem accumulating_gAC : Scenario.gAC.Accumulating := by
  intro i f hf cv cg avs ptrs heap a _ hne
  match i, hf with
  | 0, hf =>
    have h0 : Scenario.gAC.funcs_[0]? =
        some ⟨Scenario.input (Scenario.vec [1]), [],
          [⟨⟨[1], 1⟩, Scenario.D0, none, none, [1, 1]⟩]⟩ := rfl
    rw [h0] at hf
    cases hf
    exact hne
  | 1, hf =>
    have h1 : Scenario.gAC.funcs_[1]? =
        some ⟨Scenario.add, [⟨0, 0⟩, ⟨0, 0⟩], [⟨⟨[1], 1⟩, Scenario.D0, none, none, []⟩]⟩ := rfl
    rw [h1] at hf
    cases hf
    exact foldl_accumulate_keeps a (fun x => x) cg ptrs heap hne
  | n + 2, hf =>
    have h2 : Scenario.gAC.funcs_[n + 2]? = none := rfl
    rw [h2] at hf
    cases hf

theorem no_gradients_gAC : ∀ a, Scenario.gAC.grad_heap a = none := by
  intro a
  obtain ⟨fid, vid⟩ := a
  match fid, vid with
  | 0, 0 => rfl
  | 1, 0 => rfl
  | _ + 2, _ => rfl
  | 0, _ + 1 => rfl
  | 1, _ + 1 => rfl

/-- C16, amended. On a reachable graph in which all gradient slots are empty and whose
backward contracts keep the gradients they are handed valid, and for a node that passes
the check: `backward(node)` invokes backward contracts in strictly decreasing order of
step id, so of no step twice, and only of steps that are the step of `node` or are
reached from it by following argument addresses. When `backward(node)` returns, the
backward contract of a step is invoked if and only if the step is the step of `node` or
is reached from it by following argument addresses, each such step is processed exactly
once, and every gradient slot is empty, those of the skipped steps included. -/
theorem backward_dependency_path {α : Type} [Zero α] [One α] (g : Graph α) (hr : Reachable g)
    (hacc : g.Accumulating) (hg : ∀ a, g.grad_heap a = none) (node : Node)
    (hv : g.valid node) :
    (∀ x ∈ backward_calls (g.backward node).log, DependsOn g node.fid_ x) ∧
      (backward_calls (g.backward node).log).Pairwise (fun x y => x > y) ∧
      ((g.backward node).ret = Except.ok () →
        (∀ x, x ∈ backward_calls (g.backward node).log ↔ DependsOn g node.fid_ x) ∧
        (∀ x, DependsOn g node.fid_ x → (backward_calls (g.backward node).log).count x = 1) ∧
        (∀ a, (g.backward node).g.grad_heap a = none)) := by
  obtain ⟨ht, hm⟩ := invariants_of_reachable hr
  obtain ⟨p1, _, p3, p4⟩ := backward_calls_spec g ht hacc node hv
  refine ⟨p3 hg, p1, fun hok => ⟨fun x => ⟨p3 hg x, p4 hok x⟩, ?_, ?_⟩⟩
  · intro x hx
    have hnd : (backward_calls (g.backward node).log).Nodup :=
      p1.imp (fun h => Nat.ne_of_gt h)
    exact List.count_eq_one_of_mem hnd (p4 hok x hx)
  · intro a
    rw [backward_eq_forward g ht hm hg node hok, forward_grad_heap g ht hm node a]
    exact hg a

theorem backward_dependency_path_witness :
    Reachable Scenario.gAC ∧ Scenario.gAC.Accumulating ∧
      (∀ a, Scenario.gAC.grad_heap a = none) ∧ Scenario.gAC.valid Scenario.nC ∧
      (Scenario.gAC.backward Scenario.nC).ret = Except.ok () ∧
      backward_calls (Scenario.gAC.backward Scenario.nC).log = [1, 0] ∧
      ((∀ x ∈ backward_calls (Scenario.gAC.backward Scenario.nC).log,
          DependsOn Scenario.gAC Scenario.nC.fid_ x) ∧
      (backward_calls (Scenario.gAC.backward Scenario.nC).log).Pairwise (fun x y => x > y) ∧
      ((Scenario.gAC.backward Scenario.nC).ret = Except.ok () →
        (∀ x, x ∈ backward_calls (Scenario.gAC.backward Scenario.nC).log ↔
          DependsOn Scenario.gAC Scenario.nC.fid_ x) ∧
        (∀ x, DependsOn Scenario.gAC Scenario.nC.fid_ x →
          (backward_calls (Scenario.gAC.backward Scenario.nC).log).count x = 1) ∧
        (∀ a, (Scenario.gAC.backward Scenario.nC).g.grad_heap a = none))) :=
  have hr : Reachable Scenario.gAC :=
    Reachable.add_function _ _ (Reachable.add_function _ _ (Reachable.empty 1))
  ⟨hr, accumulating_gAC, no_gradients_gAC, rfl, rfl, by decide,
    backward_dependency_path Scenario.gAC hr accumulating_gAC no_gradients_gAC Scenario.nC rfl⟩

theorem depends_on_gReset : DependsOn Scenario.gReset Scenario.nE.fid_ 1 := by
  have h3 : ∃ f, Scenario.gReset.funcs_[3]? = some f ∧ (⟨2, 0⟩ : Address) ∈ f.args :=
    ⟨⟨Scenario.add, [⟨2, 0⟩, ⟨0, 0⟩], [⟨⟨[1], 1⟩, Scenario.D0, none, none, []⟩]⟩, rfl,
      by decide⟩
  have h2 : ∃ f, Scenario.gReset.funcs_[2]? = some f ∧ (⟨1, 0⟩ : Address) ∈ f.args :=
    ⟨⟨Scenario.resetting, [⟨1, 0⟩], [⟨⟨[1], 1⟩, Scenario.D0, none, none, [3]⟩]⟩, rfl,
      by decide⟩
  obtain ⟨f3, hf3, hm3⟩ := h3
  obtain ⟨f2, hf2, hm2⟩ := h2
  exact Active.arg f2 ⟨1, 0⟩ (Active.arg f3 ⟨2, 0⟩ (Active.seed rfl) hf3 hm3) hf2 hm2

/-- C16 as stated fails, in two ways. With `A = input([1])` and `B = failing(A)`, where
the backward contract of `B` raises an error, `backward(B)` invokes the backward contract
of step 1 only and ends with that error: step 0 is reached from `B` by an argument
address and its backward contract is not invoked. With `A = input([1])`, `B = double(A)`,
`C = resetting(B)` and `E = add(C, A)`, where the backward contract of `C` resets the
gradient of `B`, `backward(E)` returns after it has invoked the backward contracts of the
steps 3, 2 and 0: step 1 is reached from `E` and is skipped. -/
theorem backward_skips_reached_steps :
    (Reachable Scenario.gFail ∧ Scenario.gFail.valid Scenario.nB ∧
      Scenario.gFail.grad_at 0 = none ∧ Scenario.gFail.grad_at 1 = none ∧
      DependsOn Scenario.gFail Scenario.nB.fid_ 0 ∧
      (Scenario.gFail.backward Scenario.nB).ret = Except.error Failure.functionError ∧
      backward_calls (Scenario.gFail.backward Scenario.nB).log = [1] ∧
      0 ∉ backward_calls (Scenario.gFail.backward Scenario.nB).log) ∧
    (Reachable Scenario.gReset ∧ Scenario.gReset.valid Scenario.nE ∧
      Scenario.gReset.grad_at 0 = none ∧ Scenario.gReset.grad_at 1 = none ∧
      Scenario.gReset.grad_at 2 = none ∧ Scenario.gReset.grad_at 3 = none ∧
      DependsOn Scenario.gReset Scenario.nE.fid_ 1 ∧
      (Scenario.gReset.backward Scenario.nE).ret = Except.ok () ∧
      backward_calls (Scenario.gReset.backward Scenario.nE).log = [3, 2, 0] ∧
      1 ∉ backward_calls (Scenario.gReset.backward Scenario.nE).log) := by
  refine ⟨⟨Reachable.add_function _ _ (Reachable.add_function _ _ (Reachable.empty 1)),
    rfl, rfl, rfl, ?_, rfl, by decide, by decide⟩,
    ⟨Reachable.add_function _ _ (Reachable.add_function _ _
      (Reachable.add_function _ _ (Reachable.add_function _ _ (Reachable.empty 1)))),
    rfl, rfl, rfl, rfl, rfl, depends_on_gReset, rfl, by decide, by decide⟩⟩
  exact Active.arg ⟨Scenario.failing, [⟨0, 0⟩], [⟨⟨[1], 1⟩, Scenario.D0, none, none, []⟩]⟩
    ⟨0, 0⟩ (Active.seed rfl) rfl (by simp)

/-- The gradient completeness at visit time rests on the contract that the backward
contracts accumulate: with `A = input([1])`, `B = double(A)`, `C = resetting(B)` and
`E = add(C, A)`, where the backward contract of `C`, against that contract, resets the
gradient of `B`, `backward(E)` invokes the backward contract of step 0 (`A`) although
step 1 (`B`), which is on the dependency path of `E` and has `(0, 0)` among its
arguments, has not had its backward contract invoked. -/
theorem consumer_skipped_before_visit :
    Reachable Scenario.gReset ∧ Scenario.gReset.valid Scenario.nE ∧
      DependsOn Scenario.gReset Scenario.nE.fid_ 1 ∧
      Scenario.gReset.funcs_[1]? =
        some ⟨Scenario.double, [⟨0, 0⟩], [⟨⟨[1], 1⟩, Scenario.D0, none, none, [2]⟩]⟩ ∧
      0 ∈ backward_calls (Scenario.gReset.backward Scenario.nE).log ∧
      1 ∉ backward_calls (Scenario.gReset.backward Scenario.nE).log ∧
      ¬ List.Sublist [1, 0] (backward_calls (Scenario.gReset.backward Scenario.nE).log) := by
  refine ⟨Reachable.add_function _ _ (Reachable.add_function _ _
      (Reachable.add_function _ _ (Reachable.add_function _ _ (Reachable.empty 1)))),
    rfl, depends_on_gReset, rfl, by decide, by decide, ?_⟩
  intro h
  have := h.subset (List.mem_cons_self 1 [0])
  revert this
  decide

/-! ## Repeated calls of forward -/

theorem extends_refl {α : Type} (g : Graph α) : g.Extends g :=
  ⟨rfl, fun _ f hf => ⟨f, hf, rfl, rfl, rfl⟩, fun _ _ h => h⟩

theorem extends_trans {α : Type} {g g1 g2 : Graph α} (h1 : g.Extends g1)
    (h2 : g1.Extends g2) : g.Extends g2 := by
  obtain ⟨a1, f1, v1⟩ := h1
  obtain ⟨a2, f2, v2⟩ := h2
  refine ⟨a2.trans a1, ?_, fun i v h => v2 i v (v1 i v h)⟩
  intro i f hf
  obtain ⟨fa, hfa, e1, e2, e3⟩ := f1 i f hf
  obtain ⟨fb, hfb, e4, e5, e6⟩ := f2 i fa hfa
  exact ⟨fb, hfb, e4.trans e1, e5.trans e2, e6.trans e3⟩

theorem extends_of_map_nodes_eq {α : Type} {h : NodeInfo α → NodeInfo α} {g g1 : Graph α}
    (e : g1.map_nodes h = g.map_nodes h)
    (hv : ∀ (i : Nat) (v : Tensor α), g.value_at i = some v → g1.value_at i = some v) :
    g.Extends g1 := by
  refine ⟨addr_of_map_nodes_eq e, ?_, hv⟩
  intro i f hf
  obtain ⟨f1, hf1, hfun, hargs, hr⟩ := funcs_of_map_nodes_eq e.symm i f hf
  have hl := congrArg List.length hr
  simp only [List.length_map] at hl
  exact ⟨f1, hf1, hfun, hargs, hl⟩

theorem value_at_of_erase_sinks_eq {α : Type} {g g1 : Graph α}
    (e : g1.erase_sinks = g.erase_sinks) (i : Nat) : g1.value_at i = g.value_at i := by
  have := node_at_of_map_nodes_eq e i 0
  unfold Graph.value_at
  cases h1 : node_at g1.funcs_ i 0 <;> cases h2 : node_at g.funcs_ i 0 <;>
    simp [h1, h2] at this ⊢
  exact this.2.2.1

theorem extends_add_function {α : Type} (g : Graph α) (func : Function α) (args : List Node) :
    g.Extends (g.add_function func args).g := by
  rcases add_function_cases g func args with ⟨e, h, _⟩ | ⟨addrs, shapes, s, d, hg, _, _, h⟩
  · rw [h]; exact extends_refl g
  · rw [h]
    simp only
    have hs := erase_sinks_register g g.funcs_.length addrs
    obtain ⟨_, hfun, hval⟩ := extends_of_map_nodes_eq hs
      (fun i v hv => by rw [value_at_of_erase_sinks_eq hs]; exact hv)
    refine ⟨rfl, ?_, ?_⟩
    · intro i f hf
      obtain ⟨f1, hf1, r⟩ := hfun i f hf
      have hi : i < (addrs.foldl (register_sink g.funcs_.length) g.funcs_).length :=
        (List.getElem?_eq_some.mp hf1).1
      refine ⟨f1, ?_, r⟩
      rw [List.getElem?_append_left hi]
      exact hf1
    · intro i v hv
      have h1 := hval i v hv
      have hi : i < (addrs.foldl (register_sink g.funcs_.length) g.funcs_).length := by
        simp only [Graph.value_at, node_at] at h1
        cases hx : (addrs.foldl (register_sink g.funcs_.length) g.funcs_)[i]? with
        | none => rw [hx] at h1; simp at h1
        | some x => exact (List.getElem?_eq_some.mp hx).1
      simp only [Graph.value_at, node_at] at h1 ⊢
      rw [List.getElem?_append_left hi]
      exact h1

theorem extends_forward {α : Type} (g : Graph α) (ht : g.Topological) (hm : g.MemoOK)
    (node : Node) : g.Extends (g.forward node).g := by
  cases hv : g.CHECK_NODE node with
  | some e =>
    simp only [Graph.forward, hv]
    exact extends_refl g
  | none =>
    obtain ⟨hrun, _, _⟩ := forward_spec g ht hm node hv
    exact extends_of_map_nodes_eq hrun.frame hrun.mono

theorem extends_backward {α : Type} [Zero α] [One α] (g : Graph α) (ht : g.Topological)
    (hm : g.MemoOK) (node : Node) : g.Extends (g.backward node).g := by
  rcases backward_frame g node with e | e
  · exact extends_of_map_nodes_eq e (fun i v hv => by rw [value_at_of_erase_grads_eq e]; exact hv)
  · exact extends_trans (extends_forward g ht hm node)
      (extends_of_map_nodes_eq e (fun i v hv => by rw [value_at_of_erase_grads_eq e]; exact hv))

theorem reachable_apply {α : Type} [Zero α] [One α] {g : Graph α} (hr : Reachable g)
    (c : GraphCall α) : Reachable (GraphCall.apply g c) := by
  cases c with
  | add_function func args => exact Reachable.add_function func args hr
  | forward node => exact Reachable.forward node hr
  | backward node => exact Reachable.backward node hr

theorem extends_apply {α : Type} [Zero α] [One α] {g : Graph α} (hr : Reachable g)
    (c : GraphCall α) : g.Extends (GraphCall.apply g c) := by
  obtain ⟨ht, hm⟩ := invariants_of_reachable hr
  cases c with
  | add_function func args => exact extends_add_function g func args
  | forward node => exact extends_forward g ht hm node
  | backward node => exact extends_backward g ht hm node

theorem after_calls_spec {α : Type} [Zero α] [One α] (calls : List (GraphCall α)) :
    ∀ (g : Graph α), Reachable g → Reachable (g.after_calls calls) ∧
      g.Extends (g.after_calls calls) := by
  induction calls with
  | nil => intro g hr; exact ⟨hr, extends_refl g⟩
  | cons c rest ih =>
    intro g hr
    obtain ⟨h1, h2⟩ := ih (GraphCall.apply g c) (reachable_apply hr c)
    exact ⟨h1, extends_trans (extends_apply hr c) h2⟩

theorem check_node_of_extends {α : Type} {g g1 : Graph α} (h : g.Extends g1) (n : Node)
    (hv : g.CHECK_NODE n = none) : g1.CHECK_NODE n = none := by
  obtain ⟨hg, f, hf, hlt⟩ := (check_node_none g n).mp hv
  obtain ⟨f1, hf1, _, _, hl⟩ := h.2.1 n.fid_ f hf
  exact (check_node_none g1 n).mpr ⟨by rw [h.1]; exact hg, f1, hf1, by rw [hl]; exact hlt⟩

theorem eval_of_extends {α : Type} {g g1 : Graph α} (h : g.Extends g1) (ht : g.Topological)
    (i : Nat) (hi : i < g.funcs_.length) : g1.eval i = g.eval i := by
  unfold Graph.eval
  apply eval_fuel_congr g g1 (i + 1) ht _ (i + 1) i (by omega)
  intro j hj
  have hjl : j < g.funcs_.length := by omega
  have hf : g.funcs_[j]? = some g.funcs_[j] := List.getElem?_eq_getElem hjl
  obtain ⟨f1, hf1, hfun, hargs, _⟩ := h.2.1 j _ hf
  simp [hf, hf1, hfun, hargs]

theorem settled_of_extends {α : Type} {g g1 : Graph α} (h : g.Extends g1) {fid : Nat}
    {v : Tensor α} (hs : Settled g fid v) : Settled g1 fid v := by
  obtain ⟨f, n, hf, hn, hc⟩ := hs
  obtain ⟨f1, hf1, hfun, _, hl⟩ := h.2.1 fid f hf
  have hlen : 0 < f1.rets.length := by
    rw [hl]
    exact (List.getElem?_eq_some.mp hn).1
  have hn1 : f1.rets[0]? = some f1.rets[0] := List.getElem?_eq_getElem hlen
  refine ⟨f1, _, hf1, hn1, ?_⟩
  rcases hc with hc | ⟨hc1, hc2⟩
  · exact Or.inl (by rw [hfun]; exact hc)
  · refine Or.inr ⟨by rw [hfun]; exact hc1, ?_⟩
    have h1 : g.value_at fid = some v := by rw [value_at_eq_of_getElem? hf hn]; exact hc2
    have h2 := h.2.2 fid v h1
    rw [value_at_eq_of_getElem? hf1 hn1] at h2
    exact h2

theorem settled_after_forward {α : Type} (g : Graph α) (ht : g.Topological) (hm : g.MemoOK)
    (node : Node) (hv : g.CHECK_NODE node = none) (v : Tensor α)
    (hret : (g.forward node).ret = Except.ok v) : Settled (g.forward node).g node.fid_ v := by
  obtain ⟨_, f, hf, _⟩ := (check_node_none g node).mp hv
  have hlen : node.fid_ < g.funcs_.length := (List.getElem?_eq_some.mp hf).1
  simp only [Graph.forward, hv] at hret ⊢
  exact forward_recursive_settled _ _ g ht hm hlen hlen v hret

theorem forward_of_settled {α : Type} (g : Graph α) (node : Node)
    (hv : g.CHECK_NODE node = none) (v : Tensor α) (hs : Settled g node.fid_ v) :
    g.forward node = ⟨Except.ok v, g, []⟩ := by
  obtain ⟨_, f, hf, _⟩ := (check_node_none g node).mp hv
  have hlen : node.fid_ < g.funcs_.length := (List.getElem?_eq_some.mp hf).1
  simp only [Graph.forward, hv]
  cases hk : g.funcs_.length with
  | zero => omega
  | succ k => exact settled_forward_recursive hs k

/-- C3 as stated fails: with `A = input([1])` and `B = broken(A)`, where the forward
contract of `B` raises an error, the first `forward(B)` invokes the forward contracts of
the steps 0 and 1 and fails, and the second `forward(B)` invokes the forward contract of
step 1 again: the second call invokes a forward contract, and over both calls the forward
contract of step 1 is invoked twice. -/
theorem failed_forward_is_repeated :
    Reachable Scenario.gBroken ∧ Scenario.gBroken.valid Scenario.nB ∧
      (Scenario.gBroken.forward Scenario.nB).ret = Except.error Failure.functionError ∧
      forward_calls (Scenario.gBroken.forward Scenario.nB).log = [0, 1] ∧
      ((Scenario.gBroken.forward Scenario.nB).g.forward Scenario.nB).ret =
        Except.error Failure.functionError ∧
      forward_calls ((Scenario.gBroken.forward Scenario.nB).g.forward Scenario.nB).log = [1] ∧
      (forward_calls ((Scenario.gBroken.forward Scenario.nB).log ++
        ((Scenario.gBroken.forward Scenario.nB).g.forward Scenario.nB).log)).count 1 = 2 :=
  ⟨Reachable.add_function _ _ (Reachable.add_function _ _ (Reachable.empty 1)), rfl, rfl,
    by decide, rfl, by decide, by decide⟩

/-- C3, amended. Forward is idempotent and computes once when it returns: on every
reachable graph and for every node that passes the check, a second `forward(node)` that
follows the first after any calls of `add_function`, `forward` and `backward` (on any
nodes, returning or failing) but no `clear()` ends as the first did: it returns the
identical value, or it fails as the first did. In the first call the forward contract of
each step is invoked at most once (also for a step reached through several arguments).
When the first call returned a value, the second call invokes no contract of an operation
and leaves the graph as it is, so that over both calls the forward contract of each step
is invoked at most once. -/
theorem forward_idempotent {α : Type} [Zero α] [One α] (g : Graph α) (hr : Reachable g)
    (node : Node) (hv : g.valid node) (calls : List (GraphCall α)) :
    (((g.forward node).g.after_calls calls).forward node).ret = (g.forward node).ret ∧
      (∀ i, (forward_calls (g.forward node).log).count i ≤ 1) ∧
      ((∃ v, (g.forward node).ret = Except.ok v) →
        (((g.forward node).g.after_calls calls).forward node).log = [] ∧
        (((g.forward node).g.after_calls calls).forward node).g =
          (g.forward node).g.after_calls calls ∧
        ∀ i, (forward_calls ((g.forward node).log ++
          (((g.forward node).g.after_calls calls).forward node).log)).count i ≤ 1) := by
  obtain ⟨ht, hm⟩ := invariants_of_reachable hr
  obtain ⟨hrun, hret, _⟩ := forward_spec g ht hm node hv
  have ht1 := forward_run_topological hrun ht
  have hc1 : (g.forward node).g.CHECK_NODE node = none := by
    rw [check_node_of_map_nodes_eq hrun.frame]; exact hv
  obtain ⟨hr2, hext⟩ := after_calls_spec calls (g.forward node).g (Reachable.forward node hr)
  have hc2 := check_node_of_extends hext node hc1
  obtain ⟨ht2, hm2⟩ := invariants_of_reachable hr2
  obtain ⟨_, hret2, _⟩ := forward_spec _ ht2 hm2 node hc2
  obtain ⟨_, f1, hf1, _⟩ := (check_node_none _ node).mp hc1
  have hlen1 : node.fid_ < (g.forward node).g.funcs_.length := (List.getElem?_eq_some.mp hf1).1
  have hcount := List.nodup_iff_count_le_one.mp hrun.log_nodup
  refine ⟨?_, hcount, ?_⟩
  · rw [hret2, hret, eval_of_extends hext ht1 node.fid_ hlen1, forward_run_eval_eq hrun ht]
  · intro ⟨v, h1⟩
    have hs := settled_of_extends hext (settled_after_forward g ht hm node hv v h1)
    rw [forward_of_settled _ node hc2 v hs]
    refine ⟨rfl, rfl, ?_⟩
    rw [List.append_nil]
    exact hcount

theorem forward_idempotent_witness :
    Reachable Scenario.gAC ∧ Scenario.gAC.valid Scenario.nC ∧
      (Scenario.gAC.forward Scenario.nC).ret = Except.ok (Scenario.vec [2]) ∧
      forward_calls (Scenario.gAC.forward Scenario.nC).log = [0, 1] ∧
      ((((Scenario.gAC.forward Scenario.nC).g.after_calls
          [GraphCall.backward Scenario.nC, GraphCall.add_function Scenario.double [Scenario.nC],
            GraphCall.forward Scenario.nN2]).forward Scenario.nC).ret =
          (Scenario.gAC.forward Scenario.nC).ret ∧
      (∀ i, (forward_calls (Scenario.gAC.forward Scenario.nC).log).count i ≤ 1) ∧
      ((∃ v, (Scenario.gAC.forward Scenario.nC).ret = Except.ok v) →
        (((Scenario.gAC.forward Scenario.nC).g.after_calls
          [GraphCall.backward Scenario.nC, GraphCall.add_function Scenario.double [Scenario.nC],
            GraphCall.forward Scenario.nN2]).forward Scenario.nC).log = [] ∧
        (((Scenario.gAC.forward Scenario.nC).g.after_calls
          [GraphCall.backward Scenario.nC, GraphCall.add_function Scenario.double [Scenario.nC],
            GraphCall.forward Scenario.nN2]).forward Scenario.nC).g =
          (Scenario.gAC.forward Scenario.nC).g.after_calls
            [GraphCall.backward Scenario.nC,
              GraphCall.add_function Scenario.double [Scenario.nC],
              GraphCall.forward Scenario.nN2] ∧
        ∀ i, (forward_calls ((Scenario.gAC.forward Scenario.nC).log ++
          (((Scenario.gAC.forward Scenario.nC).g.after_calls
            [GraphCall.backward Scenario.nC,
              GraphCall.add_function Scenario.double [Scenario.nC],
              GraphCall.forward Scenario.nN2]).forward Scenario.nC).log)).count i ≤ 1)) :=
  ⟨Reachable.add_function _ _ (Reachable.add_function _ _ (Reachable.empty 1)), rfl, rfl,
    by decide,
    forward_idempotent Scenario.gAC
      (Reachable.add_function _ _ (Reachable.add_function _ _ (Reachable.empty 1)))
      Scenario.nC rfl _⟩

/-! ## Forward values in the backward sweep -/

theorem value_or_inner_ne_none {α : Type} (f : FunctionInfo α) (n : NodeInfo α) :
    value_or_inner f n ≠ none ↔ (n.value ≠ none ∨ f.func.get_inner_value ≠ none) := by
  unfold value_or_inner
  cases n.value with
  | none => simp
  | some v => simp

theorem available_of_extends {α : Type} {g g1 : Graph α} (h : g.Extends g1) (i : Nat)
    (ha : g.available i) : g1.available i := by
  obtain ⟨f, n, hf, hn, hv⟩ := ha
  obtain ⟨f1, hf1, hfun, _, hl⟩ := h.2.1 i f hf
  have hlen : 0 < f1.rets.length := by
    rw [hl]
    exact (List.getElem?_eq_some.mp hn).1
  have hn1 : f1.rets[0]? = some f1.rets[0] := List.getElem?_eq_getElem hlen
  refine ⟨f1, _, hf1, hn1, ?_⟩
  rw [value_or_inner_ne_none] at hv ⊢
  rcases hv with hv | hv
  · left
    cases hval : n.value with
    | none => exact absurd hval hv
    | some v =>
      have h1 : g.value_at i = some v := by rw [value_at_eq_of_getElem? hf hn]; exact hval
      have h2 := h.2.2 i v h1
      rw [value_at_eq_of_getElem? hf1 hn1] at h2
      rw [h2]
      simp
  · right
    rw [hfun]
    exact hv

theorem extends_of_erase_grads_eq {α : Type} {g g1 : Graph α}
    (e : g1.erase_grads = g.erase_grads) : g.Extends g1 :=
  extends_of_map_nodes_eq e (fun i v hv => by rw [value_at_of_erase_grads_eq e]; exact hv)

theorem available_congr {α : Type} {g g1 : Graph α} (e : g1.erase_grads = g.erase_grads)
    (i : Nat) : g1.available i ↔ g.available i :=
  ⟨available_of_extends (extends_of_erase_grads_eq e.symm) i,
    available_of_extends (extends_of_erase_grads_eq e) i⟩

theorem memo_args_of_erase_grads_eq {α : Type} {g g1 : Graph α}
    (e : g1.erase_grads = g.erase_grads) (h : g.MemoArgs) : g1.MemoArgs := by
  intro i f1 hf1 hv a ha
  obtain ⟨f, hf, _, hargs, _⟩ := funcs_of_map_nodes_eq e i f1 hf1
  rw [value_at_of_erase_grads_eq e] at hv
  rw [available_congr e]
  exact h i f hf hv a (by rw [hargs]; exact ha)

theorem source_inner_of_map_nodes_eq {α : Type} {h : NodeInfo α → NodeInfo α} {g g1 : Graph α}
    (e : g1.map_nodes h = g.map_nodes h) (hs : g.SourceInner) : g1.SourceInner := by
  intro i f1 hf1 hin
  obtain ⟨f, hf, hfun, hargs, _⟩ := funcs_of_map_nodes_eq e i f1 hf1
  rw [← hargs]
  exact hs i f hf (by rw [hfun]; exact hin)

/-- The slots of the graph after `add_function`: those of the graph before, with their
values and gradients, and the slot of the new step, with neither. -/
theorem node_at_add_function {α : Type} (g : Graph α) (func : Function α) (args : List Node)
    (i v : Nat) (n1 : NodeInfo α)
    (h : node_at (g.add_function func args).g.funcs_ i v = some n1) :
    (∃ n, node_at g.funcs_ i v = some n ∧ n.value = n1.value ∧ n.grad = n1.grad) ∨
      (g.funcs_.length ≤ i ∧ n1.value = none ∧ n1.grad = none) := by
  rcases add_function_cases g func args with ⟨e, he, _⟩ | ⟨addrs, shapes, s, d, hg, _, _, he⟩
  · rw [he] at h
    exact Or.inl ⟨n1, h, rfl, rfl⟩
  · rw [he] at h
    simp only at h
    have hs := erase_sinks_register g g.funcs_.length addrs
    have hl : (addrs.foldl (register_sink g.funcs_.length) g.funcs_).length = g.funcs_.length :=
      length_foldl_register_sink _ _ _
    rcases Nat.lt_trichotomy i g.funcs_.length with hi | hi | hi
    · left
      have h1 := node_at_of_map_nodes_eq hs i v
      simp only [node_at] at h h1 ⊢
      rw [List.getElem?_append_left (by omega)] at h
      cases h2 : (List.foldl (register_sink g.funcs_.length) g.funcs_ addrs)[i]? with
      | none => rw [h2] at h; simp at h
      | some f1 =>
        rw [h2] at h h1
        simp only at h h1
        rw [h] at h1
        cases h4 : g.funcs_[i]? with
        | none => rw [h4] at h1; simp at h1
        | some f0 =>
          rw [h4] at h1
          simp only at h1 ⊢
          cases h5 : f0.rets[v]? with
          | none => rw [h5] at h1; simp at h1
          | some n0 =>
            rw [h5] at h1
            simp only [Option.map_some', Option.some.injEq, NodeInfo.mk.injEq] at h1
            exact ⟨n0, rfl, h1.2.2.1.symm, h1.2.2.2.1.symm⟩
    · right
      simp only [node_at] at h
      rw [List.getElem?_append_right (by omega)] at h
      have : i - (List.foldl (register_sink g.funcs_.length) g.funcs_ addrs).length = 0 := by
        omega
      rw [this] at h
      simp only [List.getElem?_cons_zero] at h
      cases v with
      | zero =>
        simp only [List.getElem?_cons_zero, Option.some.injEq] at h
        rw [← h]
        exact ⟨by omega, rfl, rfl⟩
      | succ v => simp at h
    · exfalso
      simp only [node_at] at h
      rw [List.getElem?_append_right (by omega)] at h
      have : i - (List.foldl (register_sink g.funcs_.length) g.funcs_ addrs).length =
          (i - g.funcs_.length - 1) + 1 := by omega
      rw [this] at h
      simp at h

theorem value_at_add_function {α : Type} (g : Graph α) (func : Function α) (args : List Node)
    (i : Nat) (h : (g.add_function func args).g.value_at i ≠ none) :
    g.value_at i ≠ none := by
  unfold Graph.value_at at h ⊢
  cases hn : node_at (g.add_function func args).g.funcs_ i 0 with
  | none => rw [hn] at h; exact absurd rfl h
  | some n1 =>
    rw [hn] at h
    rcases node_at_add_function g func args i 0 n1 hn with ⟨n, h1, h2, _⟩ | ⟨_, h2, _⟩
    · rw [h1]
      simp only [Option.some_bind] at h ⊢
      rw [h2]
      exact h
    · simp only [Option.some_bind] at h
      exact absurd h2 h

theorem grad_heap_add_function {α : Type} (g : Graph α) (func : Function α)
    (args : List Node) (a : Address) (h : (g.add_function func args).g.grad_heap a ≠ none) :
    g.grad_heap a ≠ none := by
  unfold Graph.grad_heap at h ⊢
  cases hn : node_at (g.add_function func args).g.funcs_ a.fid a.vid with
  | none => rw [hn] at h; exact absurd rfl h
  | some n1 =>
    rw [hn] at h
    rcases node_at_add_function g func args a.fid a.vid n1 hn with ⟨n, h1, _, h2⟩ | ⟨_, _, h2⟩
    · rw [h1]
      simp only [Option.some_bind] at h ⊢
      rw [h2]
      exact h
    · simp only [Option.some_bind] at h
      exact absurd h2 h

theorem args_add_function {α : Type} (g : Graph α) (func : Function α) (args : List Node)
    (i : Nat) (f1 : FunctionInfo α) (hf1 : (g.add_function func args).g.funcs_[i]? = some f1)
    (hi : i < g.funcs_.length) : ∃ f, g.funcs_[i]? = some f ∧ f.args = f1.args := by
  have hf : g.funcs_[i]? = some g.funcs_[i] := List.getElem?_eq_getElem hi
  obtain ⟨f2, hf2, _, hargs, _⟩ := (extends_add_function g func args).2.1 i _ hf
  rw [hf1] at hf2
  cases hf2
  exact ⟨_, hf, hargs.symm⟩

theorem memo_args_add_function {α : Type} (g : Graph α) (func : Function α)
    (args : List Node) (h : g.MemoArgs) : (g.add_function func args).g.MemoArgs := by
  intro i f1 hf1 hv a ha
  have hv0 := value_at_add_function g func args i hv
  have hi : i < g.funcs_.length := by
    unfold Graph.value_at node_at at hv0
    cases hx : g.funcs_[i]? with
    | none => rw [hx] at hv0; exact absurd rfl hv0
    | some x => exact (List.getElem?_eq_some.mp hx).1
  obtain ⟨f, hf, hargs⟩ := args_add_function g func args i f1 hf1 hi
  exact available_of_extends (extends_add_function g func args) _
    (h i f hf hv0 a (by rw [hargs]; exact ha))

theorem grad_avail_add_function {α : Type} (g : Graph α) (func : Function α)
    (args : List Node) (h : g.GradAvail) : (g.add_function func args).g.GradAvail := by
  intro a ha
  exact available_of_extends (extends_add_function g func args) _
    (h a (grad_heap_add_function g func args a ha))
theorem extends_of_forward_run {α : Type} {g g1 : Graph α} {log : List (Event α)} {b : Nat}
    (h : ForwardRun g g1 log b) : g.Extends g1 :=
  extends_of_map_nodes_eq h.frame h.mono

theorem gather_values_avail {α : Type} (rec : Nat → Graph α → Outcome α (Tensor α)) (b : Nat)
    (hspec : ∀ fid g, g.Topological → g.MemoOK → fid < b → fid < g.funcs_.length →
      ForwardRun g (rec fid g).g (rec fid g).log (fid + 1) ∧ (rec fid g).ret = g.eval fid ∧
        ((∃ v, (rec fid g).ret = Except.ok v) → Memoized (rec fid g).g (rec fid g).log))
    (havail : ∀ fid g, g.Topological → g.MemoOK → g.MemoArgs → fid < b →
      fid < g.funcs_.length →
        (rec fid g).g.MemoArgs ∧ ∀ v, (rec fid g).ret = Except.ok v → (rec fid g).g.available fid) :
    ∀ args g, g.Topological → g.MemoOK → g.MemoArgs →
      (∀ a ∈ args, a.fid < b ∧ a.fid < g.funcs_.length) →
      (gather_values rec args g).g.MemoArgs ∧
        ∀ vs, (gather_values rec args g).ret = Except.ok vs →
          ∀ a ∈ args, (gather_values rec args g).g.available a.fid := by
  intro args
  induction args with
  | nil =>
    intro g _ _ hma _
    exact ⟨hma, fun _ _ a ha => by simp at ha⟩
  | cons a rest ih =>
    intro g ht hm hma hargs
    have ha := hargs a (List.mem_cons_self _ _)
    obtain ⟨hrun1, _, _⟩ := hspec a.fid g ht hm ha.1 ha.2
    obtain ⟨hma1, hav1⟩ := havail a.fid g ht hm hma ha.1 ha.2
    have ht1 := forward_run_topological hrun1 ht
    have hl1 := forward_run_length_eq hrun1
    have hargs1 : ∀ x ∈ rest, x.fid < b ∧ x.fid < (rec a.fid g).g.funcs_.length := by
      intro x hx
      have := hargs x (List.mem_cons_of_mem _ hx)
      rw [hl1]
      exact this
    obtain ⟨hrun2, _, _⟩ :=
      gather_values_spec rec b hspec rest (rec a.fid g).g ht1 hrun1.memo hargs1
    obtain ⟨hma2, hav2⟩ := ih (rec a.fid g).g ht1 hrun1.memo hma1 hargs1
    simp only [gather_values]
    cases hr : (rec a.fid g).ret with
    | error e =>
      simp only
      exact ⟨hma1, fun vs h => by cases h⟩
    | ok v =>
      simp only
      cases hrs : (gather_values rec rest (rec a.fid g).g).ret with
      | error e =>
        simp only
        exact ⟨hma2, fun vs h => by cases h⟩
      | ok vs1 =>
        simp only
        refine ⟨hma2, ?_⟩
        intro vs _ x hx
        rcases List.mem_cons.mp hx with hx | hx
        · rw [hx]
          exact available_of_extends (extends_of_forward_run hrun2) _ (hav1 v hr)
        · exact hav2 vs1 hrs x hx

theorem available_set_value {α : Type} (g : Graph α) (fid : Nat) (v : Tensor α) (i : Nat)
    (h : g.available i) : (g.set_value fid (some v)).available i := by
  obtain ⟨f, n, hf, hn, hv⟩ := h
  by_cases hi : fid = i
  · subst hi
    refine ⟨{ f with rets := modify_at f.rets 0 fun n => { n with value := some v } },
      { n with value := some v }, ?_, ?_, ?_⟩
    · simp only [Graph.set_value, update_node, getElem?_modify_at, if_true, hf, Option.map_some']
    · simp only [getElem?_modify_at, if_true, hn, Option.map_some']
    · simp [value_or_inner]
  · refine ⟨f, n, ?_, hn, hv⟩
    have hi2 : ¬ i = fid := fun e => hi e.symm
    simp only [Graph.set_value, update_node, getElem?_modify_at, if_neg hi2]
    exact hf

theorem available_set_value_self {α : Type} (g : Graph α) (fid : Nat) (v : Tensor α)
    (f : FunctionInfo α) (n : NodeInfo α) (hf : g.funcs_[fid]? = some f)
    (hn : f.rets[0]? = some n) : (g.set_value fid (some v)).available fid := by
  refine ⟨{ f with rets := modify_at f.rets 0 fun n => { n with value := some v } },
    { n with value := some v }, ?_, ?_, ?_⟩
  · simp only [Graph.set_value, update_node, getElem?_modify_at, if_true, hf, Option.map_some']
  · simp only [getElem?_modify_at, if_true, hn, Option.map_some']
  · simp [value_or_inner]
/-- The forward recursion keeps the arguments of memoized steps at hand, and the step it
returns a value for has a value at hand afterwards. -/
theorem forward_recursive_avail {α : Type} :
    ∀ fuel fid (g : Graph α), g.Topological → g.MemoOK → g.MemoArgs → fid < fuel →
      fid < g.funcs_.length →
      (forward_recursive fuel fid g).g.MemoArgs ∧
        ∀ v, (forward_recursive fuel fid g).ret = Except.ok v →
          (forward_recursive fuel fid g).g.available fid := by
  intro fuel
  induction fuel with
  | zero => intro fid g _ _ _ h; omega
  | succ fuel ih =>
    intro fid g ht hm hma hfuel hlen
    obtain ⟨f, n, hf, hn, hrets⟩ := slot_zero_of_topological ht hlen
    rw [forward_recursive]
    simp only [hf, hn]
    cases hin : f.func.get_inner_value with
    | some w =>
      simp only
      refine ⟨hma, fun _ _ => ⟨f, n, hf, hn, ?_⟩⟩
      rw [value_or_inner_ne_none, hin]
      simp
    | none =>
      simp only
      cases hv : n.value with
      | some w =>
        simp only
        refine ⟨hma, fun _ _ => ⟨f, n, hf, hn, ?_⟩⟩
        rw [value_or_inner_ne_none, hv]
        simp
      | none =>
        simp only
        have hargs : ∀ a ∈ f.args, a.fid < fid ∧ a.fid < g.funcs_.length := by
          intro a ha
          have := (ht fid f hf).2 a ha
          omega
        obtain ⟨hrun, -, -⟩ :=
          gather_values_spec (forward_recursive fuel) fid
            (fun fid1 g1 h1 h2 h3 h4 => forward_recursive_spec fuel fid1 g1 h1 h2 (by omega) h4)
            f.args g ht hm hargs
        obtain ⟨hmaR, havR⟩ :=
          gather_values_avail (forward_recursive fuel) fid
            (fun fid1 g1 h1 h2 h3 h4 => forward_recursive_spec fuel fid1 g1 h1 h2 (by omega) h4)
            (fun fid1 g1 h1 h2 h3 h4 h5 => ih fid1 g1 h1 h2 h3 (by omega) h5)
            f.args g ht hm hma hargs
        generalize gather_values (forward_recursive fuel) f.args g = r at hrun hmaR havR
        cases hr : r.ret with
        | error e =>
          simp only
          exact ⟨hmaR, fun v h => by cases h⟩
        | ok vs =>
          simp only
          cases hfw : f.func.forward vs with
          | none =>
            simp only
            exact ⟨hmaR, fun v h => by cases h⟩
          | some w =>
            simp only
            have hlen1 : fid < r.g.funcs_.length := by rw [forward_run_length_eq hrun]; exact hlen
            obtain ⟨f1, n1, hf1, hn1, _⟩ :=
              slot_zero_of_topological (forward_run_topological hrun ht) hlen1
            refine ⟨?_, fun _ _ => available_set_value_self r.g fid w f1 n1 hf1 hn1⟩
            intro i fi hfi hvi a ha
            obtain ⟨fr, hfr, _, hargsr, _⟩ :=
              funcs_of_map_nodes_eq (map_nodes_set_value r.g fid (some w)) i fi hfi
            apply available_set_value
            by_cases hi : i = fid
            · subst hi
              obtain ⟨f0, hf0, _, hargs0, _⟩ := funcs_of_map_nodes_eq hrun.frame i fr hfr
              rw [hf] at hf0
              cases hf0
              exact havR vs hr a (by rw [hargs0, hargsr]; exact ha)
            · rw [value_at_set_value, if_neg hi] at hvi
              exact hmaR i fr hfr hvi a (by rw [hargsr]; exact ha)

theorem forward_avail {α : Type} (g : Graph α) (ht : g.Topological) (hm : g.MemoOK)
    (hma : g.MemoArgs) (node : Node) :
    (g.forward node).g.MemoArgs ∧
      ∀ v, (g.forward node).ret = Except.ok v → (g.forward node).g.available node.fid_ := by
  cases hv : g.CHECK_NODE node with
  | some e =>
    simp only [Graph.forward, hv]
    exact ⟨hma, fun v h => by cases h⟩
  | none =>
    obtain ⟨_, f, hf, _⟩ := (check_node_none g node).mp hv
    have hlen : node.fid_ < g.funcs_.length := (List.getElem?_eq_some.mp hf).1
    simp only [Graph.forward, hv]
    exact forward_recursive_avail g.funcs_.length node.fid_ g ht hm hma hlen hlen

theorem memo_args_of_reachable {α : Type} [Zero α] [One α] {g : Graph α} (h : Reachable g) :
    g.MemoArgs := by
  induction h with
  | empty addr =>
    intro i f hf
    simp at hf
  | add_function func args _ ih => exact memo_args_add_function _ func args ih
  | clear _ _ =>
    intro i f hf
    simp [Graph.clear] at hf
  | @forward g0 node hr ih =>
    obtain ⟨ht, hm⟩ := invariants_of_reachable hr
    exact (forward_avail g0 ht hm ih node).1
  | @backward g0 node hr ih =>
    obtain ⟨ht, hm⟩ := invariants_of_reachable hr
    rcases backward_frame g0 node with e | e
    · exact memo_args_of_erase_grads_eq e ih
    · exact memo_args_of_erase_grads_eq e (forward_avail g0 ht hm ih node).1

theorem available_of_slot {α : Type} {g : Graph α} {i : Nat} {f : FunctionInfo α}
    {n : NodeInfo α} (hf : g.funcs_[i]? = some f) (hn : f.rets[0]? = some n) :
    g.available i ↔ value_or_inner f n ≠ none := by
  constructor
  · intro ⟨f1, n1, hf1, hn1, hv⟩
    rw [hf] at hf1
    cases hf1
    rw [hn] at hn1
    cases hn1
    exact hv
  · intro hv
    exact ⟨f, n, hf, hn, hv⟩

theorem grad_avail_set_grad {α : Type} (g : Graph α) (a : Address) (t : Option (Tensor α))
    (hga : g.GradAvail) (ha : t ≠ none → g.available a.fid) : (g.set_grad a t).GradAvail := by
  intro b hb
  rw [available_congr (map_nodes_set_grad g a t)]
  rw [grad_heap_set_grad] at hb
  by_cases hba : b = a
  · rw [if_pos hba] at hb
    rw [hba]
    apply ha
    intro ht
    rw [ht] at hb
    cases hx : node_at g.funcs_ a.fid a.vid <;> simp [hx] at hb
  · rw [if_neg hba] at hb
    exact hga b hb

/-- The loop that gathers the argument gradients: it gives gradients only to steps with
a value at hand, it returns exactly when every argument has a value at hand, and it fails
only by dereferencing a null pointer. -/
theorem gather_grads_avail {α : Type} [Zero α] :
    ∀ (args : List Address) (g : Graph α), g.GradAvail → (∀ a ∈ args, a.vid = 0) →
      (gather_grads args g).2.GradAvail ∧
      (∀ vs, (gather_grads args g).1 = Except.ok vs → ∀ a ∈ args, g.available a.fid) ∧
      ((∀ a ∈ args, g.available a.fid) → ∃ vs, (gather_grads args g).1 = Except.ok vs) ∧
      (∀ e, (gather_grads args g).1 = Except.error e → e = Failure.undefinedBehaviour) := by
  intro args
  induction args with
  | nil =>
    intro g hga _
    exact ⟨hga, fun _ _ a ha => by simp at ha, fun _ => ⟨[], rfl⟩, (fun e h => by cases h)⟩
  | cons a rest ih =>
    intro g hga hvid
    have hvid0 : a.vid = 0 := hvid a (List.mem_cons_self _ _)
    have hvidr : ∀ x ∈ rest, x.vid = 0 := fun x hx => hvid x (List.mem_cons_of_mem _ hx)
    simp only [gather_grads]
    cases hf : g.funcs_[a.fid]? with
    | none =>
      simp only
      refine ⟨hga, (fun vs h => by cases h), ?_, (fun e h => by cases h; rfl)⟩
      intro hall
      obtain ⟨f1, _, hf1, _⟩ := hall a (List.mem_cons_self _ _)
      rw [hf] at hf1
      cases hf1
    | some f =>
      simp only
      cases hn : f.rets[a.vid]? with
      | none =>
        simp only
        refine ⟨hga, (fun vs h => by cases h), ?_, (fun e h => by cases h; rfl)⟩
        intro hall
        obtain ⟨f1, n1, hf1, hn1, _⟩ := hall a (List.mem_cons_self _ _)
        rw [hf] at hf1
        cases hf1
        rw [hvid0, hn1] at hn
        cases hn
      | some n =>
        simp only
        have hn0 : f.rets[0]? = some n := by rw [← hvid0]; exact hn
        have hnode : node_at g.funcs_ a.fid a.vid = some n := by simp [node_at, hf, hn]
        cases hgrad : n.grad with
        | none =>
          cases hv : value_or_inner f n with
          | none =>
            simp only
            refine ⟨hga, (fun vs h => by cases h), ?_, (fun e h => by cases h; rfl)⟩
            intro hall
            have := (available_of_slot hf hn0).mp (hall a (List.mem_cons_self _ _))
            exact absurd hv this
          | some v =>
            simp only
            have hav : g.available a.fid := (available_of_slot hf hn0).mpr (by rw [hv]; simp)
            have he := map_nodes_set_grad g a (some (n.device.new_tensor v.shape 0))
            have hga1 := grad_avail_set_grad g a (some (n.device.new_tensor v.shape 0)) hga
              (fun _ => hav)
            have k := ih (g.set_grad a (some (n.device.new_tensor v.shape 0))) hga1 hvidr
            cases hres : gather_grads rest
                (g.set_grad a (some (n.device.new_tensor v.shape 0))) with
            | mk r1 g1 =>
              rw [hres] at k
              cases r1 with
              | error e =>
                simp only at k ⊢
                refine ⟨k.1, (fun vs h => by cases h), ?_, ?_⟩
                · intro hall
                  obtain ⟨vs, h⟩ := k.2.2.1 (fun x hx => (available_congr he x.fid).mpr
                    (hall x (List.mem_cons_of_mem _ hx)))
                  cases h
                · intro e1 h1
                  cases h1
                  exact k.2.2.2 e rfl
              | ok vs1 =>
                simp only at k ⊢
                refine ⟨k.1, ?_, fun _ => ⟨_, rfl⟩, (fun e h => by cases h)⟩
                intro vs _ x hx
                rcases List.mem_cons.mp hx with hx | hx
                · rw [hx]; exact hav
                · exact (available_congr he x.fid).mp (k.2.1 vs1 rfl x hx)
        | some t =>
          simp only
          have hav : g.available a.fid := by
            apply hga a
            simp [Graph.grad_heap, hnode, hgrad]
          have k := ih g hga hvidr
          cases hres : gather_grads rest g with
          | mk r1 g1 =>
            rw [hres] at k
            cases r1 with
            | error e =>
              simp only at k ⊢
              refine ⟨k.1, (fun vs h => by cases h), ?_, ?_⟩
              · intro hall
                obtain ⟨vs, h⟩ := k.2.2.1 (fun x hx => hall x (List.mem_cons_of_mem _ hx))
                cases h
              · intro e1 h1
                cases h1
                exact k.2.2.2 e rfl
            | ok vs1 =>
              simp only at k ⊢
              refine ⟨k.1, ?_, fun _ => ⟨_, rfl⟩, (fun e h => by cases h)⟩
              intro vs _ x hx
              rcases List.mem_cons.mp hx with hx | hx
              · rw [hx]; exact hav
              · exact k.2.1 vs1 rfl x hx

theorem args_available {α : Type} {g : Graph α} (hma : g.MemoArgs) (hsi : g.SourceInner)
    {k : Nat} {f : FunctionInfo α} (hf : g.funcs_[k]? = some f) (hav : g.available k) :
    ∀ a ∈ f.args, g.available a.fid := by
  obtain ⟨f1, n, hf1, hn, hv⟩ := hav
  rw [hf] at hf1
  cases hf1
  rw [value_or_inner_ne_none] at hv
  rcases hv with hv | hv
  · exact hma k f hf (by rw [value_at_eq_of_getElem? hf hn]; exact hv)
  · intro a ha
    rw [hsi k f hf hv] at ha
    simp at ha

/-- One round of the sweep on a topological graph in which every step with a valid
gradient has a value at hand: this stays so, the backward contract is invoked only with
the value of the step and the values of its arguments at hand, and the round fails only
by an error of the contract or by dereferencing a null pointer, the latter not when inner
values belong to operations without arguments. -/
theorem backward_step_avail {α : Type} [Zero α] (k : Nat) (g : Graph α) (ht : g.Topological)
    (hga : g.GradAvail) :
    (backward_step k g).g.GradAvail ∧
      (∀ x ∈ backward_calls (backward_step k g).log, x = k ∧ g.available k ∧
        ∀ f, g.funcs_[k]? = some f → ∀ a ∈ f.args, g.available a.fid) ∧
      (∀ e, (backward_step k g).ret = Except.error e →
        e = Failure.functionError ∨ e = Failure.undefinedBehaviour) ∧
      (k < g.funcs_.length → g.MemoArgs → g.SourceInner →
        (backward_step k g).ret ≠ Except.error Failure.undefinedBehaviour) := by
  unfold backward_step
  cases hf : g.funcs_[k]? with
  | none =>
    simp only
    refine ⟨hga, (fun x hx => by simp [backward_calls] at hx),
      (fun e h => by cases h; exact Or.inr rfl), ?_⟩
    intro hk
    have := List.getElem?_eq_none_iff.mp hf
    omega
  | some f =>
    simp only
    obtain ⟨hl, hargs⟩ := ht k f hf
    cases hn : f.rets[0]? with
    | none =>
      exfalso
      have := List.getElem?_eq_none_iff.mp hn
      omega
    | some n =>
      simp only
      cases hgrad : n.grad with
      | none =>
        simp only
        exact ⟨hga, (fun x hx => by simp [backward_calls] at hx), (fun e h => by cases h),
          (fun _ _ _ h => by cases h)⟩
      | some cg =>
        simp only
        have hav : g.available k := by
          apply hga ⟨k, 0⟩
          simp [Graph.grad_heap, node_at, hf, hn, hgrad]
        have hvid : ∀ a ∈ f.args, a.vid = 0 := fun a ha => (hargs a ha).2
        have kk := gather_grads_avail f.args g hga hvid
        have he1 := gather_grads_frame f.args g
        cases hres : gather_grads f.args g with
        | mk r1 g1 =>
          rw [hres] at kk he1
          cases r1 with
          | error e =>
            simp only at kk he1 ⊢
            refine ⟨kk.1, (fun x hx => by simp [backward_calls] at hx), ?_, ?_⟩
            · intro e1 h1
              cases h1
              exact Or.inr (kk.2.2.2 e rfl)
            · intro _ hma hsi
              obtain ⟨vs, h⟩ := kk.2.2.1 (args_available hma hsi hf hav)
              cases h
          | ok avs =>
            simp only at kk he1 ⊢
            cases hcv : value_or_inner f n with
            | none => exact absurd hcv ((available_of_slot hf hn).mp hav)
            | some v =>
              simp only
              have he2 : (g1.store_grads f.args
                  (f.func.backward v cg avs f.args g1.grad_heap).heap).erase_grads =
                  g.erase_grads := (store_grads_frame _ _ _).trans he1
              have hga2 : (g1.store_grads f.args
                  (f.func.backward v cg avs f.args g1.grad_heap).heap).GradAvail := by
                intro x hx
                rw [available_congr he2]
                by_cases hm : x ∈ f.args
                · exact kk.2.1 avs rfl x hm
                · rw [grad_heap_store_grads _ x _ _ hm] at hx
                  exact (available_congr he1 _).mp (kk.1 x hx)
              have hlog : ∀ x ∈ backward_calls [Event.backward k cg], x = k ∧ g.available k ∧
                  ∀ f1, some f = some f1 → ∀ a ∈ f1.args, g.available a.fid := by
                intro x hx
                refine ⟨(mem_backward_calls_singleton k x cg).mp hx, hav, ?_⟩
                intro f1 hf1
                cases hf1
                exact kk.2.1 avs rfl
              split
              · exact ⟨hga2, hlog, (fun e h => by cases h; exact Or.inl rfl),
                  (fun _ _ _ h => by cases h)⟩
              · exact ⟨grad_avail_set_grad _ _ none hga2 (fun h => absurd rfl h), hlog,
                  (fun e h => by cases h), (fun _ _ _ h => by cases h)⟩

theorem backward_loop_avail {α : Type} [Zero α] :
    ∀ (n : Nat) (g : Graph α), g.Topological → g.GradAvail →
      (backward_loop n g).g.GradAvail ∧
      (∀ x ∈ backward_calls (backward_loop n g).log, g.available x ∧
        ∀ f, g.funcs_[x]? = some f → ∀ a ∈ f.args, g.available a.fid) ∧
      (∀ e, (backward_loop n g).ret = Except.error e →
        e = Failure.functionError ∨ e = Failure.undefinedBehaviour) ∧
      (n ≤ g.funcs_.length → g.MemoArgs → g.SourceInner →
        (backward_loop n g).ret ≠ Except.error Failure.undefinedBehaviour) := by
  intro n
  induction n with
  | zero =>
    intro g _ hga
    exact ⟨hga, (fun x hx => by simp [backward_loop, backward_calls] at hx),
      (fun e h => by cases h), (fun _ _ _ h => by cases h)⟩
  | succ n ih =>
    intro g ht hga
    obtain ⟨s1, s2, s3, s4⟩ := backward_step_avail n g ht hga
    have he := backward_step_frame n g
    simp only [backward_loop]
    cases hr : (backward_step n g).ret with
    | error e =>
      simp only
      refine ⟨s1, (fun x hx => ?_), (fun e1 h1 => ?_), (fun hn hma hsi h1 => ?_)⟩
      · obtain ⟨hx1, hx2, hx3⟩ := s2 x hx
        rw [hx1]
        exact ⟨hx2, hx3⟩
      · cases h1
        exact s3 e hr
      · cases h1
        exact s4 (by omega) hma hsi hr
    | ok u =>
      simp only
      obtain ⟨r1, r2, r3, r4⟩ := ih (backward_step n g).g (topological_of_map_nodes_eq he ht) s1
      refine ⟨r1, (fun x hx => ?_), r3, (fun hn hma hsi => ?_)⟩
      · rw [backward_calls_append] at hx
        rcases List.mem_append.mp hx with hx | hx
        · obtain ⟨hx1, hx2, hx3⟩ := s2 x hx
          rw [hx1]
          exact ⟨hx2, hx3⟩
        · obtain ⟨q1, q2⟩ := r2 x hx
          refine ⟨(available_congr he x).mp q1, ?_⟩
          intro f hf a ha
          obtain ⟨f1, hf1, _, hargs, _⟩ := funcs_of_map_nodes_eq he.symm x f hf
          exact (available_congr he a.fid).mp (q2 f1 hf1 a (by rw [hargs]; exact ha))
      · exact r4 (by rw [length_of_map_nodes_eq he]; omega)
          (memo_args_of_erase_grads_eq he hma) (source_inner_of_map_nodes_eq he hsi)

theorem seed_and_sweep_avail {α : Type} [Zero α] [One α] (g : Graph α) (ht : g.Topological)
    (hga : g.GradAvail) (node : Node) (hav : g.available node.fid_) (d : Device) (s : Shape) :
    (seed_and_sweep g node d s).g.GradAvail ∧
      (seed_and_sweep g node d s).g.erase_grads = g.erase_grads ∧
      (∀ x ∈ backward_calls (seed_and_sweep g node d s).log, g.available x ∧
        ∀ f, g.funcs_[x]? = some f → ∀ a ∈ f.args, g.available a.fid) ∧
      (∀ e, (seed_and_sweep g node d s).ret = Except.error e →
        e = Failure.functionError ∨ e = Failure.undefinedBehaviour) ∧
      (node.fid_ < g.funcs_.length → g.MemoArgs → g.SourceInner →
        (seed_and_sweep g node d s).ret ≠ Except.error Failure.undefinedBehaviour) := by
  have he := map_nodes_set_grad g ⟨node.fid_, node.vid_⟩ (some (d.new_tensor s 1))
  have hga1 := grad_avail_set_grad g ⟨node.fid_, node.vid_⟩ (some (d.new_tensor s 1)) hga
    (fun _ => hav)
  obtain ⟨r1, r2, r3, r4⟩ := backward_loop_avail (node.fid_ + 1) _
    (topological_of_map_nodes_eq he ht) hga1
  unfold seed_and_sweep
  refine ⟨r1, seed_and_sweep_frame g node d s, (fun x hx => ?_), r3, (fun hn hma hsi => ?_)⟩
  · obtain ⟨q1, q2⟩ := r2 x hx
    refine ⟨(available_congr he x).mp q1, ?_⟩
    intro f hf a ha
    obtain ⟨f1, hf1, _, hargs, _⟩ := funcs_of_map_nodes_eq he.symm x f hf
    exact (available_congr he a.fid).mp (q2 f1 hf1 a (by rw [hargs]; exact ha))
  · exact r4 (by rw [length_of_map_nodes_eq he]; omega)
      (memo_args_of_erase_grads_eq he hma) (source_inner_of_map_nodes_eq he hsi)

theorem grad_avail_forward {α : Type} (g : Graph α) (ht : g.Topological) (hm : g.MemoOK)
    (hga : g.GradAvail) (node : Node) : (g.forward node).g.GradAvail := by
  have hext := extends_forward g ht hm node
  intro a ha
  apply available_of_extends hext
  apply hga
  cases hv : g.CHECK_NODE node with
  | some e =>
    simp only [Graph.forward, hv] at ha
    exact ha
  | none =>
    obtain ⟨hrun, _, _⟩ := forward_spec g ht hm node hv
    rw [grad_heap_of_erase_values_eq hrun.frame] at ha
    exact ha

theorem ret_of_sweep {α : Type} (o : Outcome α Unit)
    (h1 : ∀ e, o.ret = Except.error e →
      e = Failure.functionError ∨ e = Failure.undefinedBehaviour)
    (h2 : o.ret ≠ Except.error Failure.undefinedBehaviour) :
    o.ret = Except.ok () ∨ o.ret = Except.error Failure.functionError := by
  cases hr : o.ret with
  | ok u => exact Or.inl rfl
  | error e =>
    rcases h1 e hr with h | h
    · rw [h]; exact Or.inr rfl
    · rw [h] at hr; exact absurd hr h2

/-- A call of `backward` on a graph with the invariants of the reachable graphs: every
step with a valid gradient has a value at hand afterwards, the backward contracts are
invoked only with the values of the step and of its arguments at hand, and, when inner
values belong to operations without arguments, the call returns or fails with the error
of a contract. -/
theorem backward_avail {α : Type} [Zero α] [One α] (g : Graph α) (ht : g.Topological)
    (hm : g.MemoOK) (hma : g.MemoArgs) (hga : g.GradAvail) (node : Node) :
    (g.backward node).g.GradAvail ∧
      (∀ x ∈ backward_calls (g.backward node).log, (g.backward node).g.available x ∧
        ∀ f, g.funcs_[x]? = some f → ∀ a ∈ f.args, (g.backward node).g.available a.fid) ∧
      (g.CHECK_NODE node = none → g.SourceInner →
        (g.backward node).ret = Except.ok () ∨
          (g.backward node).ret = Except.error Failure.functionError) := by
  cases hc : g.CHECK_NODE node with
  | some e =>
    simp only [Graph.backward, hc]
    exact ⟨hga, (fun x hx => by simp [backward_calls] at hx), (fun h => by cases h)⟩
  | none =>
    obtain ⟨_, f, hf, hlt⟩ := (check_node_none g node).mp hc
    have hlen : node.fid_ < g.funcs_.length := (List.getElem?_eq_some.mp hf).1
    have hvid : node.vid_ = 0 := by
      have := (ht node.fid_ f hf).1
      omega
    obtain ⟨f0, n, hf0, hn, _⟩ := slot_zero_of_topological ht hlen
    rw [hf] at hf0
    cases hf0
    have hnv : f.rets[node.vid_]? = some n := by rw [hvid]; exact hn
    simp only [Graph.backward, hc, hf, hnv]
    cases hv : value_or_inner f n with
    | some last_v =>
      simp only
      have hav : g.available node.fid_ := (available_of_slot hf hn).mpr (by rw [hv]; simp)
      obtain ⟨r1, r2, r3, r4, r5⟩ :=
        seed_and_sweep_avail g ht hga node hav n.device last_v.shape
      refine ⟨r1, (fun x hx => ?_), (fun _ hsi => ret_of_sweep _ r4 (r5 hlen hma hsi))⟩
      obtain ⟨q1, q2⟩ := r3 x hx
      exact ⟨(available_congr r2 x).mpr q1,
        fun f1 hf1 a ha => (available_congr r2 a.fid).mpr (q2 f1 hf1 a ha)⟩
    | none =>
      simp only
      obtain ⟨hrun, hret, _⟩ := forward_spec g ht hm node hc
      have hgaf := grad_avail_forward g ht hm hga node
      obtain ⟨hmaf, havf⟩ := forward_avail g ht hm hma node
      have hlog := hrun.log_forward
      cases hr : (g.forward node).ret with
      | error e =>
        simp only
        refine ⟨hgaf, (fun x hx => by rw [hlog] at hx; cases hx), (fun _ _ => Or.inr ?_)⟩
        rcases (eval_defined g ht node.fid_ hlen).1 with ⟨v, h⟩ | h
        · rw [hret, h] at hr; cases hr
        · rw [hret, h] at hr
          cases hr
          rfl
      | ok v =>
        simp only
        have htf := forward_run_topological hrun ht
        obtain ⟨f1, n1, hf1, hn1, hcase⟩ := settled_after_forward g ht hm node hc v hr
        obtain ⟨f2, hf2, hfun, _, _⟩ := funcs_of_map_nodes_eq hrun.frame node.fid_ f1 hf1
        rw [hf] at hf2
        cases hf2
        have hin : f1.func.get_inner_value = none := by
          rw [← hfun]
          cases hi : f.func.get_inner_value with
          | none => rfl
          | some w =>
            have := (value_or_inner_ne_none f n).mpr (Or.inr (by rw [hi]; simp))
            exact absurd hv this
        have hval : n1.value = some v := by
          rcases hcase with h | ⟨_, h⟩
          · rw [hin] at h; cases h
          · exact h
        have hacc : (g.forward node).g.ACCESS node = some n1 := by
          simp only [Graph.ACCESS, node_at, hf1, hvid]
          exact hn1
        simp only [hacc, hval]
        have hlenf : node.fid_ < (g.forward node).g.funcs_.length :=
          (List.getElem?_eq_some.mp hf1).1
        obtain ⟨r1, r2, r3, r4, r5⟩ :=
          seed_and_sweep_avail (g.forward node).g htf hgaf node (havf v hr) n1.device v.shape
        refine ⟨r1, (fun x hx => ?_), (fun _ hsi => ret_of_sweep _ r4
          (r5 hlenf hmaf (source_inner_of_map_nodes_eq hrun.frame hsi)))⟩
        rw [backward_calls_append, hlog, List.nil_append] at hx
        obtain ⟨q1, q2⟩ := r3 x hx
        refine ⟨(available_congr r2 x).mpr q1, ?_⟩
        intro fx hfx a ha
        obtain ⟨fy, hfy, _, hargs, _⟩ := funcs_of_map_nodes_eq hrun.frame.symm x fx hfx
        exact (available_congr r2 a.fid).mpr (q2 fy hfy a (by rw [hargs]; exact ha))

theorem grad_avail_of_reachable {α : Type} [Zero α] [One α] {g : Graph α} (h : Reachable g) :
    g.GradAvail := by
  induction h with
  | empty addr =>
    intro a ha
    simp [Graph.grad_heap, node_at] at ha
  | add_function func args _ ih => exact grad_avail_add_function _ func args ih
  | clear _ _ =>
    intro a ha
    simp [Graph.clear, Graph.grad_heap, node_at] at ha
  | @forward g0 node hr ih =>
    obtain ⟨ht, hm⟩ := invariants_of_reachable hr
    exact grad_avail_forward g0 ht hm ih node
  | @backward g0 node hr ih =>
    obtain ⟨ht, hm⟩ := invariants_of_reachable hr
    exact (backward_avail g0 ht hm (memo_args_of_reachable hr) ih node).1

theorem source_inner_gParam : Scenario.gParam.SourceInner := by
  intro i f hf hin
  match i, hf with
  | 0, hf =>
    have h0 : Scenario.gParam.funcs_[0]? =
        some ⟨Scenario.parameter (Scenario.vec [3]), [],
          [⟨⟨[1], 1⟩, Scenario.D0, none, none, [1]⟩]⟩ := rfl
    rw [h0] at hf
    cases hf
    rfl
  | 1, hf =>
    have h1 : Scenario.gParam.funcs_[1]? =
        some ⟨Scenario.double, [⟨0, 0⟩], [⟨⟨[1], 1⟩, Scenario.D0, none, none, []⟩]⟩ := rfl
    rw [h1] at hf
    cases hf
    exact absurd rfl hin
  | n + 2, hf =>
    have h2 : Scenario.gParam.funcs_[n + 2]? = none := rfl
    rw [h2] at hf
    cases hf

/-- C20, amended. Forward values are available throughout the backward sweep when inner
values belong to source operations: on every reachable graph in which every operation
that exposes an inner value takes no arguments, and for every node that passes the check,
`backward(node)` dereferences no null value pointer: it returns, or it fails with the
error that a forward or backward contract raised. Every step whose backward contract is
invoked, and every argument of such a step, has a forward value at hand (a memoized value
or the inner value of its operation); the sweep changes gradients only, so the values at
hand after the call are those at hand during the sweep. -/
theorem backward_values_available {α : Type} [Zero α] [One α] (g : Graph α)
    (hr : Reachable g) (hsi : g.SourceInner) (node : Node) (hv : g.valid node) :
    ((g.backward node).ret = Except.ok () ∨
        (g.backward node).ret = Except.error Failure.functionError) ∧
      (∀ i ∈ backward_calls (g.backward node).log, (g.backward node).g.available i ∧
        ∀ f, g.funcs_[i]? = some f → ∀ a ∈ f.args, (g.backward node).g.available a.fid) ∧
      ((g.backward node).g.erase_grads = g.erase_grads ∨
        (g.backward node).g.erase_grads = (g.forward node).g.erase_grads) := by
  obtain ⟨ht, hm⟩ := invariants_of_reachable hr
  obtain ⟨_, h2, h3⟩ :=
    backward_avail g ht hm (memo_args_of_reachable hr) (grad_avail_of_reachable hr) node
  exact ⟨h3 hv hsi, h2, backward_frame g node⟩

theorem backward_values_available_witness :
    Reachable Scenario.gParam ∧ Scenario.gParam.SourceInner ∧
      Scenario.gParam.valid Scenario.nB ∧
      (Scenario.gParam.backward Scenario.nB).ret = Except.ok () ∧
      backward_calls (Scenario.gParam.backward Scenario.nB).log = [1, 0] ∧
      (((Scenario.gParam.backward Scenario.nB).ret = Except.ok () ∨
        (Scenario.gParam.backward Scenario.nB).ret = Except.error Failure.functionError) ∧
      (∀ i ∈ backward_calls (Scenario.gParam.backward Scenario.nB).log,
        (Scenario.gParam.backward Scenario.nB).g.available i ∧
        ∀ f, Scenario.gParam.funcs_[i]? = some f →
          ∀ a ∈ f.args, (Scenario.gParam.backward Scenario.nB).g.available a.fid) ∧
      ((Scenario.gParam.backward Scenario.nB).g.erase_grads = Scenario.gParam.erase_grads ∨
        (Scenario.gParam.backward Scenario.nB).g.erase_grads =
          (Scenario.gParam.forward Scenario.nB).g.erase_grads)) :=
  have hr : Reachable Scenario.gParam :=
    Reachable.add_function _ _ (Reachable.add_function _ _ (Reachable.empty 1))
  ⟨hr, source_inner_gParam, rfl, rfl, by decide,
    backward_values_available Scenario.gParam hr source_inner_gParam Scenario.nB rfl⟩

/-! ## The argument gradients handed to a backward contract -/

/-- The loop that gathers the argument gradients leaves a valid gradient as it is. -/
theorem gather_grads_preserves {α : Type} [Zero α] (b : Address) (t : Tensor α) :
    ∀ (args : List Address) (g : Graph α), g.grad_heap b = some t →
      (gather_grads args g).2.grad_heap b = some t := by
  intro args
  induction args with
  | nil => intro g h; exact h
  | cons a rest ih =>
    intro g hb
    simp only [gather_grads]
    cases hf : g.funcs_[a.fid]? with
    | none => exact hb
    | some f =>
      simp only
      cases hn : f.rets[a.vid]? with
      | none => exact hb
      | some n =>
        simp only
        have hnode : node_at g.funcs_ a.fid a.vid = some n := by simp [node_at, hf, hn]
        cases hgrad : n.grad with
        | none =>
          cases hv : value_or_inner f n with
          | none => exact hb
          | some v =>
            simp only
            have hba : b ≠ a := by
              intro e
              rw [e] at hb
              simp [Graph.grad_heap, hnode, hgrad] at hb
            have hb1 : (g.set_grad a (some (n.device.new_tensor v.shape 0))).grad_heap b =
                some t := by
              rw [grad_heap_set_grad, if_neg hba]
              exact hb
            have := ih (g.set_grad a (some (n.device.new_tensor v.shape 0))) hb1
            split <;> rename_i heq <;> rw [heq] at this <;> exact this
        | some t1 =>
          simp only
          have := ih g hb
          split <;> rename_i heq <;> rw [heq] at this <;> exact this

/-- A round of the sweep that invokes the backward contract of step `j` hands it the
value at hand of step `j`, the gradient of step `j`, the gathered argument values and the
pointers to the gradients of the arguments, in argument order, on the gradient tensors of
the graph: behind every pointer is a valid gradient, the one accumulated so far when there
was one, and what the contract leaves behind a pointer is the gradient of that argument
after the round. -/
theorem backward_step_pointers {α : Type} [Zero α] (j : Nat) (g1 : Graph α)
    (ht : g1.Topological) (f : FunctionInfo α) (hf : g1.funcs_[j]? = some f)
    (cur_grad : Tensor α) (hlog : (backward_step j g1).log = [Event.backward j cur_grad]) :
    ∃ (n : NodeInfo α) (cur_value : Tensor α) (arg_values : List (Option (Tensor α))),
      f.rets[0]? = some n ∧ value_or_inner f n = some cur_value ∧
      (gather_grads f.args g1).1 = Except.ok arg_values ∧
      g1.grad_at j = some cur_grad ∧
      ∀ a ∈ f.args,
        (gather_grads f.args g1).2.grad_heap a ≠ none ∧
        (∀ t, g1.grad_heap a = some t → (gather_grads f.args g1).2.grad_heap a = some t) ∧
        (backward_step j g1).g.grad_heap a =
          (f.func.backward cur_value cur_grad arg_values f.args
            (gather_grads f.args g1).2.grad_heap).heap a := by
  revert hlog
  unfold backward_step
  rw [hf]
  simp only
  cases hn : f.rets[0]? with
  | none => intro h; cases h
  | some n =>
    simp only
    have hgk := grad_at_eq_of_getElem? hf hn
    cases hgrad : n.grad with
    | none => intro h; cases h
    | some cg =>
      simp only
      have h2 := gather_grads_valid f.args g1
      have h3 := fun a t => gather_grads_preserves (α := α) a t f.args g1
      cases hres : gather_grads f.args g1 with
      | mk r1 g2 =>
        rw [hres] at h2 h3
        simp only at h2 h3
        cases r1 with
        | error e => intro h; cases h
        | ok avs =>
          simp only
          cases hv : value_or_inner f n with
          | none => intro h; cases h
          | some v =>
            simp only
            have hvalid := h2 avs rfl
            split
            · intro hlog
              simp only [List.cons.injEq, Event.backward.injEq, and_true, true_and] at hlog
              rw [← hlog]
              refine ⟨n, v, avs, rfl, hv, rfl, by rw [hgk, hgrad], fun a ha => ⟨hvalid a ha,
                h3 a, ?_⟩⟩
              exact grad_heap_store_grads_mem _ a f.args g2 ha
                (grad_heap_ne_none_node g2 a (hvalid a ha))
            · intro hlog
              simp only [List.cons.injEq, Event.backward.injEq, and_true, true_and] at hlog
              rw [← hlog]
              refine ⟨n, v, avs, rfl, hv, rfl, by rw [hgk, hgrad], fun a ha => ⟨hvalid a ha,
                h3 a, ?_⟩⟩
              have hne : a ≠ ⟨j, 0⟩ := by
                intro h
                have h1 := ((ht j f hf).2 a ha).1
                have h2 := congrArg Address.fid h
                simp only at h2
                omega
              rw [grad_heap_set_grad, if_neg hne]
              exact grad_heap_store_grads_mem _ a f.args g2 ha
                (grad_heap_ne_none_node g2 a (hvalid a ha))

theorem backward_step_log {α : Type} [Zero α] (k : Nat) (g : Graph α) :
    (backward_step k g).log = [] ∨ ∃ cg, (backward_step k g).log = [Event.backward k cg] := by
  unfold backward_step
  cases g.funcs_[k]? with
  | none => exact Or.inl rfl
  | some f =>
    simp only
    cases f.rets[0]? with
    | none => exact Or.inl rfl
    | some n =>
      simp only
      cases n.grad with
      | none => exact Or.inl rfl
      | some cg =>
        simp only
        cases gather_grads f.args g with
        | mk r1 g1 =>
          cases r1 with
          | error e => exact Or.inl rfl
          | ok avs =>
            simp only
            cases value_or_inner f n with
            | none => exact Or.inl rfl
            | some v =>
              simp only
              split
              · exact Or.inr ⟨cg, rfl⟩
              · exact Or.inr ⟨cg, rfl⟩

/-- The loop of the sweep splits at every round: when it returns, the graph it leaves is
the one that the rounds from step `k` down leave in the graph in which the loop reaches
the round of step `k`. -/
theorem backward_loop_split {α : Type} [Zero α] :
    ∀ (n k : Nat) (g : Graph α), k < n → (backward_loop n g).ret = Except.ok () →
      (backward_loop n g).g = (backward_loop (k + 1) (sweep_state n k g)).g := by
  intro n
  induction n with
  | zero => intro k g h; omega
  | succ n ih =>
    intro k g hk hok
    by_cases hnk : n ≤ k
    · have : k = n := by omega
      subst this
      simp only [sweep_state, if_pos (Nat.le_refl _)]
    · simp only [sweep_state, if_neg hnk]
      simp only [backward_loop] at hok ⊢
      cases hr : (backward_step n g).ret with
      | error e => rw [hr] at hok; cases hok
      | ok u =>
        rw [hr] at hok
        simp only at hok ⊢
        exact ih k _ (by omega) hok

/-- Every backward contract that the loop of the sweep invokes is invoked by the round of
its step, in the graph in which the loop reaches that round. -/
theorem backward_loop_trace {α : Type} [Zero α] :
    ∀ (n : Nat) (g : Graph α) (j : Nat), j ∈ backward_calls (backward_loop n g).log →
      j < n ∧ (sweep_state n j g).erase_grads = g.erase_grads ∧
        ∃ cg, (backward_step j (sweep_state n j g)).log = [Event.backward j cg] := by
  intro n
  induction n with
  | zero =>
    intro g j hj
    simp [backward_loop, backward_calls] at hj
  | succ n ih =>
    intro g j hj
    have hstep : j ∈ backward_calls (backward_step n g).log →
        j < n + 1 ∧ (sweep_state (n + 1) j g).erase_grads = g.erase_grads ∧
          ∃ cg, (backward_step j (sweep_state (n + 1) j g)).log = [Event.backward j cg] := by
      intro h
      rcases backward_step_log n g with h0 | ⟨cg, h1⟩
      · rw [h0] at h
        simp [backward_calls] at h
      · rw [h1] at h
        have hjn : j = n := (mem_backward_calls_singleton n j cg).mp h
        subst hjn
        simp only [sweep_state, if_pos (Nat.le_refl _)]
        exact ⟨by omega, trivial, cg, h1⟩
    simp only [backward_loop] at hj
    cases hr : (backward_step n g).ret with
    | error e =>
      rw [hr] at hj
      exact hstep hj
    | ok u =>
      rw [hr] at hj
      simp only at hj
      rw [backward_calls_append] at hj
      rcases List.mem_append.mp hj with hj | hj
      · exact hstep hj
      · obtain ⟨h1, h2, h3⟩ := ih (backward_step n g).g j hj
        have hnj : ¬ n ≤ j := by omega
        simp only [sweep_state, if_neg hnj]
        exact ⟨by omega, h2.trans (backward_step_frame n g), h3⟩

/-- A `backward` call that invokes a backward contract runs the sweep from the step of
the node, in the graph before the call or in the graph after the `forward` call it makes,
with the gradient of the node seeded. -/
theorem backward_start {α : Type} [Zero α] [One α] (g : Graph α) (node : Node)
    (hne : backward_calls (g.backward node).log ≠ []) :
    ∃ (gf : Graph α) (t : Tensor α), (gf = g ∨ gf = (g.forward node).g) ∧
      backward_calls (g.backward node).log =
        backward_calls (backward_loop (node.fid_ + 1)
          (gf.set_grad ⟨node.fid_, node.vid_⟩ (some t))).log := by
  revert hne
  unfold Graph.backward
  cases hc : g.CHECK_NODE node with
  | some e => intro h; exact absurd rfl h
  | none =>
    simp only
    cases hf : g.funcs_[node.fid_]? with
    | none => intro h; exact absurd rfl h
    | some f =>
      simp only
      cases hn : f.rets[node.vid_]? with
      | none => intro h; exact absurd rfl h
      | some n =>
        simp only
        cases hv : value_or_inner f n with
        | some v =>
          intro _
          exact ⟨g, n.device.new_tensor v.shape 1, Or.inl rfl, rfl⟩
        | none =>
          simp only
          obtain ⟨_, k2⟩ := forward_changes_values_only g node
          cases hr : (g.forward node).ret with
          | error e => intro h; exact absurd k2 h
          | ok v =>
            simp only
            cases ha : (g.forward node).g.ACCESS node with
            | none => intro h; exact absurd k2 h
            | some n1 =>
              simp only
              cases hv1 : n1.value with
              | none => intro h; exact absurd k2 h
              | some v1 =>
                intro _
                refine ⟨(g.forward node).g, n1.device.new_tensor v1.shape 1, Or.inr rfl, ?_⟩
                simp only [seed_and_sweep]
                rw [backward_calls_append, k2]
                rfl

/-- C17. Gradient completeness at visit time, for operations that honour the contract
the specification gives for backward (accumulate into the argument gradients, do not
overwrite): on a reachable graph whose backward contracts keep the gradients they are
handed valid, when `backward(node)` invokes the backward contract of step `i`,
* every step `j` on the dependency path of `node` that has the output `(i, 0)` of step
  `i` among its arguments has had its backward contract invoked before;
* that invocation was made by the round of step `j` of the sweep, which runs from the
  step of `node` in the graph `gf` (the graph before the call, or the one after the
  `forward` call it makes) with the gradient of `node` seeded: in the graph `gj` in which
  the sweep reaches that round, the contract of step `j` is handed the pointers to the
  gradients of its arguments, the pointer `(i, 0)` to the gradient accumulator of step
  `i` among them, behind it a valid gradient (the one accumulated so far when there was
  one), and what the contract leaves behind this pointer is the gradient of step `i`
  after the round;
* the rounds of the sweep for the steps below `i`, which are the rounds that follow the
  one of step `i`, leave the gradient slot of step `i` as it is. -/
theorem gradient_complete_at_visit {α : Type} [Zero α] [One α] (g : Graph α)
    (hr : Reachable g) (hacc : g.Accumulating) (node : Node) (hv : g.valid node) (i : Nat)
    (hi : i ∈ backward_calls (g.backward node).log) :
    (∀ j f, DependsOn g node.fid_ j → g.funcs_[j]? = some f → (⟨i, 0⟩ : Address) ∈ f.args →
        List.Sublist [j, i] (backward_calls (g.backward node).log)) ∧
      (∃ (gf : Graph α) (t : Tensor α), (gf = g ∨ gf = (g.forward node).g) ∧
        backward_calls (g.backward node).log =
          backward_calls (backward_loop (node.fid_ + 1)
            (gf.set_grad ⟨node.fid_, node.vid_⟩ (some t))).log ∧
        ∀ j f, DependsOn g node.fid_ j → g.funcs_[j]? = some f →
          (⟨i, 0⟩ : Address) ∈ f.args →
          ∃ (gj : Graph α) (cur_value cur_grad : Tensor α)
            (arg_values : List (Option (Tensor α))),
            gj = sweep_state (node.fid_ + 1) j
              (gf.set_grad ⟨node.fid_, node.vid_⟩ (some t)) ∧
            (backward_step j gj).log = [Event.backward j cur_grad] ∧
            (gather_grads f.args gj).1 = Except.ok arg_values ∧
            (gather_grads f.args gj).2.grad_at i ≠ none ∧
            (∀ t1, gj.grad_at i = some t1 → (gather_grads f.args gj).2.grad_at i = some t1) ∧
            (backward_step j gj).g.grad_at i =
              (f.func.backward cur_value cur_grad arg_values f.args
                (gather_grads f.args gj).2.grad_heap).heap ⟨i, 0⟩) ∧
      (∀ (m : Nat) (g1 : Graph α), g1.Topological → m ≤ i →
        (backward_loop m g1).g.grad_at i = g1.grad_at i) := by
  obtain ⟨ht, _⟩ := invariants_of_reachable hr
  obtain ⟨p1, p2, _, _⟩ := backward_calls_spec g ht hacc node hv
  have hcons : ∀ j f, DependsOn g node.fid_ j → g.funcs_[j]? = some f →
      (⟨i, 0⟩ : Address) ∈ f.args → i < j ∧ j ∈ backward_calls (g.backward node).log := by
    intro j f hd hf hmem
    have hlt : i < j := ((ht j f hf).2 _ hmem).1
    exact ⟨hlt, p2 i hi j hlt hd⟩
  refine ⟨?_, ?_, ?_⟩
  · intro j f hd hf hmem
    obtain ⟨hlt, hj⟩ := hcons j f hd hf hmem
    exact pairwise_gt_sublist _ p1 j i hj hi hlt
  · have hne : backward_calls (g.backward node).log ≠ [] := by
      intro h
      rw [h] at hi
      cases hi
    obtain ⟨gf, t, hgf, hlog⟩ := backward_start g node hne
    refine ⟨gf, t, hgf, hlog, ?_⟩
    intro j f hd hf hmem
    obtain ⟨_, hj⟩ := hcons j f hd hf hmem
    rw [hlog] at hj
    obtain ⟨_, he, cg, hlogj⟩ := backward_loop_trace _ _ j hj
    have hfr : gf.erase_values = g.erase_values := by
      rcases hgf with h | h
      · rw [h]
      · rw [h]
        exact (forward_changes_values_only g node).1
    have he2 := map_nodes_set_grad gf ⟨node.fid_, node.vid_⟩ (some t)
    have htj := topological_of_map_nodes_eq he
      (topological_of_map_nodes_eq he2 (topological_of_map_nodes_eq hfr ht))
    obtain ⟨f1, hf1, hfun1, hargs1, _⟩ := funcs_of_map_nodes_eq hfr.symm j f hf
    obtain ⟨f2, hf2, hfun2, hargs2, _⟩ := funcs_of_map_nodes_eq he2.symm j f1 hf1
    obtain ⟨f3, hf3, hfun3, hargs3, _⟩ := funcs_of_map_nodes_eq he.symm j f2 hf2
    have hfun : f3.func = f.func := hfun3.trans (hfun2.trans hfun1)
    have hargs : f3.args = f.args := hargs3.trans (hargs2.trans hargs1)
    obtain ⟨n, cv, avs, _, _, hgath, _, hall⟩ :=
      backward_step_pointers j _ htj f3 hf3 cg hlogj
    rw [hargs, hfun] at hall
    rw [hargs] at hgath
    obtain ⟨q1, q2, q3⟩ := hall ⟨i, 0⟩ hmem
    exact ⟨_, cv, cg, avs, rfl, hlogj, hgath, q1, q2, q3⟩
  · intro m g1 ht1 hm
    exact (backward_loop_grads m g1 ht1).1 i hm

theorem gradient_complete_at_visit_witness :
    Reachable Scenario.gAC ∧ Scenario.gAC.Accumulating ∧ Scenario.gAC.valid Scenario.nC ∧
      backward_calls (Scenario.gAC.backward Scenario.nC).log = [1, 0] ∧
      0 ∈ backward_calls (Scenario.gAC.backward Scenario.nC).log ∧
      (backward_step 1 (sweep_state 2 1 ((Scenario.gAC.forward Scenario.nC).g.set_grad ⟨1, 0⟩
        (some (Scenario.D0.new_tensor ⟨[1], 1⟩ 1))))).g.grad_at 0 =
          some (Scenario.vec [2]) ∧
      List.Sublist [1, 0] (backward_calls (Scenario.gAC.backward Scenario.nC).log) ∧
      (∃ (gf : Graph Int) (t : Tensor Int),
        (gf = Scenario.gAC ∨ gf = (Scenario.gAC.forward Scenario.nC).g) ∧
        backward_calls (Scenario.gAC.backward Scenario.nC).log =
          backward_calls (backward_loop (Scenario.nC.fid_ + 1)
            (gf.set_grad ⟨Scenario.nC.fid_, Scenario.nC.vid_⟩ (some t))).log ∧
        ∀ j f, DependsOn Scenario.gAC Scenario.nC.fid_ j → Scenario.gAC.funcs_[j]? = some f →
          (⟨0, 0⟩ : Address) ∈ f.args →
          ∃ (gj : Graph Int) (cur_value cur_grad : Tensor Int)
            (arg_values : List (Option (Tensor Int))),
            gj = sweep_state (Scenario.nC.fid_ + 1) j
              (gf.set_grad ⟨Scenario.nC.fid_, Scenario.nC.vid_⟩ (some t)) ∧
            (backward_step j gj).log = [Event.backward j cur_grad] ∧
            (gather_grads f.args gj).1 = Except.ok arg_values ∧
            (gather_grads f.args gj).2.grad_at 0 ≠ none ∧
            (∀ t1, gj.grad_at 0 = some t1 → (gather_grads f.args gj).2.grad_at 0 = some t1) ∧
            (backward_step j gj).g.grad_at 0 =
              (f.func.backward cur_value cur_grad arg_values f.args
                (gather_grads f.args gj).2.grad_heap).heap ⟨0, 0⟩) ∧
      (∀ (m : Nat) (g1 : Graph Int), g1.Topological → m ≤ 0 →
        (backward_loop m g1).g.grad_at 0 = g1.grad_at 0) :=
  have hr : Reachable Scenario.gAC :=
    Reachable.add_function _ _ (Reachable.add_function _ _ (Reachable.empty 1))
  have h := gradient_complete_at_visit Scenario.gAC hr accumulating_gAC Scenario.nC rfl 0
    (by decide)
  ⟨hr, accumulating_gAC, rfl, by decide, by decide, by decide,
    h.1 1 ⟨Scenario.add, [⟨0, 0⟩, ⟨0, 0⟩], [⟨⟨[1], 1⟩, Scenario.D0, none, none, []⟩]⟩
      (Active.seed rfl) rfl (by decide),
    h.2.1, h.2.2⟩

end primitiv
